import Mathlib

/-!
A shallow embedding of the variation-graph core (`src/vg.cpp`) from the
StephenHwang/vg repository, together with theorems settling the frozen
claims about it.  Graph state is modelled explicitly: the node vector, the
edge vector, the two side-adjacency indices and the canonical-sides edge
index are all separate fields kept in lockstep by the embedded operations,
exactly as in the source.  The `Paths` collection lives in `path.cpp`,
which is not part of the provided sources; its operations are modelled
from the specification where needed and marked as such.
-/

namespace VgSpec

/-- Complement of a single base, as in the toolkit's reverse_complement
helper: A↔T, C↔G, everything else becomes N. -/
def complementChar (c : Char) : Char :=
  if c = 'A' then 'T'
  else if c = 'T' then 'A'
  else if c = 'C' then 'G'
  else if c = 'G' then 'C'
  else 'N'

/-- Reverse complement of a sequence (sequences are modelled as lists of
characters). -/
def reverse_complement (s : List Char) : List Char :=
  (s.map complementChar).reverse

/-- One side of a node: the node id and whether it is the end (true) or
the start (false), as in `NodeSide`. -/
structure NodeSide where
  node : Nat
  is_end : Bool
deriving DecidableEq, Repr

/-- The strict order on node sides used by `std::minmax` over `NodeSide`
(lexicographic on (node, is_end) with false < true). -/
def NodeSide.lt (a b : NodeSide) : Bool :=
  a.node < b.node || (a.node = b.node && (!a.is_end && b.is_end))

/-- `std::minmax(side1, side2)`: the canonically ordered pair of sides. -/
def minmaxSides (a b : NodeSide) : NodeSide × NodeSide :=
  if NodeSide.lt b a then (b, a) else (a, b)

/-- An edge record: `from`, `to`, `from_start`, `to_end` as in the `Edge`
protobuf message. -/
structure EdgeRec where
  efrom : Nat
  eto : Nat
  from_start : Bool
  to_end : Bool
deriving DecidableEq, Repr

/-- The side of the `from` node an edge attaches to:
`NodeSide(edge->from(), !edge->from_start())`. -/
def EdgeRec.fromSide (e : EdgeRec) : NodeSide := ⟨e.efrom, !e.from_start⟩

/-- The side of the `to` node an edge attaches to:
`NodeSide(edge->to(), edge->to_end())`. -/
def EdgeRec.toSide (e : EdgeRec) : NodeSide := ⟨e.eto, e.to_end⟩

/-- `NodeSide::pair_from_edge`: the canonically ordered side pair of an
edge. -/
def pair_from_edge (e : EdgeRec) : NodeSide × NodeSide :=
  minmaxSides e.fromSide e.toSide

/-- An edit of a mapping: `from_length`, `to_length` and the inserted
sequence, as in the `Edit` message described by the specification. -/
structure Edit where
  from_length : Nat
  to_length : Nat
  seq : List Char
deriving DecidableEq, Repr

/-- A path mapping: target node id, rank, orientation and edit list.
Modelled from the spec: the `mapping_t` type of the missing `path.hpp`;
a mapping is a position plus an ordered list of edits, and carries the
rank used to order it within its path. -/
structure MappingT where
  node_id : Nat
  rank : Int
  is_reverse : Bool
  edits : List Edit
deriving DecidableEq, Repr

/-- `mapping_from_length`: total number of reference bases covered by the
mapping's edits. -/
def mapping_from_length (m : MappingT) : Nat :=
  (m.edits.map (·.from_length)).sum

/-- A perfect match edit: equal lengths and no inserted sequence. -/
def edit_is_match (e : Edit) : Bool :=
  e.from_length == e.to_length && e.seq.isEmpty

/-- Modelled from the spec: `mapping_is_simple_match` of the missing
`path.cpp`; true when the mapping consists of a single perfect match
edit ("fully cover each node with single match edits"). -/
def mapping_is_simple_match (m : MappingT) : Bool :=
  match m.edits with
  | [e] => edit_is_match e
  | _ => false

/-- An oriented node traversal: node id plus a backward flag, as in
`NodeTraversal` (values rather than node pointers). -/
structure Trav where
  node : Nat
  backward : Bool
deriving DecidableEq, Repr

/-- Flip a traversal to the opposite strand (`NodeTraversal::reverse`). -/
def Trav.rev (t : Trav) : Trav := ⟨t.node, !t.backward⟩

/-- Modelled from the spec: the `Paths` collection of the missing
`path.cpp`/`path.hpp`: named ordered walks, each path being an ordered
list of ranked mappings. -/
abbrev Paths := List (String × List MappingT)

/-- Modelled from the spec: `Paths::of_node` of the missing `path.cpp`:
the names of the paths that have a mapping on the given node.  The source
returns a `set<string>`; because path names are unique and both queries
filter the same underlying name list, list equality of the results
coincides with set equality. -/
def Paths.of_node (p : Paths) (id : Nat) : List String :=
  p.filterMap (fun nm => if nm.2.any (fun m => m.node_id == id) then some nm.1 else none)

/-- Modelled from the spec: `Paths::get_node_mapping_by_path_name` of the
missing `path.cpp`: for each path that visits the node, the mappings it
has on that node. -/
def Paths.get_node_mapping_by_path_name (p : Paths) (id : Nat) :
    List (String × List MappingT) :=
  p.filterMap (fun nm =>
    let onNode := nm.2.filter (fun m => m.node_id == id)
    if onNode.isEmpty then none else some (nm.1, onNode))

/-- Modelled from the spec: `Paths::has_node_mapping`. -/
def Paths.has_node_mapping (p : Paths) (id : Nat) : Bool :=
  p.any (fun nm => nm.2.any (fun m => m.node_id == id))

/-- Insert into a rank-sorted association list, overwriting an existing
entry of the same rank (the `r1[name][m->rank] = m` assignment on a
`std::map` keyed by rank). -/
def insertByRank (l : List (Int × MappingT)) (r : Int) (m : MappingT) :
    List (Int × MappingT) :=
  match l with
  | [] => [(r, m)]
  | (r', m') :: rest =>
    if r < r' then (r, m) :: (r', m') :: rest
    else if r = r' then (r, m) :: rest
    else (r', m') :: insertByRank rest r m

/-- Build the rank-keyed map of a mapping list, as the source does with a
`std::map<int, mapping_t*>`. -/
def rankMap (ms : List MappingT) : List (Int × MappingT) :=
  ms.foldl (fun acc m => insertByRank acc m.rank m) []

/-- Look up a rank in a rank-keyed association list (`ranked2.find`). -/
def lookupRank (l : List (Int × MappingT)) (r : Int) : Option MappingT :=
  match l with
  | [] => none
  | (r', m) :: rest => if r = r' then some m else lookupRank rest r

/-- Erase a rank from a rank-keyed association list (`ranked2.erase`). -/
def eraseRank (l : List (Int × MappingT)) (r : Int) : List (Int × MappingT) :=
  match l with
  | [] => []
  | (r', m) :: rest => if r = r' then rest else (r', m) :: eraseRank rest r

/-! ### Finite-map helpers

The hash maps of the source (`node_by_id`, `edges_on_start`, `edges_on_end`,
`edge_by_sides`) are modelled as association lists with unique keys; an
update overwrites the entry in place and an erase drops it. -/

/-- Look up a key in an association list. -/
def alookup {α β : Type} [DecidableEq α] (l : List (α × β)) (k : α) : Option β :=
  match l with
  | [] => none
  | (k', v) :: rest => if k = k' then some v else alookup rest k

/-- Overwrite the value of a key in place, appending if the key is new. -/
def aupdate {α β : Type} [DecidableEq α] (l : List (α × β)) (k : α) (v : β) :
    List (α × β) :=
  match l with
  | [] => [(k, v)]
  | (k', v') :: rest =>
    if k = k' then (k, v) :: rest else (k', v') :: aupdate rest k v

/-- Remove a key from an association list (all occurrences — the maps
modelled here have unique keys, so this coincides with hash-map erase). -/
def aerase {α β : Type} [DecidableEq α] (l : List (α × β)) (k : α) :
    List (α × β) :=
  match l with
  | [] => []
  | (k', v') :: rest =>
    if k = k' then aerase rest k else (k', v') :: aerase rest k

/-- `swap_remove`: remove one occurrence of an element from a vector by
overwriting it with the last element and popping the back (a helper of the
missing `vg.hpp`; its effect on the stored multiset is removal of one
occurrence). -/
def swapRemove {α : Type} [DecidableEq α] (l : List α) (x : α) : List α :=
  match l.indexOf? x with
  | none => l
  | some i =>
    match l.getLast? with
    | none => l
    | some last => (l.set i last).dropLast

/-- Remove the element at position `i` of a vector by swapping it with the
last element and popping the back (the `SwapElements`/`ReleaseLast` pattern
used on the protobuf node and edge vectors). -/
def vecSwapRemoveAt {α : Type} (l : List α) (i : Nat) : List α :=
  match l.getLast? with
  | none => l
  | some last => (l.set i last).dropLast

/-! ### The graph state

`VG` collects the state the embedded operations work on: the node vector
(`graph.node`), the edge vector (`graph.edge`), the id index, the two
side-adjacency indices, the canonical-sides edge index, the id counter
and the path collection. -/

structure VG where
  nodes : List (Nat × List Char)
  node_by_id : List (Nat × List Char)
  edges : List EdgeRec
  edges_on_start : List (Nat × List (Nat × Bool))
  edges_on_end : List (Nat × List (Nat × Bool))
  edge_by_sides : List ((NodeSide × NodeSide) × EdgeRec)
  current_id : Nat
  paths : Paths
deriving DecidableEq

/-- The empty graph after `init()`: `current_id` starts at 1. -/
def VG.empty : VG :=
  { nodes := [], node_by_id := [], edges := [], edges_on_start := [],
    edges_on_end := [], edge_by_sides := [], current_id := 1, paths := [] }

/-- `edges_start(id)`: a node's start-side adjacency vector (empty when the
node has no entry). -/
def VG.edgesStart (g : VG) (id : Nat) : List (Nat × Bool) :=
  (alookup g.edges_on_start id).getD []

/-- `edges_end(id)`: a node's end-side adjacency vector. -/
def VG.edgesEnd (g : VG) (id : Nat) : List (Nat × Bool) :=
  (alookup g.edges_on_end id).getD []

/-- `has_node(id)`. -/
def VG.hasNode (g : VG) (id : Nat) : Bool :=
  (alookup g.node_by_id id).isSome

/-- `get_node(id)->sequence()`, when the node exists. -/
def VG.getNodeSeq (g : VG) (id : Nat) : Option (List Char) :=
  alookup g.node_by_id id

/-- `get_edge(side1, side2)`: look the canonical pair up in
`edge_by_sides`. -/
def VG.getEdge (g : VG) (s1 s2 : NodeSide) : Option EdgeRec :=
  alookup g.edge_by_sides (minmaxSides s1 s2)

/-- `has_edge(edge)`: membership of the edge's canonical side pair in
`edge_by_sides`. -/
def VG.hasEdge (g : VG) (e : EdgeRec) : Bool :=
  (alookup g.edge_by_sides (pair_from_edge e)).isSome

/-- `max_node_id()`: maximum id over the node vector, 0 when empty. -/
def VG.maxNodeId (g : VG) : Nat :=
  g.nodes.foldl (fun mx n => if n.1 > mx then n.1 else mx) 0

/-- Append an entry to one of the two side-adjacency indices
(`edges_on_start[id].emplace_back(...)` and the end-side analogue). -/
def adjPush (idx : List (Nat × List (Nat × Bool))) (id : Nat) (x : Nat × Bool) :
    List (Nat × List (Nat × Bool)) :=
  aupdate idx id ((alookup idx id).getD [] ++ [x])

/-- Remove one occurrence of an entry from a side-adjacency index with
`swap_remove`, erasing the sub-index when it becomes empty. -/
def adjRemove (idx : List (Nat × List (Nat × Bool))) (id : Nat) (x : Nat × Bool) :
    List (Nat × List (Nat × Bool)) :=
  let l := swapRemove ((alookup idx id).getD []) x
  if l.isEmpty then aerase idx id else aupdate idx id l

/-- `index_edge_by_node_sides`: record the edge under its canonical side
pair and add the adjacency entries on the side of its `from` node and —
unless the edge is a self-loop on a single side — the side of its `to`
node, each entry carrying the relative orientation. -/
def VG.indexEdgeByNodeSides (g : VG) (e : EdgeRec) : VG :=
  let rel := e.from_start != e.to_end
  let g := { g with edge_by_sides := aupdate g.edge_by_sides (pair_from_edge e) e }
  let g :=
    if e.from_start then
      { g with edges_on_start := adjPush g.edges_on_start e.efrom (e.eto, rel) }
    else
      { g with edges_on_end := adjPush g.edges_on_end e.efrom (e.eto, rel) }
  if e.efrom ≠ e.eto || e.from_start == e.to_end then
    if e.to_end then
      { g with edges_on_end := adjPush g.edges_on_end e.eto (e.efrom, rel) }
    else
      { g with edges_on_start := adjPush g.edges_on_start e.eto (e.efrom, rel) }
  else g

/-- `unindex_edge_by_node_sides`: drop the canonical record and remove the
adjacency entries added by `indexEdgeByNodeSides` (no-op when the edge is
not present). -/
def VG.unindexEdgeByNodeSides (g : VG) (e : EdgeRec) : VG :=
  if ¬ g.hasEdge e then g else
  let rel := e.from_start != e.to_end
  let g := { g with edge_by_sides := aerase g.edge_by_sides (pair_from_edge e) }
  let g :=
    if e.from_start then
      { g with edges_on_start := adjRemove g.edges_on_start e.efrom (e.eto, rel) }
    else
      { g with edges_on_end := adjRemove g.edges_on_end e.efrom (e.eto, rel) }
  if e.efrom ≠ e.eto || e.from_start == e.to_end then
    if e.to_end then
      { g with edges_on_end := adjRemove g.edges_on_end e.eto (e.efrom, rel) }
    else
      { g with edges_on_start := adjRemove g.edges_on_start e.eto (e.efrom, rel) }
  else g

/-- `create_edge(from, to, from_start, to_end)`: idempotent on the side
pair; otherwise append the record to the edge vector and index it.
Returns the (existing or new) edge. -/
def VG.createEdge (g : VG) (efrom eto : Nat) (from_start to_end : Bool) :
    VG × EdgeRec :=
  match g.getEdge ⟨efrom, !from_start⟩ ⟨eto, to_end⟩ with
  | some e => (g, e)
  | none =>
    let e : EdgeRec := ⟨efrom, eto, from_start, to_end⟩
    ({ (g.indexEdgeByNodeSides e) with edges := g.edges ++ [e] }, e)

/-- The `NodeTraversal` overload of `create_edge`: connect the right side
of `left` to the left side of `right`. -/
def VG.createEdgeTrav (g : VG) (left right : Trav) : VG × EdgeRec :=
  g.createEdge left.node right.node left.backward right.backward

/-- `destroy_edge(Edge*)`: unindex, then remove the record from the edge
vector by the swap-with-last pattern (no-op when absent). -/
def VG.destroyEdge (g : VG) (e : EdgeRec) : VG :=
  if ¬ g.hasEdge e then g else
  let g := g.unindexEdgeByNodeSides e
  match g.edges.indexOf? e with
  | none => g
  | some i => { g with edges := vecSwapRemoveAt g.edges i }

/-- `destroy_edge(side1, side2)`. -/
def VG.destroyEdgeSides (g : VG) (s1 s2 : NodeSide) : VG :=
  match g.getEdge s1 s2 with
  | some e => g.destroyEdge e
  | none => g

/-! ### Node creation and destruction -/

/-- The body of `create_node(seq, id)` after its `assert(id != 0)`: append
the node to the vector and drop it into the id index. -/
def VG.createNodeWithId (g : VG) (s : List Char) (id : Nat) : VG :=
  { g with nodes := g.nodes ++ [(id, s)],
           node_by_id := aupdate g.node_by_id id s }

/-- `create_node(seq, id)` with its assertion: fails (aborts) exactly when
the supplied id is 0. -/
def VG.createNodeChecked (g : VG) (s : List Char) (id : Nat) : Option VG :=
  if id = 0 then none else some (g.createNodeWithId s id)

/-- `create_node(seq)`: when `current_id` still has its initial value 1 it
is re-seeded to `max_node_id() + 1`; the node gets the (possibly
re-seeded) counter value and the counter advances.  Returns the new
state and the id assigned to the node. -/
def VG.createNode (g : VG) (s : List Char) : VG × Nat :=
  let cid := if g.current_id = 1 then g.maxNodeId + 1 else g.current_id
  ({ g.createNodeWithId s cid with current_id := cid + 1 }, cid)

/-- The strict order on canonical side pairs used by the
`std::set<pair<NodeSide, NodeSide>>` collecting edges to destroy. -/
def pairLt (a b : NodeSide × NodeSide) : Bool :=
  NodeSide.lt a.1 b.1 || (a.1 = b.1 && NodeSide.lt a.2 b.2)

/-- Insert into a sorted duplicate-free list of side pairs (the
`std::set` insertion). -/
def insertSortedPair (l : List (NodeSide × NodeSide)) (x : NodeSide × NodeSide) :
    List (NodeSide × NodeSide) :=
  match l with
  | [] => [x]
  | y :: rest =>
    if pairLt x y then x :: y :: rest
    else if x = y then y :: rest
    else y :: insertSortedPair rest x

/-- `destroy_node(id)`: collect the side pairs of all edges recorded on the
node's two sides into a set, destroy each, clear the node's two adjacency
sub-indices, and remove the node from the vector (swap-with-last) and from
the id index.  No-op on a nonexistent node.  The path collection is not
touched. -/
def VG.destroyNode (g : VG) (id : Nat) : VG :=
  match alookup g.node_by_id id with
  | none => g
  | some s =>
    let startPairs := (g.edgesStart id).map
      (fun e => minmaxSides ⟨id, false⟩ ⟨e.1, !e.2⟩)
    let endPairs := (g.edgesEnd id).map
      (fun e => minmaxSides ⟨id, true⟩ ⟨e.1, e.2⟩)
    let toDestroy := (startPairs ++ endPairs).foldl insertSortedPair []
    let g := toDestroy.foldl (fun g p => g.destroyEdgeSides p.1 p.2) g
    let g := { g with edges_on_start := aerase g.edges_on_start id,
                      edges_on_end := aerase g.edges_on_end id }
    let g :=
      match g.nodes.indexOf? (id, s) with
      | none => g
      | some i => { g with nodes := vecSwapRemoveAt g.nodes i }
    { g with node_by_id := aerase g.node_by_id id }

/-! ### Traversal enumeration and handle iteration -/

/-- `follow_edges` with an iteratee that never stops: the list of
traversals one edge away, respecting strand. -/
def VG.followEdgesList (g : VG) (h : Trav) (go_left : Bool) : List Trav :=
  let edge_set := if go_left != h.backward then g.edgesStart h.node
                  else g.edgesEnd h.node
  edge_set.map (fun x => ⟨x.1, h.backward != x.2⟩)

/-- `nodes_prev`: traversals attached to the relative left of a traversal,
in adjacency-vector order. -/
def VG.nodesPrev (g : VG) (t : Trav) : List Trav :=
  (if t.backward then g.edgesEnd t.node else g.edgesStart t.node).map
    (fun p => ⟨p.1, p.2 != t.backward⟩)

/-- `nodes_next`: traversals attached to the relative right of a
traversal. -/
def VG.nodesNext (g : VG) (t : Trav) : List Trav :=
  (if t.backward then g.edgesStart t.node else g.edgesEnd t.node).map
    (fun p => ⟨p.1, p.2 != t.backward⟩)

/-- The node ids whose handles are passed to the iteratee by
`for_each_handle(iteratee, parallel = false)`: the vector is walked in
order and the loop returns as soon as the iteratee answers `false`. -/
def forEachHandleSerialVisited : List (Nat × List Char) → (Nat → Bool) → List Nat
  | [], _ => []
  | (id, _) :: rest, f =>
    id :: (if f id then forEachHandleSerialVisited rest f else [])

/-- The node ids passed to the iteratee by
`for_each_handle(iteratee, parallel = true)`: every vector slot is
processed regardless of the value the iteratee returns (the loop body
ignores it — the early return is commented out); OpenMP scheduling
permutes the order, which no fact proved here depends on. -/
def VG.forEachHandleParallelVisited (g : VG) (_f : Nat → Bool) : List Nat :=
  g.nodes.map (·.1)

/-- Serial visit list of a graph state. -/
def VG.forEachHandleSerialVisitedG (g : VG) (f : Nat → Bool) : List Nat :=
  forEachHandleSerialVisited g.nodes f

/-! ### apply_orientation -/

/-- The handle overload of `destroy_edge`: resolve the two handles to the
sides they connect and destroy that edge if present. -/
def VG.destroyEdgeHandles (g : VG) (l r : Trav) : VG :=
  match g.getEdge ⟨l.node, !l.backward⟩ ⟨r.node, r.backward⟩ with
  | some e => g.destroyEdge e
  | none => g

/-- `get_sequence(handle)`: the stored sequence, reverse complemented for a
reverse handle (empty when the node is absent — the source throws there,
and every use below is guarded by node existence). -/
def VG.getSequence (g : VG) (h : Trav) : List Char :=
  let s := (g.getNodeSeq h.node).getD []
  if h.backward then reverse_complement s else s

/-- `apply_orientation(handle)`: identity on a forward handle; on a reverse
handle, collect the neighbours on both sides, destroy the incident edges,
destroy the node, re-create it under the same id with the reverse
complemented sequence, and reconnect the neighbours (self loops are
redirected to the new node).  The path collection is never touched. -/
def VG.applyOrientation (g : VG) (h : Trav) : VG × Trav :=
  if ¬ h.backward then (g, h) else
  let rev_handle := h.rev
  let right_nodes := g.followEdgesList h false
  let left_nodes := g.followEdgesList h true
  let g := left_nodes.foldl (fun g l => g.destroyEdgeHandles l h) g
  let g := right_nodes.foldl (fun g r => g.destroyEdgeHandles h r) g
  let new_sequence := g.getSequence h
  let id := h.node
  let g := g.destroyNode id
  let g := g.createNodeWithId new_sequence id
  let new_handle : Trav := ⟨id, false⟩
  let g := left_nodes.foldl (fun g l =>
    let l' := if l = h then new_handle.rev
              else if l = rev_handle then new_handle else l
    (g.createEdgeTrav l' new_handle).1) g
  let g := right_nodes.foldl (fun g r =>
    let r' := if r = h then new_handle.rev
              else if r = rev_handle then new_handle else r
    (g.createEdgeTrav new_handle r').1) g
  (g, new_handle)

/-! ### Handle encoding

Modelled from the spec: the 64-bit handle constants of the missing
`vg.hpp` header.  The usage in `get_handle` / `get_id` /
`get_is_reverse` / `flip` forces the layout: the id lives in the low 63
bits and the high bit flags orientation. -/

/-- The orientation bit of a handle. -/
def HIGH_BIT : Nat := 2 ^ 63

/-- The id mask of a handle. -/
def LOW_BITS : Nat := 2 ^ 63 - 1

/-- `get_handle(node_id, is_reverse)`: the id with the high bit set for a
reverse handle. -/
def get_handle (node_id : Nat) (is_reverse : Bool) : Nat :=
  if is_reverse then node_id ||| HIGH_BIT else node_id

/-- `get_id(handle)`: mask the handle down to its low bits. -/
def get_id (handle : Nat) : Nat := handle &&& LOW_BITS

/-- `get_is_reverse(handle)`: whether the high bit is set. -/
def get_is_reverse (handle : Nat) : Bool := handle &&& HIGH_BIT ≠ 0

/-- `flip(handle)`: toggle the high bit. -/
def flipHandle (handle : Nat) : Nat := handle ^^^ HIGH_BIT

/-! ### The perfect-path-neighbor predicate -/

/-- `mapping_is_total_match`: a single perfect match edit covering the
whole node the mapping sits on. -/
def VG.mappingIsTotalMatch (g : VG) (m : MappingT) : Bool :=
  mapping_is_simple_match m &&
    mapping_from_length m == ((g.getNodeSeq m.node_id).getD []).length

/-- The adjacency-verification loop of `nodes_are_perfect_path_neighbors`:
walk the left node's rank-keyed mappings; each must find its partner at
rank ±1 in the right node's map, with consistent orientation, and the
partner is erased so it cannot be matched twice.  Returns the remaining
right-hand map on success. -/
def matchRanks (leftBw rightBw : Bool) :
    List (Int × MappingT) → List (Int × MappingT) → Option (List (Int × MappingT))
  | [], r2 => some r2
  | (r, m) :: rest, r2 =>
    let fwdAgree := m.is_reverse == leftBw
    let target := r + (if fwdAgree then 1 else -1)
    match lookupRank r2 target with
    | none => none
    | some m' =>
      if fwdAgree != (m'.is_reverse == rightBw) then none
      else matchRanks leftBw rightBw rest (eraseRank r2 target)

/-- `nodes_are_perfect_path_neighbors(left, right)`: the two nodes must
carry the same path-name sets, and per path every left mapping must pair
with a right mapping consecutive in rank and consistently oriented, with
nothing on the right left over.  (The loop verifying that every mapping
is a total match is commented out in the source.) -/
def VG.nodesArePerfectPathNeighbors (g : VG) (left right : Trav) : Bool :=
  if g.paths.of_node left.node ≠ g.paths.of_node right.node then false
  else
    let m1 := g.paths.get_node_mapping_by_path_name left.node
    let m2 := g.paths.get_node_mapping_by_path_name right.node
    m1.all (fun nm =>
      let ranked1 := rankMap nm.2
      let ranked2 := rankMap ((alookup m2 nm.1).getD [])
      match matchRanks left.backward right.backward ranked1 ranked2 with
      | none => false
      | some leftover => leftover.isEmpty)

/-! ### divide_node -/

/-- Split an edit at reference offset `k`.  Modelled from the spec:
`divide_mapping` splits "with edits split proportionally"; a match edit
splits into two matches, an edit with inserted sequence keeps the
corresponding prefix/suffix of it. -/
def splitEditAt (e : Edit) (k : Nat) : Edit × Edit :=
  (⟨k, min k e.to_length, e.seq.take (min k e.seq.length)⟩,
   ⟨e.from_length - k, e.to_length - min k e.to_length,
    e.seq.drop (min k e.seq.length)⟩)

/-- Break an edit list after `k` reference bases. -/
def takeEdits : List Edit → Nat → List Edit × List Edit
  | [], _ => ([], [])
  | e :: rest, k =>
    if k = 0 then ([], e :: rest)
    else if e.from_length ≤ k then
      let (a, b) := takeEdits rest (k - e.from_length)
      (e :: a, b)
    else
      let (e1, e2) := splitEditAt e k
      ([e1], e2 :: rest)

/-- Cut an edit list into consecutive segments of the given reference
lengths (the last segment takes the remainder). -/
def segmentEdits (edits : List Edit) : List Nat → List (List Edit)
  | [] => [edits]
  | k :: ks =>
    let (a, b) := takeEdits edits k
    a :: segmentEdits b ks

/-- Cut one mapping on the divided node into one piece per new node.
Modelled from the spec: the pieces sum to the original mapping, the cut
offsets of a reverse mapping are mirrored from the right, each piece is
reassigned to the corresponding new node in node order, and each piece
keeps the original's rank and orientation (ranks are repaired by a later
`compact_ranks`). -/
def divideMappingPieces (m : MappingT) (parts : List Nat) (pieceLens : List Nat) :
    List MappingT :=
  let lensMappingOrder := if m.is_reverse then pieceLens.reverse else pieceLens
  let segs := segmentEdits m.edits lensMappingOrder.dropLast
  let segsNodeOrder := if m.is_reverse then segs.reverse else segs
  List.zipWith (fun pid es => { m with node_id := pid, edits := es })
    parts segsNodeOrder

/-- The substring pieces `substr(last_pos, pos - last_pos)` produces for a
position list (an out-of-order position yields a negative length, which
`std::string::substr` turns into "the rest of the string"). -/
def piecesOf (s : List Char) : Int → List Int → List (List Char)
  | last, [] => [s.drop last.toNat]
  | last, p :: ps =>
    (if p - last < 0 then s.drop last.toNat
     else (s.drop last.toNat).take (p - last).toNat) :: piecesOf s p ps

/-- The order on `(id, bool)` pairs used by the `std::set` of edges to
create. -/
def idbLt (a b : Nat × Bool) : Bool :=
  a.1 < b.1 || (a.1 = b.1 && (!a.2 && b.2))

/-- The lexicographic order on the `((from, from_start), (to, to_end))`
entries of the edges-to-create set. -/
def e2cLt (a b : (Nat × Bool) × (Nat × Bool)) : Bool :=
  idbLt a.1 b.1 || (a.1 = b.1 && idbLt a.2 b.2)

/-- Insert into the sorted duplicate-free edges-to-create list. -/
def insertSortedE2C (l : List ((Nat × Bool) × (Nat × Bool)))
    (x : (Nat × Bool) × (Nat × Bool)) : List ((Nat × Bool) × (Nat × Bool)) :=
  match l with
  | [] => [x]
  | y :: rest =>
    if e2cLt x y then x :: y :: rest
    else if x = y then y :: rest
    else y :: insertSortedE2C rest x

/-- One step of the node-creating loop of `divide_node`: create a node
for the next piece and remember its id. -/
def createStep (acc : VG × List Nat) (pc : List Char) : VG × List Nat :=
  let (g, nid) := acc.1.createNode pc
  (g, nid :: acc.2)

/-- The successful path of `divide_node`: the substring pieces become
fresh nodes, the edges on the original node's start move to the first
piece's start and those on its end to the last piece's end (self loops
are redirected to the matching piece), consecutive pieces are chained by
forward edges, every path mapping on the node is cut at the same offsets
and replaced in place by the pieces, and the original node is destroyed.
Returns the new node ids in order. -/
def VG.divideNodeCore (g : VG) (id : Nat) (s : List Char) (positions : List Int) :
    VG × List Nat :=
      let pieces := piecesOf s 0 positions
      let (g, partsRev) := pieces.foldl createStep (g, [])
      let parts := partsRev.reverse
      let front := parts.headD 0
      let back := parts.getLastD 0
      let startMoves := (g.edgesStart id).map (fun e =>
        let o := if e.1 = id then (if e.2 then front else back) else e.1
        ((o, e.2), (front, false)))
      let endMoves := (g.edgesEnd id).map (fun e =>
        let o := if e.1 = id then (if e.2 then back else front) else e.1
        ((back, false), (o, e.2)))
      let toCreate := (startMoves ++ endMoves).foldl insertSortedE2C []
      let g := toCreate.foldl
        (fun g e => (g.createEdge e.1.1 e.2.1 e.1.2 e.2.2).1) g
      let g := (parts.zip parts.tail).foldl
        (fun g pq => (g.createEdge pq.1 pq.2 false false).1) g
      let pieceLens := pieces.map List.length
      let newPaths : Paths := g.paths.map
        (fun (nm : String × List MappingT) => (nm.1,
          nm.2.flatMap (fun m =>
            if m.node_id == id then
              let ps := divideMappingPieces m parts pieceLens
              if m.is_reverse then ps.reverse else ps
            else [m])))
      let g := { g with paths := newPaths }
      (g.destroyNode id, parts)

/-- `divide_node(node, positions, parts)`: `none` models the fatal
`exit(1)` on a position below 0 or above the sequence length; otherwise
the work is done by `divideNodeCore`. -/
def VG.divideNode (g : VG) (id : Nat) (positions : List Int) :
    Option (VG × List Nat) :=
  match alookup g.node_by_id id with
  | none => none
  | some s =>
    if positions.any (fun p => p < 0 || p > (s.length : Int)) then none
    else some (g.divideNodeCore id s positions)

/-! ### concat_nodes -/

/-- Modelled from the spec: `Paths::remove_mapping` applied to every
mapping of the run node, as `concat_nodes` does before appending the
replacements. -/
def Paths.removeMappingsOnNode (p : Paths) (id : Nat) : Paths :=
  p.map (fun nm => (nm.1, nm.2.filter (fun m => m.node_id ≠ id)))

/-- Modelled from the spec: `Paths::append_mapping(name, m)` sticks the
mapping at the end of the named path, creating the path if it is new. -/
def Paths.appendMapping (p : Paths) (name : String) (m : MappingT) : Paths :=
  if p.any (fun nm => nm.1 == name) then
    p.map (fun nm => if nm.1 == name then (nm.1, nm.2 ++ [m]) else nm)
  else p ++ [(name, [m])]

/-- `concat_mappings_for_nodes`: one new mapping per visit of a path to
the run, copied from the first node's mappings in rank order, orientation
inverted if the first node is traversed backward, and the edits clobbered
by one full-length perfect match.  `none` models the
`assert(total_length > 0)`. -/
def VG.concatMappingsForNodes (g : VG) (nodes : List Trav) :
    Option (List (String × List MappingT)) :=
  let total_length :=
    (nodes.map (fun t => ((g.getNodeSeq t.node).getD []).length)).sum
  if total_length = 0 then none
  else
    match nodes with
    | [] => none
    | front :: _ =>
      some ((g.paths.get_node_mapping_by_path_name front.node).map (fun nm =>
        (nm.1, (rankMap nm.2).map (fun rm =>
          let m := rm.2
          let m := if front.backward then { m with is_reverse := !m.is_reverse }
                   else m
          { m with edits := [⟨total_length, total_length, []⟩] }))))

/-- `concat_nodes(nodes)`: `none` models the assertions (nonempty run,
distinct first and last traversal, positive total length, and the
orientation checks on self loops).  Otherwise: build the replacement
mappings, create the concatenated node, remove the old mappings and append
the new ones, reconnect the neighbours of the run's two outer sides
(redirecting self loops onto the new node), and destroy the run nodes. -/
def VG.concatNodes (g : VG) (nodes : List Trav) : Option (VG × Nat) :=
  match nodes with
  | [] => none
  | front :: rest =>
    let run := front :: rest
    let back := run.getLast (by simp [run])
    if front = back then none
    else
      match g.concatMappingsForNodes run with
      | none => none
      | some new_mappings =>
        let seq := run.flatMap (fun t => g.getSequence t)
        let (g, nid) := g.createNode seq
        let g := run.foldl
          (fun g t => { g with paths := g.paths.removeMappingsOnNode t.node }) g
        let g := new_mappings.foldl (fun g nm =>
          nm.2.foldl (fun g m =>
            { g with paths := g.paths.appendMapping nm.1 { m with node_id := nid } }) g) g
        let prevs := g.nodesPrev front
        let nexts := g.nodesNext back
        let prevBad := prevs.any (fun prev =>
          if prev.node = back.node then prev.backward != back.backward
          else if prev.node = front.node then !(prev.backward != front.backward)
          else false)
        let nextBad := nexts.any (fun next =>
          if next.node = back.node then !(next.backward != back.backward)
          else false)
        if prevBad || nextBad then none
        else
          let g := prevs.foldl (fun g prev =>
            let prev' :=
              if prev.node = back.node then
                (⟨nid, prev.backward != back.backward⟩ : Trav)
              else if prev.node = front.node then
                ⟨nid, prev.backward != front.backward⟩
              else prev
            (g.createEdgeTrav prev' ⟨nid, false⟩).1) g
          let g := nexts.foldl (fun g next =>
            if next.node = back.node then
              (g.createEdgeTrav ⟨nid, false⟩ ⟨nid, next.backward != back.backward⟩).1
            else if next.node = front.node then g
            else (g.createEdgeTrav ⟨nid, false⟩ next).1) g
          let g := run.foldl (fun g t => g.destroyNode t.node) g
          some (g, nid)

/-! ### unfold

The orientation-inducing DFS and the bounded reverse-strand search of
`VG::unfold`.  The source iterates `set<NodeTraversal>` neighbour sets
(ordered by node address) and an `unordered_set` of reversing edges; the
embedding fixes a deterministic order — neighbours sorted by
(id, orientation), reversing edges in insertion order, and FIFO
tie-breaking among equal priorities in the queue — and no fact proved
below depends on those orders.  The loops take fuel and return `none`
when it runs out, so a `some` result certifies a completed run. -/

/-- The node sequence by id (empty when absent; uses are guarded). -/
def VG.seqOf (g : VG) (id : Nat) : List Char :=
  (g.getNodeSeq id).getD []

/-- `get_edge(left, right)` for two traversals: the edge from the right
side of `left` to the left side of `right`. -/
def VG.getEdgeTravs (g : VG) (l r : Trav) : Option EdgeRec :=
  g.getEdge ⟨l.node, !l.backward⟩ ⟨r.node, r.backward⟩

/-- Order on traversals used for the neighbour sets. -/
def travLt (a b : Trav) : Bool :=
  a.node < b.node || (a.node = b.node && (!a.backward && b.backward))

/-- Insert into a sorted duplicate-free traversal list. -/
def insertSortedTrav (l : List Trav) (x : Trav) : List Trav :=
  match l with
  | [] => [x]
  | y :: rest =>
    if travLt x y then x :: y :: rest
    else if x = y then y :: rest
    else y :: insertSortedTrav rest x

/-- `travs_from`: the set of traversals after a traversal on the same
strand. -/
def VG.travsFrom (g : VG) (t : Trav) : List Trav :=
  (g.nodesNext t).foldl insertSortedTrav []

/-- `travs_to`: the set of traversals before a traversal on the same
strand. -/
def VG.travsTo (g : VG) (t : Trav) : List Trav :=
  (g.nodesPrev t).foldl insertSortedTrav []

/-- Insert into an edge set kept as a duplicate-free list. -/
def setInsertEdge (s : List EdgeRec) (e : EdgeRec) : List EdgeRec :=
  if e ∈ s then s else s ++ [e]

/-- Insert into the reversing-edge set, keeping insertion order. -/
def setInsertRevEdge (s : List (Trav × Trav)) (x : Trav × Trav) :
    List (Trav × Trav) :=
  if x ∈ s then s else s ++ [x]

/-- State of the orientation-inducing DFS: the unfolded graph under
construction, the induced `main_orientation`, the traversed forward
edges and the recorded reversing edges. -/
structure DfsState where
  unfolded : VG
  mo : List (Nat × (Nat × Bool))
  fwdEdges : List EdgeRec
  revEdges : List (Trav × Trav)

/-- Process the forward neighbours of a popped DFS traversal; returns the
updated state and the traversals pushed. -/
def dfsScanFrom (g : VG) (trav : Trav) (st : DfsState) : DfsState × List Trav :=
  let ot := (alookup st.mo trav.node).getD (0, false)
  (g.travsFrom trav).foldl (fun (acc : DfsState × List Trav) next =>
    let (st, pushes) := acc
    match alookup st.mo next.node with
    | some onext =>
      let trav_edge := (g.getEdgeTravs trav next).getD ⟨0, 0, false, false⟩
      if next.backward != onext.2 then
        ({ st with revEdges := setInsertRevEdge st.revEdges (trav, next) }, pushes)
      else if trav_edge ∉ st.fwdEdges then
        ({ st with fwdEdges := st.fwdEdges ++ [trav_edge],
                   unfolded := (st.unfolded.createEdge ot.1 onext.1 false false).1 },
         pushes)
      else (st, pushes)
    | none =>
      let sq := if next.backward then reverse_complement (g.seqOf next.node)
                else g.seqOf next.node
      let (u, nid) := st.unfolded.createNode sq
      let e := (g.getEdgeTravs trav next).getD ⟨0, 0, false, false⟩
      let u := (u.createEdge ot.1 nid false false).1
      ({ st with unfolded := u,
                 mo := aupdate st.mo next.node (nid, next.backward),
                 fwdEdges := setInsertEdge st.fwdEdges e },
       pushes ++ [next])) (st, [])

/-- Process the backward neighbours of a popped DFS traversal. -/
def dfsScanTo (g : VG) (trav : Trav) (st : DfsState) : DfsState × List Trav :=
  let ot := (alookup st.mo trav.node).getD (0, false)
  (g.travsTo trav).foldl (fun (acc : DfsState × List Trav) prev =>
    let (st, pushes) := acc
    match alookup st.mo prev.node with
    | some oprev =>
      let trav_edge := (g.getEdgeTravs prev trav).getD ⟨0, 0, false, false⟩
      if prev.backward != oprev.2 then
        ({ st with revEdges := setInsertRevEdge st.revEdges (trav.rev, prev.rev) },
         pushes)
      else if trav_edge ∉ st.fwdEdges then
        ({ st with fwdEdges := st.fwdEdges ++ [trav_edge],
                   unfolded := (st.unfolded.createEdge oprev.1 ot.1 false false).1 },
         pushes)
      else (st, pushes)
    | none =>
      let sq := if prev.backward then reverse_complement (g.seqOf prev.node)
                else g.seqOf prev.node
      let (u, nid) := st.unfolded.createNode sq
      let e := (g.getEdgeTravs prev trav).getD ⟨0, 0, false, false⟩
      let u := (u.createEdge nid ot.1 false false).1
      ({ st with unfolded := u,
                 mo := aupdate st.mo prev.node (nid, prev.backward),
                 fwdEdges := setInsertEdge st.fwdEdges e },
       pushes ++ [prev])) (st, [])

/-- The DFS stack loop (top of the stack at the head of the list). -/
def dfsLoop (g : VG) : Nat → List Trav → DfsState → Option DfsState
  | 0, stack, st => if stack.isEmpty then some st else none
  | _ + 1, [], st => some st
  | fuel + 1, trav :: stack, st =>
    let (st, pushes1) := dfsScanFrom g trav st
    let (st, pushes2) := dfsScanTo g trav st
    dfsLoop g fuel ((pushes1 ++ pushes2).reverse ++ stack) st

/-- The whole orientation-inducing pass: seed every not-yet-oriented node
in vector order and let it induce an orientation on its component. -/
def VG.unfoldDfs (g : VG) (fuel : Nat) : Option DfsState :=
  g.nodes.foldl (fun (acc : Option DfsState) n =>
    match acc with
    | none => none
    | some st =>
      if (alookup st.mo n.1).isSome then some st
      else
        let (u, nid) := st.unfolded.createNode n.2
        let st := { st with unfolded := u, mo := aupdate st.mo n.1 (nid, false) }
        dfsLoop g fuel [⟨n.1, false⟩] st)
    (some ⟨VG.empty, [], [], []⟩)

/-- State of the reverse-strand search. -/
structure RevState where
  unfolded : VG
  revNodes : List (Nat × Nat)
  revEdgesDone : List EdgeRec
  queued : List (Nat × Bool)
  queue : List (Trav × Int × Nat)
  counter : Nat

/-- Pop the entry of minimal distance (FIFO among equals). -/
def pqPop (q : List (Trav × Int × Nat)) :
    Option ((Trav × Int × Nat) × List (Trav × Int × Nat)) :=
  match q with
  | [] => none
  | x :: _ =>
    let best := q.foldl (fun b y =>
      if y.2.1 < b.2.1 || (y.2.1 = b.2.1 && y.2.2 < b.2.2) then y else b) x
    some (best, q.erase best)

/-- Initialize the reverse-strand search from one recorded reversing edge:
create the reverse copy of the target node if needed, connect the source's
main copy to it in the direction matching the source's orientation, and
queue the target traversal at distance 0. -/
def revInitStep (g : VG) (mo : List (Nat × (Nat × Bool))) (rs : RevState)
    (x : Trav × Trav) : RevState :=
  let init_trav := x.1
  let init_next := x.2
  let rs :=
    if (alookup rs.revNodes init_next.node).isSome then rs
    else
      let moNext := (alookup mo init_next.node).getD (0, false)
      let sq := if moNext.2 then g.seqOf init_next.node
                else reverse_complement (g.seqOf init_next.node)
      let (u, nid) := rs.unfolded.createNode sq
      { rs with unfolded := u, revNodes := aupdate rs.revNodes init_next.node nid }
  let moTrav := (alookup mo init_trav.node).getD (0, false)
  let revNextId := (alookup rs.revNodes init_next.node).getD 0
  let rs :=
    if init_trav.backward == moTrav.2 then
      { rs with unfolded := (rs.unfolded.createEdge moTrav.1 revNextId false false).1 }
    else
      { rs with unfolded := (rs.unfolded.createEdge revNextId moTrav.1 false false).1 }
  if (init_next.node, init_next.backward) ∈ rs.queued then rs
  else
    { rs with queue := rs.queue ++ [(init_next, 0, rs.counter)],
              queued := rs.queued ++ [(init_next.node, init_next.backward)],
              counter := rs.counter + 1 }

/-- Scan the forward neighbours of a popped reverse-strand traversal. -/
def revScan (g : VG) (mo : List (Nat × (Nat × Bool))) (trav : Trav)
    (dist_thru : Int) (rs : RevState) : RevState :=
  (g.travsFrom trav).foldl (fun rs next =>
    let edge := (g.getEdgeTravs trav next).getD ⟨0, 0, false, false⟩
    let moNext := (alookup mo next.node).getD (0, false)
    let moTrav := (alookup mo trav.node).getD (0, false)
    if ((next.backward == moNext.2) == (trav.backward == moTrav.2)) then
      let rs :=
        if (alookup rs.revNodes next.node).isSome then rs
        else
          let sq := if moNext.2 then g.seqOf next.node
                    else reverse_complement (g.seqOf next.node)
          let (u, nid) := rs.unfolded.createNode sq
          { rs with unfolded := u, revNodes := aupdate rs.revNodes next.node nid }
      let rs :=
        if edge ∈ rs.revEdgesDone then rs
        else
          let a := (alookup rs.revNodes trav.node).getD 0
          let b := (alookup rs.revNodes next.node).getD 0
          let u :=
            if trav.backward == moTrav.2 then (rs.unfolded.createEdge b a false false).1
            else (rs.unfolded.createEdge a b false false).1
          { rs with unfolded := u, revEdgesDone := rs.revEdgesDone ++ [edge] }
      if (next.node, next.backward) ∈ rs.queued then rs
      else
        { rs with queue := rs.queue ++ [(next, dist_thru, rs.counter)],
                  queued := rs.queued ++ [(next.node, next.backward)],
                  counter := rs.counter + 1 }
    else rs) rs

/-- The priority-queue loop of the reverse-strand search. -/
def revLoop (g : VG) (mo : List (Nat × (Nat × Bool))) (max_length : Nat) :
    Nat → RevState → Option RevState
  | 0, rs => if rs.queue.isEmpty then some rs else none
  | fuel + 1, rs =>
    match pqPop rs.queue with
    | none => some rs
    | some (entry, rest) =>
      let trav := entry.1
      let dist := entry.2.1
      let rs := { rs with queue := rest }
      let dist_thru := dist + ((g.seqOf trav.node).length : Int)
      if dist_thru ≥ (max_length : Int) then revLoop g mo max_length fuel rs
      else revLoop g mo max_length fuel (revScan g mo trav dist_thru rs)

/-- `unfold(max_length, node_translation)`: induce an orientation by DFS,
then (unless `max_length` is 0) duplicate the reverse strand reachable
from the recorded reversing edges, bounded by `max_length`.  Returns the
unfolded graph and the backward node translation. -/
def VG.unfold (g : VG) (max_length : Nat) (fuel : Nat) :
    Option (VG × List (Nat × (Nat × Bool))) :=
  match g.unfoldDfs fuel with
  | none => none
  | some st =>
    let trans (rn : List (Nat × Nat)) : List (Nat × (Nat × Bool)) :=
      st.mo.map (fun p => (p.2.1, (p.1, p.2.2))) ++
        rn.map (fun p => (p.2, (p.1, !((alookup st.mo p.1).getD (0, false)).2)))
    if max_length = 0 then some (st.unfolded, trans [])
    else
      let rs0 : RevState := ⟨st.unfolded, [], [], [], [], 0⟩
      let rs := st.revEdges.foldl (revInitStep g st.mo) rs0
      match revLoop g st.mo max_length fuel rs with
      | none => none
      | some rs' => some (rs'.unfolded, trans rs'.revNodes)

/-! ## Walks

A walk is an ordered sequence of traversals in which successive
traversals are connected by an edge attaching to the right side of the
predecessor and the left side of the successor; its sequence is the
concatenation of the oriented node sequences. -/

/-- The sequence a walk spells. -/
def VG.walkSeq (g : VG) (ws : List Trav) : List Char :=
  ws.flatMap (fun t => g.getSequence t)

/-- Edge-connectivity along a walk, starting from a given traversal. -/
def isWalkAux (g : VG) : Trav → List Trav → Bool
  | _, [] => true
  | t, u :: rest => (g.getEdgeTravs t u).isSome && g.hasNode u.node && isWalkAux g u rest

/-- A nonempty sequence of traversals forming a walk of the graph. -/
def VG.isWalk (g : VG) (ws : List Trav) : Bool :=
  match ws with
  | [] => false
  | t :: rest => g.hasNode t.node && isWalkAux g t rest

/-! ## Association-list lemmas -/

theorem alookup_aupdate_self {α β : Type} [DecidableEq α]
    (l : List (α × β)) (k : α) (v : β) : alookup (aupdate l k v) k = some v := by
  induction l with
  | nil => simp [aupdate, alookup]
  | cons h t ih =>
    by_cases hk : k = h.1
    · simp [aupdate, hk, alookup]
    · simp [aupdate, hk, alookup, ih]

theorem alookup_aupdate_ne {α β : Type} [DecidableEq α]
    (l : List (α × β)) (k k' : α) (v : β) (h : k' ≠ k) :
    alookup (aupdate l k v) k' = alookup l k' := by
  induction l with
  | nil => simp [aupdate, alookup, h]
  | cons hd t ih =>
    by_cases hk : k = hd.1
    · subst hk
      simp [aupdate, alookup, h]
    · by_cases hk' : k' = hd.1
      · simp [aupdate, alookup, hk, hk']
      · simp [aupdate, alookup, hk, hk', ih]

theorem alookup_aerase_ne {α β : Type} [DecidableEq α]
    (l : List (α × β)) (k k' : α) (h : k' ≠ k) :
    alookup (aerase l k) k' = alookup l k' := by
  induction l with
  | nil => simp [aerase, alookup]
  | cons hd t ih =>
    by_cases hk : k = hd.1
    · subst hk
      rw [show aerase (hd :: t) hd.1 = aerase t hd.1 from by
        simp [aerase], ih, alookup, if_neg h]
    · by_cases hk' : k' = hd.1
      · simp [aerase, alookup, hk, hk']
      · simp [aerase, alookup, hk, hk', ih]

theorem alookup_eq_none_of_not_mem {α β : Type} [DecidableEq α]
    (l : List (α × β)) (k : α) (h : k ∉ l.map Prod.fst) : alookup l k = none := by
  induction l with
  | nil => simp [alookup]
  | cons hd t ih =>
    simp only [List.map_cons, List.mem_cons] at h
    push_neg at h
    simp only [alookup, if_neg h.1]
    exact ih h.2

theorem alookup_aerase_self {α β : Type} [DecidableEq α]
    (l : List (α × β)) (k : α) :
    alookup (aerase l k) k = none := by
  induction l with
  | nil => simp [aerase, alookup]
  | cons hd t ih =>
    by_cases hk : k = hd.1
    · simpa [aerase, hk] using ih
    · simpa [aerase, alookup, hk] using ih

/-! ## Frame lemmas

Which state fields each operation can touch. -/

theorem indexEdge_frame (g : VG) (e : EdgeRec) :
    (g.indexEdgeByNodeSides e).nodes = g.nodes ∧
    (g.indexEdgeByNodeSides e).node_by_id = g.node_by_id ∧
    (g.indexEdgeByNodeSides e).current_id = g.current_id ∧
    (g.indexEdgeByNodeSides e).paths = g.paths ∧
    (g.indexEdgeByNodeSides e).edges = g.edges := by
  unfold VG.indexEdgeByNodeSides
  repeat' split
  all_goals exact ⟨rfl, rfl, rfl, rfl, rfl⟩

theorem unindexEdge_frame (g : VG) (e : EdgeRec) :
    (g.unindexEdgeByNodeSides e).nodes = g.nodes ∧
    (g.unindexEdgeByNodeSides e).node_by_id = g.node_by_id ∧
    (g.unindexEdgeByNodeSides e).current_id = g.current_id ∧
    (g.unindexEdgeByNodeSides e).paths = g.paths ∧
    (g.unindexEdgeByNodeSides e).edges = g.edges := by
  unfold VG.unindexEdgeByNodeSides
  repeat' split
  all_goals exact ⟨rfl, rfl, rfl, rfl, rfl⟩

theorem createEdge_frame (g : VG) (a b : Nat) (fs te : Bool) :
    (g.createEdge a b fs te).1.nodes = g.nodes ∧
    (g.createEdge a b fs te).1.node_by_id = g.node_by_id ∧
    (g.createEdge a b fs te).1.current_id = g.current_id ∧
    (g.createEdge a b fs te).1.paths = g.paths := by
  unfold VG.createEdge
  split
  · exact ⟨rfl, rfl, rfl, rfl⟩
  · have h := indexEdge_frame g ⟨a, b, fs, te⟩
    exact ⟨h.1, h.2.1, h.2.2.1, h.2.2.2.1⟩

theorem destroyEdge_frame (g : VG) (e : EdgeRec) :
    (g.destroyEdge e).nodes = g.nodes ∧
    (g.destroyEdge e).node_by_id = g.node_by_id ∧
    (g.destroyEdge e).current_id = g.current_id ∧
    (g.destroyEdge e).paths = g.paths := by
  unfold VG.destroyEdge
  split
  · exact ⟨rfl, rfl, rfl, rfl⟩
  · dsimp only
    have h := unindexEdge_frame g e
    split
    · exact ⟨h.1, h.2.1, h.2.2.1, h.2.2.2.1⟩
    · exact ⟨h.1, h.2.1, h.2.2.1, h.2.2.2.1⟩

theorem destroyEdgeSides_frame (g : VG) (s1 s2 : NodeSide) :
    (g.destroyEdgeSides s1 s2).nodes = g.nodes ∧
    (g.destroyEdgeSides s1 s2).node_by_id = g.node_by_id ∧
    (g.destroyEdgeSides s1 s2).current_id = g.current_id ∧
    (g.destroyEdgeSides s1 s2).paths = g.paths := by
  unfold VG.destroyEdgeSides
  split
  · exact destroyEdge_frame _ _
  · exact ⟨rfl, rfl, rfl, rfl⟩

theorem destroyEdgeSidesFold_frame (g : VG) (l : List (NodeSide × NodeSide)) :
    (l.foldl (fun g p => g.destroyEdgeSides p.1 p.2) g).nodes = g.nodes ∧
    (l.foldl (fun g p => g.destroyEdgeSides p.1 p.2) g).node_by_id = g.node_by_id ∧
    (l.foldl (fun g p => g.destroyEdgeSides p.1 p.2) g).current_id = g.current_id ∧
    (l.foldl (fun g p => g.destroyEdgeSides p.1 p.2) g).paths = g.paths := by
  induction l generalizing g with
  | nil => exact ⟨rfl, rfl, rfl, rfl⟩
  | cons p rest ih =>
    simp only [List.foldl_cons]
    have h1 := destroyEdgeSides_frame g p.1 p.2
    have h2 := ih (g.destroyEdgeSides p.1 p.2)
    exact ⟨h2.1.trans h1.1, h2.2.1.trans h1.2.1, h2.2.2.1.trans h1.2.2.1,
      h2.2.2.2.trans h1.2.2.2⟩

theorem destroyNode_frame (g : VG) (id : Nat) :
    (g.destroyNode id).current_id = g.current_id ∧
    (g.destroyNode id).paths = g.paths := by
  unfold VG.destroyNode
  split
  · exact ⟨rfl, rfl⟩
  · rename_i s hs
    dsimp only
    have h := destroyEdgeSidesFold_frame g
      (((g.edgesStart id).map (fun e => minmaxSides ⟨id, false⟩ ⟨e.1, !e.2⟩) ++
        (g.edgesEnd id).map (fun e => minmaxSides ⟨id, true⟩ ⟨e.1, e.2⟩)).foldl
          insertSortedPair [])
    split
    · exact ⟨h.2.2.1, h.2.2.2⟩
    · exact ⟨h.2.2.1, h.2.2.2⟩

/-- After `destroy_node(id)` the id index no longer contains `id` (given
unique ids), and every other id resolves as before. -/
theorem destroyNode_node_by_id (g : VG) (id : Nat) :
    (g.destroyNode id).getNodeSeq id = none ∧
    (∀ k, k ≠ id → (g.destroyNode id).getNodeSeq k = g.getNodeSeq k) := by
  unfold VG.destroyNode
  split
  · rename_i hs
    refine ⟨?_, fun k _ => rfl⟩
    simp only [VG.getNodeSeq] at hs ⊢
    exact hs
  · rename_i s hs
    dsimp only
    have h := destroyEdgeSidesFold_frame g
      (((g.edgesStart id).map (fun e => minmaxSides ⟨id, false⟩ ⟨e.1, !e.2⟩) ++
        (g.edgesEnd id).map (fun e => minmaxSides ⟨id, true⟩ ⟨e.1, e.2⟩)).foldl
          insertSortedPair [])
    constructor
    · simp only [VG.getNodeSeq]
      split
      · simp only
        rw [h.2.1]
        exact alookup_aerase_self _ _
      · simp only
        rw [h.2.1]
        exact alookup_aerase_self _ _
    · intro k hk
      simp only [VG.getNodeSeq]
      split
      · simp only
        rw [h.2.1]
        exact alookup_aerase_ne _ _ _ hk
      · simp only
        rw [h.2.1]
        exact alookup_aerase_ne _ _ _ hk

/-! ## Fresh-id machinery

`create_node` without an id draws from `current_id`; these lemmas track
the counter, the maximum id and the id index across creations. -/

/-- The id the next anonymous `create_node` will assign. -/
def freshId (g : VG) : Nat :=
  if g.current_id = 1 then g.maxNodeId + 1 else g.current_id

/-- The id counter is to the right of every assigned id (holds initially,
when it is 1, and is maintained by anonymous creation). -/
def VG.freshCounter (g : VG) : Prop :=
  g.current_id = 1 ∨ g.maxNodeId < g.current_id

/-- The id index has unique keys and every entry is present in the node
vector. -/
def VG.idIndexWf (g : VG) : Prop :=
  (g.node_by_id.map Prod.fst).Nodup ∧ ∀ p ∈ g.node_by_id, p ∈ g.nodes

instance (g : VG) : Decidable g.idIndexWf := by
  unfold VG.idIndexWf
  infer_instance

instance (g : VG) : Decidable g.freshCounter := by
  unfold VG.freshCounter
  infer_instance

/-- A successful lookup is a member of the association list. -/
theorem alookup_mem {α β : Type} [DecidableEq α]
    (l : List (α × β)) (k : α) (v : β) : alookup l k = some v → (k, v) ∈ l := by
  induction l with
  | nil => intro h; cases h
  | cons hd t ih =>
    intro h
    simp only [alookup] at h
    split at h
    · rename_i heq
      cases h
      subst heq
      simp
    · exact List.mem_cons_of_mem _ (ih h)

theorem foldl_max_le_acc (l : List (Nat × List Char)) (acc : Nat) :
    acc ≤ l.foldl (fun mx n => if n.1 > mx then n.1 else mx) acc := by
  induction l generalizing acc with
  | nil => exact le_refl _
  | cons p rest ih =>
    simp only [List.foldl_cons]
    refine le_trans ?_ (ih _)
    split <;> omega

theorem foldl_max_ge_mem (l : List (Nat × List Char)) (acc : Nat) :
    ∀ p ∈ l, p.1 ≤ l.foldl (fun mx n => if n.1 > mx then n.1 else mx) acc := by
  induction l generalizing acc with
  | nil => intro p hp; cases hp
  | cons q rest ih =>
    intro p hp
    rcases List.mem_cons.mp hp with h | h
    · subst h
      simp only [List.foldl_cons]
      refine le_trans ?_ (foldl_max_le_acc rest _)
      split <;> omega
    · exact ih _ p h

theorem mem_le_maxNodeId (g : VG) : ∀ p ∈ g.nodes, p.1 ≤ g.maxNodeId :=
  foldl_max_ge_mem g.nodes 0

theorem maxNodeId_append (g : VG) (nid : Nat) (s : List Char) (h : g.maxNodeId < nid) :
    ({ g with nodes := g.nodes ++ [(nid, s)] } : VG).maxNodeId = nid := by
  simp only [VG.maxNodeId, List.foldl_append, List.foldl_cons, List.foldl_nil]
  have := foldl_max_le_acc g.nodes 0
  simp only [VG.maxNodeId] at h
  split <;> omega

theorem alookup_isSome_of_mem_keys {α β : Type} [DecidableEq α]
    (l : List (α × β)) (k : α) (h : k ∈ l.map Prod.fst) :
    (alookup l k).isSome := by
  induction l with
  | nil => cases h
  | cons hd t ih =>
    simp only [List.map_cons, List.mem_cons] at h
    by_cases hk : k = hd.1
    · simp [alookup, hk]
    · simp only [alookup, if_neg hk]
      exact ih (h.resolve_left hk)

theorem aupdate_keys_of_not_mem {α β : Type} [DecidableEq α]
    (l : List (α × β)) (k : α) (v : β) (h : k ∉ l.map Prod.fst) :
    aupdate l k v = l ++ [(k, v)] := by
  induction l with
  | nil => rfl
  | cons hd t ih =>
    simp only [List.map_cons, List.mem_cons] at h
    push_neg at h
    simp only [aupdate, if_neg h.1, List.cons_append, List.cons.injEq, true_and]
    exact ih h.2

theorem freshId_gt_max (g : VG) (hf : g.freshCounter) : g.maxNodeId < freshId g := by
  rcases hf with h | h
  · simp [freshId, h]
  · by_cases h1 : g.current_id = 1
    · simp [freshId, h1]
    · simpa [freshId, h1] using h

theorem freshId_not_mem_keys (g : VG) (hf : g.freshCounter) (hwf : g.idIndexWf) :
    freshId g ∉ g.node_by_id.map Prod.fst := by
  intro hmem
  obtain ⟨v, hv⟩ := Option.isSome_iff_exists.mp (alookup_isSome_of_mem_keys _ _ hmem)
  have h1 := hwf.2 _ (alookup_mem _ _ _ hv)
  have h2 := mem_le_maxNodeId g _ h1
  have h3 := freshId_gt_max g hf
  simp only at h2
  omega

/-- `maxNodeId` of a node vector extended by a larger id. -/
theorem foldl_max_append_big (l : List (Nat × List Char)) (nid : Nat) (s : List Char)
    (h : l.foldl (fun mx n => if n.1 > mx then n.1 else mx) 0 < nid) :
    (l ++ [(nid, s)]).foldl (fun mx n => if n.1 > mx then n.1 else mx) 0 = nid := by
  rw [List.foldl_append]
  simp only [List.foldl_cons, List.foldl_nil]
  split <;> omega

/-- Everything an anonymous `create_node` does to the state, under a
fresh counter and a well-formed id index. -/
theorem createNode_spec (g : VG) (s : List Char)
    (hf : g.freshCounter) (hwf : g.idIndexWf) :
    (g.createNode s).2 = freshId g ∧
    (g.createNode s).1.current_id = freshId g + 1 ∧
    (g.createNode s).1.maxNodeId = freshId g ∧
    (g.createNode s).1.getNodeSeq (freshId g) = some s ∧
    (∀ k, k ≠ freshId g → (g.createNode s).1.getNodeSeq k = g.getNodeSeq k) ∧
    (g.createNode s).1.freshCounter ∧ (g.createNode s).1.idIndexWf ∧
    (g.createNode s).1.nodes = g.nodes ++ [(freshId g, s)] ∧
    (g.createNode s).1.node_by_id = g.node_by_id ++ [(freshId g, s)] ∧
    (g.createNode s).1.paths = g.paths ∧
    (g.createNode s).1.edges = g.edges ∧
    (g.createNode s).1.edges_on_start = g.edges_on_start ∧
    (g.createNode s).1.edges_on_end = g.edges_on_end ∧
    (g.createNode s).1.edge_by_sides = g.edge_by_sides := by
  have hnm := freshId_not_mem_keys g hf hwf
  have hgt := freshId_gt_max g hf
  have hup : aupdate g.node_by_id (freshId g) s = g.node_by_id ++ [(freshId g, s)] :=
    aupdate_keys_of_not_mem _ _ _ hnm
  have hnodes : (g.createNode s).1.nodes = g.nodes ++ [(freshId g, s)] := rfl
  have hbid : (g.createNode s).1.node_by_id = g.node_by_id ++ [(freshId g, s)] := by
    show aupdate g.node_by_id (freshId g) s = _
    exact hup
  have hmax : (g.createNode s).1.maxNodeId = freshId g := by
    show (g.nodes ++ [(freshId g, s)]).foldl (fun mx n => if n.1 > mx then n.1 else mx) 0 = _
    exact foldl_max_append_big _ _ _ hgt
  have hlook : (g.createNode s).1.getNodeSeq (freshId g) = some s := by
    show alookup (aupdate g.node_by_id (freshId g) s) (freshId g) = some s
    exact alookup_aupdate_self _ _ _
  have hlook2 : ∀ k, k ≠ freshId g → (g.createNode s).1.getNodeSeq k = g.getNodeSeq k := by
    intro k hk
    show alookup (aupdate g.node_by_id (freshId g) s) k = alookup g.node_by_id k
    exact alookup_aupdate_ne _ _ _ _ hk
  refine ⟨rfl, rfl, hmax, hlook, hlook2, ?_, ?_, hnodes, hbid, rfl, rfl, rfl, rfl, rfl⟩
  · right
    rw [hmax]
    show freshId g < freshId g + 1
    omega
  · constructor
    · rw [hbid, List.map_append]
      simpa using List.Nodup.append hwf.1 (by simp)
        (by simpa [List.disjoint_right] using hnm)
    · intro p hp
      rw [hbid] at hp
      rw [hnodes]
      rcases List.mem_append.mp hp with h | h
      · exact List.mem_append_left _ (hwf.2 _ h)
      · exact List.mem_append_right _ h

/-- The accumulated id list of `createStep` only grows on the left: the
fold with any initial accumulator equals the fold with an empty one, with
the initial accumulator appended. -/
theorem createFold_shift (rest : List (List Char)) (st : VG) (init : List Nat) :
    (rest.foldl createStep (st, init)).1 = (rest.foldl createStep (st, [])).1 ∧
    (rest.foldl createStep (st, init)).2 = (rest.foldl createStep (st, [])).2 ++ init := by
  induction rest generalizing st init with
  | nil => simp
  | cons q qs ih =>
    simp only [List.foldl_cons, createStep]
    constructor
    · exact (ih (st.createNode q).1 ((st.createNode q).2 :: init)).1.trans
        ((ih (st.createNode q).1 [(st.createNode q).2]).1).symm
    · rw [(ih (st.createNode q).1 ((st.createNode q).2 :: init)).2,
        (ih (st.createNode q).1 [(st.createNode q).2]).2]
      simp

/-- The effect of creating a run of nodes by folding `create_node` over a
piece list: the new ids are the consecutive block starting at the current
fresh id, new lookups resolve to the pieces, old lookups survive, and the
non-node state is untouched. -/
theorem createNodesFold_spec (pieces : List (List Char)) (g : VG)
    (hf : g.freshCounter) (hwf : g.idIndexWf) :
    (pieces.foldl createStep (g, [])).2.reverse = List.range' (freshId g) pieces.length ∧
    freshId (pieces.foldl createStep (g, [])).1 = freshId g + pieces.length ∧
    (pieces.foldl createStep (g, [])).1.maxNodeId =
      (if pieces.length = 0 then g.maxNodeId else freshId g + (pieces.length - 1)) ∧
    (∀ i, (pieces.foldl createStep (g, [])).1.getNodeSeq (freshId g + i) = pieces[i]?) ∧
    (∀ k, k < freshId g →
      (pieces.foldl createStep (g, [])).1.getNodeSeq k = g.getNodeSeq k) ∧
    (pieces.foldl createStep (g, [])).1.freshCounter ∧
    (pieces.foldl createStep (g, [])).1.idIndexWf ∧
    (pieces.foldl createStep (g, [])).1.paths = g.paths ∧
    (pieces.foldl createStep (g, [])).1.edges = g.edges ∧
    (pieces.foldl createStep (g, [])).1.edges_on_start = g.edges_on_start ∧
    (pieces.foldl createStep (g, [])).1.edges_on_end = g.edges_on_end ∧
    (pieces.foldl createStep (g, [])).1.edge_by_sides = g.edge_by_sides := by
  induction pieces generalizing g with
  | nil =>
    refine ⟨rfl, rfl, by simp, ?_, fun k _ => rfl, hf, hwf, rfl, rfl, rfl, rfl, rfl⟩
    intro i
    have hnone : (g.getNodeSeq (freshId g + i)) = none := by
      cases hx : g.getNodeSeq (freshId g + i) with
      | none => rfl
      | some v =>
        have h1 := hwf.2 _ (alookup_mem _ _ _ hx)
        have h2 := mem_le_maxNodeId g _ h1
        have h3 := freshId_gt_max g hf
        simp only at h2
        omega
    simpa using hnone
  | cons pc rest ih =>
    have h1 := createNode_spec g pc hf hwf
    set g1 := (g.createNode pc).1 with hg1
    have hc0pos : 1 ≤ freshId g := by
      have := freshId_gt_max g hf
      omega
    have hfresh1 : freshId g1 = freshId g + 1 := by
      have hne : g1.current_id ≠ 1 := by
        rw [h1.2.1]
        omega
      rw [freshId, if_neg hne, h1.2.1]
    have hfold : (pc :: rest).foldl createStep (g, []) =
        rest.foldl createStep (g1, [(g.createNode pc).2]) := rfl
    have hsh := createFold_shift rest g1 [(g.createNode pc).2]
    have ihh := ih g1 h1.2.2.2.2.2.1 h1.2.2.2.2.2.2.1
    obtain ⟨ih1, ih2, ih3, ih4, ih5, ih6, ih7, ih8, ih9, ih10, ih11, ih12⟩ := ihh
    have hr1 : ((pc :: rest).foldl createStep (g, [])).1 =
        (rest.foldl createStep (g1, [])).1 := by rw [hfold]; exact hsh.1
    have hr2 : ((pc :: rest).foldl createStep (g, [])).2 =
        (rest.foldl createStep (g1, [])).2 ++ [(g.createNode pc).2] := by
      rw [hfold]; exact hsh.2
    refine ⟨?_, ?_, ?_, ?_, ?_, ?_, ?_, ?_, ?_, ?_, ?_, ?_⟩
    · rw [hr2, List.reverse_append, ih1, hfresh1, h1.1]
      simp [List.range'_succ]
    · rw [hr1, ih2, hfresh1, List.length_cons]
      omega
    · rw [hr1, ih3, hfresh1, List.length_cons]
      by_cases h0 : rest.length = 0 <;> simp [h0] <;> omega
    · intro i
      rw [hr1]
      match i with
      | 0 =>
        have h5' := ih5 (freshId g) (by rw [hfresh1]; omega)
        rw [Nat.add_zero, h5', h1.2.2.2.1]
        simp
      | Nat.succ j =>
        have := ih4 j
        rw [hfresh1] at this
        rw [show freshId g + (j + 1) = freshId g + 1 + j by omega, this]
        simp
    · intro k hk
      rw [hr1]
      have h5' := ih5 k (by rw [hfresh1]; omega)
      rw [h5', h1.2.2.2.2.1 k (by omega)]
    · rw [hr1]; exact ih6
    · rw [hr1]; exact ih7
    · rw [hr1, ih8]; exact h1.2.2.2.2.2.2.2.2.2.1
    · rw [hr1, ih9]; exact h1.2.2.2.2.2.2.2.2.2.2.1
    · rw [hr1, ih10]; exact h1.2.2.2.2.2.2.2.2.2.2.2.1
    · rw [hr1, ih11]; exact h1.2.2.2.2.2.2.2.2.2.2.2.2.1
    · rw [hr1, ih12]; exact h1.2.2.2.2.2.2.2.2.2.2.2.2.2

/-! ## Substring-piece lemmas for divide_node -/

theorem piecesOf_length (s : List Char) (ps : List Int) :
    ∀ last, (piecesOf s last ps).length = ps.length + 1 := by
  induction ps with
  | nil => intro last; rfl
  | cons p rest ih =>
    intro last
    simp only [piecesOf, List.length_cons, ih p]

theorem drop_take_append_drop (s : List Char) (a b : Nat) (h : a ≤ b) :
    (s.drop a).take (b - a) ++ s.drop b = s.drop a := by
  have hd : s.drop b = (s.drop a).drop (b - a) := by
    rw [List.drop_drop]
    congr 1
    omega
  rw [hd, List.take_append_drop]

theorem piecesOf_flatten (s : List Char) (ps : List Int) :
    ∀ last, 0 ≤ last → List.Chain' (· ≤ ·) (last :: ps) →
    (∀ p ∈ ps, p ≤ (s.length : Int)) →
    (piecesOf s last ps).flatten = s.drop last.toNat := by
  induction ps with
  | nil =>
    intro last _ _ _
    simp [piecesOf]
  | cons p rest ih =>
    intro last hlast hchain hub
    have hlp : last ≤ p := (List.chain'_cons.mp hchain).1
    have hnneg : ¬ (p - last < 0) := by omega
    simp only [piecesOf, if_neg hnneg, List.flatten_cons]
    rw [ih p (by omega) (List.chain'_cons.mp hchain).2
      (fun q hq => hub q (List.mem_cons_of_mem _ hq))]
    have htn : (p - last).toNat = p.toNat - last.toNat := by omega
    rw [htn]
    exact drop_take_append_drop s last.toNat p.toNat (by omega)

theorem take_pos_ne_nil (d : Int) (x : List Char) (hd : 0 < d) (hx : x ≠ []) :
    x.take d.toNat ≠ [] := by
  cases x with
  | nil => exact absurd rfl hx
  | cons a t =>
    intro hh
    have hlen : (List.take d.toNat (a :: t)).length = 0 := by rw [hh]; rfl
    simp only [List.length_take, List.length_cons] at hlen
    omega

theorem piecesOf_ne_nil (s : List Char) (ps : List Int) :
    ∀ last, 0 ≤ last → last < (s.length : Int) →
    List.Chain' (· < ·) (last :: ps) → (∀ p ∈ ps, p < (s.length : Int)) →
    ∀ pc ∈ piecesOf s last ps, pc ≠ [] := by
  induction ps with
  | nil =>
    intro last hlast hlen _ _ pc hpc
    simp only [piecesOf, List.mem_singleton] at hpc
    subst hpc
    simp only [ne_eq, List.drop_eq_nil_iff]
    omega
  | cons p rest ih =>
    intro last hlast hlen hchain hub pc hpc
    have hlp : last < p := (List.chain'_cons.mp hchain).1
    have hnneg : ¬ (p - last < 0) := by omega
    simp only [piecesOf, if_neg hnneg, List.mem_cons] at hpc
    rcases hpc with h | h
    · subst h
      apply take_pos_ne_nil _ _ (by omega)
      simp only [ne_eq, List.drop_eq_nil_iff]
      omega
    · exact ih p (by omega) (hub p (by simp)) (List.chain'_cons.mp hchain).2
        (fun q hq => hub q (List.mem_cons_of_mem _ hq)) pc h

/-! ## Edge-creation fold frames -/

theorem e2cFold_frame (l : List ((Nat × Bool) × (Nat × Bool))) (g : VG) :
    (l.foldl (fun g e => (g.createEdge e.1.1 e.2.1 e.1.2 e.2.2).1) g).nodes = g.nodes ∧
    (l.foldl (fun g e => (g.createEdge e.1.1 e.2.1 e.1.2 e.2.2).1) g).node_by_id = g.node_by_id ∧
    (l.foldl (fun g e => (g.createEdge e.1.1 e.2.1 e.1.2 e.2.2).1) g).current_id = g.current_id ∧
    (l.foldl (fun g e => (g.createEdge e.1.1 e.2.1 e.1.2 e.2.2).1) g).paths = g.paths := by
  induction l generalizing g with
  | nil => exact ⟨rfl, rfl, rfl, rfl⟩
  | cons e rest ih =>
    simp only [List.foldl_cons]
    have h1 := createEdge_frame g e.1.1 e.2.1 e.1.2 e.2.2
    have h2 := ih (g.createEdge e.1.1 e.2.1 e.1.2 e.2.2).1
    exact ⟨h2.1.trans h1.1, h2.2.1.trans h1.2.1, h2.2.2.1.trans h1.2.2.1,
      h2.2.2.2.trans h1.2.2.2⟩

theorem chainFold_frame (l : List (Nat × Nat)) (g : VG) :
    (l.foldl (fun g pq => (g.createEdge pq.1 pq.2 false false).1) g).nodes = g.nodes ∧
    (l.foldl (fun g pq => (g.createEdge pq.1 pq.2 false false).1) g).node_by_id = g.node_by_id ∧
    (l.foldl (fun g pq => (g.createEdge pq.1 pq.2 false false).1) g).current_id = g.current_id ∧
    (l.foldl (fun g pq => (g.createEdge pq.1 pq.2 false false).1) g).paths = g.paths := by
  induction l generalizing g with
  | nil => exact ⟨rfl, rfl, rfl, rfl⟩
  | cons e rest ih =>
    simp only [List.foldl_cons]
    have h1 := createEdge_frame g e.1 e.2 false false
    have h2 := ih (g.createEdge e.1 e.2 false false).1
    exact ⟨h2.1.trans h1.1, h2.2.1.trans h1.2.1, h2.2.2.1.trans h1.2.2.1,
      h2.2.2.2.trans h1.2.2.2⟩

/-- Node-level effects of the successful path of `divide_node`: the part
list is the consecutive id block starting at the fresh id, the original
node is gone, and the i-th part carries the i-th substring piece. -/
theorem divideNodeCore_spec (g : VG) (id : Nat) (s : List Char) (positions : List Int)
    (hf : g.freshCounter) (hwf : g.idIndexWf) (hid : alookup g.node_by_id id = some s) :
    (g.divideNodeCore id s positions).2 =
      List.range' (freshId g) (positions.length + 1) ∧
    (g.divideNodeCore id s positions).1.getNodeSeq id = none ∧
    (∀ i, (g.divideNodeCore id s positions).1.getNodeSeq (freshId g + i) =
      (piecesOf s 0 positions)[i]?) := by
  have hspec := createNodesFold_spec (piecesOf s 0 positions) g hf hwf
  have hidle : id ≤ g.maxNodeId :=
    mem_le_maxNodeId g _ (hwf.2 _ (alookup_mem _ _ _ hid))
  have hgt := freshId_gt_max g hf
  have hlen := piecesOf_length s positions 0
  obtain ⟨hs1, hs2, hs3, hs4, hs5, hs6, hs7, hs8, hs9, hs10, hs11, hs12⟩ := hspec
  refine ⟨?_, ?_, ?_⟩
  · show ((piecesOf s 0 positions).foldl createStep (g, [])).2.reverse = _
    rw [hs1, hlen]
  · unfold VG.divideNodeCore
    dsimp only
    exact (destroyNode_node_by_id _ id).1
  · intro i
    have hne : freshId g + i ≠ id := by omega
    unfold VG.divideNodeCore
    dsimp only
    rw [(destroyNode_node_by_id _ id).2 _ hne]
    show alookup _ (freshId g + i) = _
    rw [(chainFold_frame _ _).2.1, (e2cFold_frame _ _).2.1]
    exact hs4 i

/-! ## Claim C5: divide_node offsets -/

/-- A one-node graph with sequence "AC", used to refute the error clause
of C5. -/
def gC5 : VG :=
  { nodes := [(1, ['A', 'C'])], node_by_id := [(1, ['A', 'C'])], edges := [],
    edges_on_start := [], edges_on_end := [], edge_by_sides := [],
    current_id := 1, paths := [] }

/-- Claim C5 counterexample: offset 0 lies outside the open interval
(0, 2), so the claim demands a fatal error; instead `divide_node`
succeeds, replacing the node by a piece with the empty sequence and a
piece carrying "AC". -/
theorem C5_counterexample :
    ¬ (0 < (0 : Int) ∧ (0 : Int) < 2) ∧
    (gC5.divideNode 1 [0]).map
        (fun r => (r.2, r.1.getNodeSeq 2, r.1.getNodeSeq 3, r.1.getNodeSeq 1)) =
      some ([2, 3], some [], some ['A', 'C'], none) := by
  exact ⟨by decide, by decide⟩

/-- Claim C5 (amended): `divide_node(id, offsets)` is a fatal error
exactly when some offset is negative or greater than the node length —
offsets 0 and length are accepted and yield empty pieces; under the
claim's precondition (offsets strictly increasing and strictly inside
(0, length)) the node is replaced by len(offsets)+1 new nodes carrying
the substring pieces in order, none of them empty. -/
theorem C5_divide_node_amended (g : VG) (id : Nat) (s : List Char) (positions : List Int)
    (hn : g.getNodeSeq id = some s) (hs : s ≠ [])
    (hf : g.freshCounter) (hwf : g.idIndexWf) :
    (g.divideNode id positions = none ↔
      ∃ p ∈ positions, p < 0 ∨ (s.length : Int) < p) ∧
    ((List.Chain' (· < ·) positions ∧
        (∀ p ∈ positions, 0 < p ∧ p < (s.length : Int))) →
      ∃ g', g.divideNode id positions =
          some (g', List.range' (freshId g) (positions.length + 1)) ∧
        g'.getNodeSeq id = none ∧
        (∀ i, g'.getNodeSeq (freshId g + i) = (piecesOf s 0 positions)[i]?) ∧
        (piecesOf s 0 positions).length = positions.length + 1 ∧
        (piecesOf s 0 positions).flatten = s ∧
        (∀ pc ∈ piecesOf s 0 positions, pc ≠ [])) := by
  have hn' : alookup g.node_by_id id = some s := hn
  constructor
  · unfold VG.divideNode
    rw [hn']
    by_cases hb : positions.any (fun p => p < 0 || p > (s.length : Int)) = true
    · simp only [hb, if_true]
      simp only [List.any_eq_true, decide_eq_true_eq, Bool.or_eq_true] at hb
      simpa using hb
    · simp only [hb, if_false]
      simp only [List.any_eq_true, decide_eq_true_eq, Bool.or_eq_true] at hb
      push_neg at hb
      constructor
      · intro h; cases h
      · intro ⟨p, hp, hcase⟩
        rcases hcase with h | h
        · exact absurd h (by have := hb p hp; omega)
        · exact absurd h (by have := hb p hp; omega)
  · intro ⟨hchain, hbound⟩
    have hb : positions.any (fun p => p < 0 || p > (s.length : Int)) = false := by
      simp only [List.any_eq_false]
      intro p hp
      have := hbound p hp
      simp only [Bool.or_eq_true, decide_eq_true_eq]
      push_neg
      omega
    have heq : g.divideNode id positions = some (g.divideNodeCore id s positions) := by
      unfold VG.divideNode
      rw [hn']
      dsimp only
      rw [hb]
      rfl
    have hcore := divideNodeCore_spec g id s positions hf hwf hn'
    have hchain0le : List.Chain' (· ≤ ·) ((0 : Int) :: positions) := by
      rw [List.chain'_cons']
      refine ⟨?_, hchain.imp (fun a b hab => le_of_lt hab)⟩
      intro h hh
      have hmem : h ∈ positions := List.mem_of_mem_head? hh
      have := hbound h hmem
      omega
    have hchain0lt : List.Chain' (· < ·) ((0 : Int) :: positions) := by
      rw [List.chain'_cons']
      refine ⟨?_, hchain⟩
      intro h hh
      have hmem : h ∈ positions := List.mem_of_mem_head? hh
      exact (hbound h hmem).1
    refine ⟨(g.divideNodeCore id s positions).1, ?_, ?_, ?_, ?_, ?_, ?_⟩
    · rw [heq]
      have := hcore.1
      exact congrArg some (Prod.ext rfl this)
    · exact hcore.2.1
    · exact hcore.2.2
    · exact piecesOf_length s positions 0
    · have := piecesOf_flatten s positions 0 (le_refl 0) hchain0le
        (fun p hp => le_of_lt (hbound p hp).2)
      simpa using this
    · exact piecesOf_ne_nil s positions 0 (le_refl 0)
        (by have : 0 < s.length := List.length_pos.mpr hs; omega)
        hchain0lt (fun p hp => (hbound p hp).2)

/-- Witness for the amended C5 at the one-node graph with sequence "AC"
and offset list [1]. -/
theorem C5_divide_node_amended_witness :
    gC5.getNodeSeq 1 = some ['A', 'C'] ∧ (['A', 'C'] : List Char) ≠ [] ∧
    gC5.freshCounter ∧ gC5.idIndexWf ∧
    ((gC5.divideNode 1 [1] = none ↔
        ∃ p ∈ [(1 : Int)], p < 0 ∨ ((['A', 'C'] : List Char).length : Int) < p) ∧
      ((List.Chain' (· < ·) [(1 : Int)] ∧
          (∀ p ∈ [(1 : Int)], 0 < p ∧ p < ((['A', 'C'] : List Char).length : Int))) →
        ∃ g', gC5.divideNode 1 [1] =
            some (g', List.range' (freshId gC5) ([(1 : Int)].length + 1)) ∧
          g'.getNodeSeq 1 = none ∧
          (∀ i, g'.getNodeSeq (freshId gC5 + i) =
            (piecesOf ['A', 'C'] 0 [(1 : Int)])[i]?) ∧
          (piecesOf ['A', 'C'] 0 [(1 : Int)]).length = [(1 : Int)].length + 1 ∧
          (piecesOf ['A', 'C'] 0 [(1 : Int)]).flatten = ['A', 'C'] ∧
          (∀ pc ∈ piecesOf ['A', 'C'] 0 [(1 : Int)], pc ≠ []))) :=
  ⟨by decide, by decide, by decide, by decide,
   C5_divide_node_amended gC5 1 ['A', 'C'] [1] (by decide) (by decide)
     (by decide) (by decide)⟩

/-! ## Claim C7: iteration cancellation -/

/-- A three-node graph used to refute the parallel half of C7. -/
def gC7 : VG :=
  { nodes := [(1, ['A']), (2, ['C']), (3, ['G'])],
    node_by_id := [(1, ['A']), (2, ['C']), (3, ['G'])], edges := [],
    edges_on_start := [], edges_on_end := [], edge_by_sides := [],
    current_id := 1, paths := [] }

/-- Claim C7 counterexample: a visitor that returns `false` immediately
still sees every node under parallel iteration — the loop body ignores
the returned value, so the iteration does not stop and all remaining
nodes are visited, contradicting the claim's "not all remaining nodes
are visited". -/
theorem C7_counterexample :
    (fun (_ : Nat) => false) 1 = false ∧
    gC7.forEachHandleParallelVisited (fun _ => false) = [1, 2, 3] ∧
    (∀ id ∈ gC7.nodes.map Prod.fst,
      id ∈ gC7.forEachHandleParallelVisited (fun _ => false)) := by
  exact ⟨rfl, by decide, by decide⟩

/-- Claim C7 (amended): under serial iteration the loop stops right after
the visitor returns `false` — the nodes visited are exactly the vector
prefix through the first `false` — while under parallel iteration the
returned value is ignored and every node of the graph is visited. -/
theorem C7_for_each_handle_amended (g : VG) (f : Nat → Bool) :
    g.forEachHandleSerialVisitedG f =
      (g.nodes.map Prod.fst).take (((g.nodes.map Prod.fst).takeWhile f).length + 1) ∧
    g.forEachHandleParallelVisited f = g.nodes.map Prod.fst := by
  refine ⟨?_, rfl⟩
  show forEachHandleSerialVisited g.nodes f = _
  induction g.nodes with
  | nil => rfl
  | cons n rest ih =>
    simp only [forEachHandleSerialVisited, List.map_cons, List.takeWhile_cons]
    by_cases hf : f n.1
    · simp only [hf, if_true, List.length_cons, List.take_succ_cons, List.cons.injEq,
        true_and]
      exact ih
    · simp only [hf, Bool.false_eq_true, if_false, List.length_nil, List.take_succ_cons,
        List.take_zero]

/-- Witness for the amended C7 on the three-node graph with a visitor
stopping at node 2. -/
theorem C7_for_each_handle_amended_witness :
    gC7.forEachHandleSerialVisitedG (fun id => id == 1) =
      (gC7.nodes.map Prod.fst).take
        (((gC7.nodes.map Prod.fst).takeWhile (fun id => id == 1)).length + 1) ∧
    gC7.forEachHandleParallelVisited (fun id => id == 1) = gC7.nodes.map Prod.fst :=
  C7_for_each_handle_amended gC7 (fun id => id == 1)

/-! ## Swap-removal as multiset removal -/

theorem set_getLast_dropLast_perm {α : Type} (l : List α) (i : Nat)
    (hi : i < l.length) (hl : l ≠ []) :
    List.Perm ((l.set i (l.getLast hl)).dropLast) (l.eraseIdx i) := by
  set last := l.getLast hl with hlastdef
  rw [List.set_eq_take_cons_drop _ hi, List.eraseIdx_eq_take_drop_succ]
  by_cases hend : i + 1 < l.length
  · have hD : l.drop (i + 1) ≠ [] := by
      simp only [ne_eq, List.drop_eq_nil_iff]
      omega
    rw [List.dropLast_append_of_ne_nil _ (by simp),
      List.dropLast_cons_of_ne_nil hD]
    refine List.Perm.append_left _ ?_
    conv_rhs => rw [← List.dropLast_append_getLast hD, List.getLast_drop]
    exact (List.perm_append_singleton _ _).symm
  · have hD : l.drop (i + 1) = [] := List.drop_eq_nil_of_le (by omega)
    rw [hD]
    have hdc : (l.take i ++ [last]).dropLast = l.take i := by
      rw [List.dropLast_concat]
    rw [hdc, List.append_nil]

theorem vecSwapRemoveAt_perm {α : Type} (l : List α) (i : Nat)
    (hi : i < l.length) : List.Perm (vecSwapRemoveAt l i) (l.eraseIdx i) := by
  have hl : l ≠ [] := by intro h; subst h; cases hi
  unfold vecSwapRemoveAt
  rw [List.getLast?_eq_getLast l hl]
  exact set_getLast_dropLast_perm l i hi hl

theorem indexOf?_spec {α : Type} [DecidableEq α] (l : List α) (a : α) :
    ∀ i, l.indexOf? a = some i → i < l.length ∧ l.eraseIdx i = l.erase a := by
  induction l with
  | nil => intro i h; cases h
  | cons hd t ih =>
    intro i h
    rw [List.indexOf?_cons] at h
    by_cases hha : hd = a
    · rw [if_pos (by simp [hha])] at h
      cases h
      refine ⟨by simp, ?_⟩
      rw [List.eraseIdx_cons_zero, hha, List.erase_cons_head]
    · rw [if_neg (by simp [hha])] at h
      match hr : List.indexOf? a t with
      | none => rw [hr] at h; cases h
      | some j =>
        rw [hr] at h
        have hij : i = j + 1 := by
          have := h.symm
          simp only [Option.map, Option.some_inj] at this
          omega
        subst hij
        obtain ⟨h1, h2⟩ := ih j hr
        refine ⟨by simp only [List.length_cons]; omega, ?_⟩
        rw [List.eraseIdx_cons_succ, h2, List.erase_cons_tail]
        simp [hha]

theorem swapRemove_perm {α : Type} [DecidableEq α] (l : List α) (x : α) :
    List.Perm (swapRemove l x) (l.erase x) := by
  unfold swapRemove
  match hidx : l.indexOf? x with
  | none =>
    have hnm : x ∉ l := by
      intro hmem
      rw [List.indexOf?_eq_none_iff] at hidx
      exact hidx x hmem (by simp)
    rw [List.erase_of_not_mem hnm]
  | some i =>
    obtain ⟨h1, h2⟩ := indexOf?_spec l x i hidx
    have hl : l ≠ [] := by intro h; subst h; cases h1
    rw [List.getLast?_eq_getLast l hl, ← h2]
    exact set_getLast_dropLast_perm l i h1 hl

/-! ## The edge-index invariant (claim C6)

`entriesStart e id` / `entriesEnd e id` are the adjacency entries edge `e`
is supposed to contribute to node `id`'s start/end sub-index, read off
`index_edge_by_node_sides`. -/

/-- The entries an edge contributes to `edges_on_start[id]`. -/
def entriesStart (e : EdgeRec) (id : Nat) : List (Nat × Bool) :=
  (if e.from_start = true ∧ id = e.efrom
   then [(e.eto, e.from_start != e.to_end)] else []) ++
  (if (e.efrom ≠ e.eto ∨ e.from_start = e.to_end) ∧ e.to_end = false ∧ id = e.eto
   then [(e.efrom, e.from_start != e.to_end)] else [])

/-- The entries an edge contributes to `edges_on_end[id]`. -/
def entriesEnd (e : EdgeRec) (id : Nat) : List (Nat × Bool) :=
  (if e.from_start = false ∧ id = e.efrom
   then [(e.eto, e.from_start != e.to_end)] else []) ++
  (if (e.efrom ≠ e.eto ∨ e.from_start = e.to_end) ∧ e.to_end = true ∧ id = e.eto
   then [(e.efrom, e.from_start != e.to_end)] else [])

/-- Reading a sub-index after a push. -/
theorem adjPush_lookupD (idx : List (Nat × List (Nat × Bool))) (key : Nat)
    (x : Nat × Bool) (id : Nat) :
    (alookup (adjPush idx key x) id).getD [] =
      (if id = key then (alookup idx id).getD [] ++ [x]
       else (alookup idx id).getD []) := by
  unfold adjPush
  by_cases h : id = key
  · subst h
    rw [alookup_aupdate_self]
    simp
  · rw [alookup_aupdate_ne _ _ _ _ h, if_neg h]

/-- Reading a sub-index after a swap-removal. -/
theorem adjRemove_lookupD (idx : List (Nat × List (Nat × Bool))) (key : Nat)
    (x : Nat × Bool) (id : Nat) :
    (alookup (adjRemove idx key x) id).getD [] =
      (if id = key then swapRemove ((alookup idx key).getD []) x
       else (alookup idx id).getD []) := by
  unfold adjRemove
  by_cases hemp : (swapRemove ((alookup idx key).getD []) x).isEmpty
  · rw [if_pos hemp]
    by_cases h : id = key
    · subst h
      rw [alookup_aerase_self _ _, if_pos rfl]
      simp only [Option.getD_none]
      exact (List.isEmpty_iff.mp hemp).symm
    · rw [alookup_aerase_ne _ _ _ h, if_neg h]
  · rw [if_neg hemp]
    by_cases h : id = key
    · subst h
      rw [alookup_aupdate_self, if_pos rfl]
      simp
    · rw [alookup_aupdate_ne _ _ _ _ h, if_neg h]

/-- Updating a present key leaves the key list unchanged. -/
theorem aupdate_keys_of_mem {α β : Type} [DecidableEq α]
    (l : List (α × β)) (k : α) (v : β) (hk : k ∈ l.map Prod.fst) :
    (aupdate l k v).map Prod.fst = l.map Prod.fst := by
  induction l with
  | nil => cases hk
  | cons hd t ih =>
    by_cases h : k = hd.1
    · simp [aupdate, h]
    · simp only [List.map_cons, List.mem_cons] at hk
      simp only [aupdate, if_neg h, List.map_cons, List.cons.injEq, true_and]
      exact ih (hk.resolve_left h)

/-- An update keeps the key list duplicate-free. -/
theorem aupdate_keys_nodup {α β : Type} [DecidableEq α]
    (l : List (α × β)) (k : α) (v : β) (hnd : (l.map Prod.fst).Nodup) :
    ((aupdate l k v).map Prod.fst).Nodup := by
  by_cases hk : k ∈ l.map Prod.fst
  · rw [aupdate_keys_of_mem _ _ _ hk]
    exact hnd
  · rw [aupdate_keys_of_not_mem _ _ _ hk, List.map_append]
    simpa using List.Nodup.append hnd (by simp)
      (by simpa [List.disjoint_right] using hk)

/-- Keys after a push. -/
theorem adjPush_keys_nodup (idx : List (Nat × List (Nat × Bool))) (key : Nat)
    (x : Nat × Bool) (hnd : (idx.map Prod.fst).Nodup) :
    ((adjPush idx key x).map Prod.fst).Nodup :=
  aupdate_keys_nodup _ _ _ hnd

/-- Keys of an erase form a sublist. -/
theorem aerase_sublist {α β : Type} [DecidableEq α] (l : List (α × β)) (k : α) :
    (aerase l k).Sublist l := by
  induction l with
  | nil => simp [aerase]
  | cons hd t ih =>
    by_cases h : k = hd.1
    · simp only [aerase, if_pos h]
      exact ih.trans (List.sublist_cons_self _ _)
    · simp only [aerase, if_neg h]
      exact List.Sublist.cons₂ _ ih

/-- Keys after a removal. -/
theorem adjRemove_keys_nodup (idx : List (Nat × List (Nat × Bool))) (key : Nat)
    (x : Nat × Bool) (hnd : (idx.map Prod.fst).Nodup) :
    ((adjRemove idx key x).map Prod.fst).Nodup := by
  unfold adjRemove
  dsimp only
  split
  · exact ((aerase_sublist idx key).map Prod.fst).nodup hnd
  · exact aupdate_keys_nodup _ _ _ hnd

/-- What `index_edge_by_node_sides` does to the two adjacency indices:
each node's sub-index gains exactly the entries the edge contributes. -/
theorem indexEdge_adj (g : VG) (e : EdgeRec) (id : Nat) :
    (g.indexEdgeByNodeSides e).edgesStart id = g.edgesStart id ++ entriesStart e id ∧
    (g.indexEdgeByNodeSides e).edgesEnd id = g.edgesEnd id ++ entriesEnd e id := by
  obtain ⟨a, b, fs, te⟩ := e
  cases fs <;> cases te <;> by_cases hab : a = b <;>
    by_cases hia : id = a <;> by_cases hib : id = b <;>
    (first
      | (simp +decide [VG.indexEdgeByNodeSides, VG.edgesStart, VG.edgesEnd,
            entriesStart, entriesEnd, adjPush_lookupD, hia, hib, hab] <;> omega)
      | (have hba : ¬ b = a := fun h => hab h.symm
         simp +decide [VG.indexEdgeByNodeSides, VG.edgesStart, VG.edgesEnd,
            entriesStart, entriesEnd, adjPush_lookupD, hia, hib, hab, hba] <;> omega))

/-- What `unindex_edge_by_node_sides` does to the two adjacency indices:
each node's sub-index loses exactly the entries the edge contributed. -/
theorem unindexEdge_adj (g : VG) (e : EdgeRec) (id : Nat) (he : g.hasEdge e = true) :
    (g.unindexEdgeByNodeSides e).edgesStart id =
      (entriesStart e id).foldl swapRemove (g.edgesStart id) ∧
    (g.unindexEdgeByNodeSides e).edgesEnd id =
      (entriesEnd e id).foldl swapRemove (g.edgesEnd id) := by
  obtain ⟨a, b, fs, te⟩ := e
  cases fs <;> cases te <;>
    by_cases hia : id = a <;> by_cases hib : id = b <;>
    by_cases hab : a = b <;> (try subst hab) <;>
    (first
      | (simp +decide [VG.unindexEdgeByNodeSides, he, VG.edgesStart, VG.edgesEnd,
            entriesStart, entriesEnd, adjRemove_lookupD, hia, hib, hab] <;> omega)
      | (simp +decide [VG.unindexEdgeByNodeSides, he, VG.edgesStart, VG.edgesEnd,
            entriesStart, entriesEnd, adjRemove_lookupD, hia, hib] <;> omega)
      | (have hba : ¬ b = a := fun h => hab h.symm
         simp +decide [VG.unindexEdgeByNodeSides, he, VG.edgesStart, VG.edgesEnd,
            entriesStart, entriesEnd, adjRemove_lookupD, hia, hib, hab, hba] <;> omega))

/-- The edge-index invariant: every edge is recorded once under its
canonical side pair, the canonical index holds nothing else, keys are
unique, and each side-adjacency sub-index holds exactly (as a multiset)
the entries contributed by the edges. -/
def VG.edgesWf (g : VG) : Prop :=
  (∀ e ∈ g.edges, alookup g.edge_by_sides (pair_from_edge e) = some e) ∧
  (∀ pe ∈ g.edge_by_sides, pe.2 ∈ g.edges ∧ pair_from_edge pe.2 = pe.1) ∧
  (g.edge_by_sides.map Prod.fst).Nodup ∧
  (g.edges.map pair_from_edge).Nodup ∧
  (g.edges_on_start.map Prod.fst).Nodup ∧
  (g.edges_on_end.map Prod.fst).Nodup ∧
  (∀ id, List.Perm (g.edgesStart id) (g.edges.flatMap (fun e => entriesStart e id))) ∧
  (∀ id, List.Perm (g.edgesEnd id) (g.edges.flatMap (fun e => entriesEnd e id)))

/-- An edge contributes no entries to nodes it does not touch. -/
theorem entriesStart_nil (e : EdgeRec) (id : Nat) (h1 : id ≠ e.efrom)
    (h2 : id ≠ e.eto) : entriesStart e id = [] := by
  simp [entriesStart, h1, h2]

/-- An edge contributes no end entries to nodes it does not touch. -/
theorem entriesEnd_nil (e : EdgeRec) (id : Nat) (h1 : id ≠ e.efrom)
    (h2 : id ≠ e.eto) : entriesEnd e id = [] := by
  simp [entriesEnd, h1, h2]

/-- The decidable core of `edgesWf`: the two multiset conditions are
checked only on the ids that occur in the indices or as edge endpoints. -/
def VG.edgesWfCheck (g : VG) : Prop :=
  (∀ e ∈ g.edges, alookup g.edge_by_sides (pair_from_edge e) = some e) ∧
  (∀ pe ∈ g.edge_by_sides, pe.2 ∈ g.edges ∧ pair_from_edge pe.2 = pe.1) ∧
  (g.edge_by_sides.map Prod.fst).Nodup ∧
  (g.edges.map pair_from_edge).Nodup ∧
  (g.edges_on_start.map Prod.fst).Nodup ∧
  (g.edges_on_end.map Prod.fst).Nodup ∧
  (∀ id ∈ g.edges_on_start.map Prod.fst ++ g.edges_on_end.map Prod.fst ++
      g.edges.flatMap (fun e => [e.efrom, e.eto]),
    List.Perm (g.edgesStart id) (g.edges.flatMap (fun e => entriesStart e id)) ∧
    List.Perm (g.edgesEnd id) (g.edges.flatMap (fun e => entriesEnd e id)))

instance (g : VG) : Decidable g.edgesWfCheck := by
  unfold VG.edgesWfCheck
  infer_instance

/-- The bounded check implies the invariant. -/
theorem edgesWf_of_check (g : VG) (h : g.edgesWfCheck) : g.edgesWf := by
  obtain ⟨h1, h2, h3, h4, h5, h6, h7⟩ := h
  refine ⟨h1, h2, h3, h4, h5, h6, ?_, ?_⟩
  · intro id
    by_cases hrel : id ∈ g.edges_on_start.map Prod.fst ++ g.edges_on_end.map Prod.fst ++
        g.edges.flatMap (fun e => [e.efrom, e.eto])
    · exact (h7 id hrel).1
    · simp only [List.mem_append, List.mem_flatMap, List.mem_cons] at hrel
      push_neg at hrel
      have hl : g.edgesStart id = [] := by
        unfold VG.edgesStart
        rw [alookup_eq_none_of_not_mem _ _ hrel.1.1]
        rfl
      have hr : g.edges.flatMap (fun e => entriesStart e id) = [] := by
        simp only [List.flatMap_eq_nil_iff]
        intro e he
        have := hrel.2 e he
        exact entriesStart_nil e id (by tauto) (by tauto)
      rw [hl, hr]
  · intro id
    by_cases hrel : id ∈ g.edges_on_start.map Prod.fst ++ g.edges_on_end.map Prod.fst ++
        g.edges.flatMap (fun e => [e.efrom, e.eto])
    · exact (h7 id hrel).2
    · simp only [List.mem_append, List.mem_flatMap, List.mem_cons] at hrel
      push_neg at hrel
      have hl : g.edgesEnd id = [] := by
        unfold VG.edgesEnd
        rw [alookup_eq_none_of_not_mem _ _ hrel.1.2]
        rfl
      have hr : g.edges.flatMap (fun e => entriesEnd e id) = [] := by
        simp only [List.flatMap_eq_nil_iff]
        intro e he
        have := hrel.2 e he
        exact entriesEnd_nil e id (by tauto) (by tauto)
      rw [hl, hr]

/-- Key uniqueness of the adjacency sub-indices survives indexing. -/
theorem indexEdge_keys (g : VG) (e : EdgeRec)
    (h5 : (g.edges_on_start.map Prod.fst).Nodup)
    (h6 : (g.edges_on_end.map Prod.fst).Nodup) :
    ((g.indexEdgeByNodeSides e).edges_on_start.map Prod.fst).Nodup ∧
    ((g.indexEdgeByNodeSides e).edges_on_end.map Prod.fst).Nodup := by
  unfold VG.indexEdgeByNodeSides
  repeat' split
  all_goals
    exact ⟨by first | exact aupdate_keys_nodup _ _ _ (aupdate_keys_nodup _ _ _ h5)
                    | exact aupdate_keys_nodup _ _ _ h5 | exact h5,
           by first | exact aupdate_keys_nodup _ _ _ (aupdate_keys_nodup _ _ _ h6)
                    | exact aupdate_keys_nodup _ _ _ h6 | exact h6⟩

/-- The canonical-pair index after `index_edge_by_node_sides` is exactly
the updated association list. -/
theorem indexEdge_bys (g : VG) (e : EdgeRec) :
    (g.indexEdgeByNodeSides e).edge_by_sides =
      aupdate g.edge_by_sides (pair_from_edge e) e := by
  unfold VG.indexEdgeByNodeSides
  repeat' split
  all_goals rfl

/-- `create_edge` preserves the edge-index invariant. -/
theorem createEdge_edgesWf (g : VG) (a b : Nat) (fs te : Bool) (h : g.edgesWf) :
    (g.createEdge a b fs te).1.edgesWf := by
  obtain ⟨h1, h2, h3, h4, h5, h6, h7, h8⟩ := h
  unfold VG.createEdge
  split
  · exact ⟨h1, h2, h3, h4, h5, h6, h7, h8⟩
  · rename_i hnone
    set e : EdgeRec := ⟨a, b, fs, te⟩ with he
    have hlook : alookup g.edge_by_sides (pair_from_edge e) = none := hnone
    have hkeys : pair_from_edge e ∉ g.edge_by_sides.map Prod.fst := by
      intro hmem
      have := alookup_isSome_of_mem_keys _ _ hmem
      rw [hlook] at this
      cases this
    have hcanonnew : ∀ e' ∈ g.edges, pair_from_edge e' ≠ pair_from_edge e := by
      intro e' he' heq
      have := h1 e' he'
      rw [heq, hlook] at this
      cases this
    have hbys := indexEdge_bys g e
    have hup : aupdate g.edge_by_sides (pair_from_edge e) e =
        g.edge_by_sides ++ [(pair_from_edge e, e)] :=
      aupdate_keys_of_not_mem _ _ _ hkeys
    have hidx := indexEdge_keys g e h5 h6
    have hadj := fun id => indexEdge_adj g e id
    refine ⟨?_, ?_, ?_, ?_, ?_, ?_, ?_, ?_⟩
    · intro e' he'
      have he2 : e' ∈ g.edges ++ [e] := he'
      show alookup (g.indexEdgeByNodeSides e).edge_by_sides (pair_from_edge e') = _
      rw [hbys]
      rcases List.mem_append.mp he2 with hold | hnew
      · rw [alookup_aupdate_ne _ _ _ _ (hcanonnew e' hold)]
        exact h1 e' hold
      · rw [List.mem_singleton.mp hnew]
        exact alookup_aupdate_self _ _ _
    · intro pe hpe
      have hpe2 : pe ∈ g.edge_by_sides ++ [(pair_from_edge e, e)] := by
        have h0 : pe ∈ (g.indexEdgeByNodeSides e).edge_by_sides := hpe
        rw [hbys, hup] at h0
        exact h0
      show pe.2 ∈ g.edges ++ [e] ∧ _
      rcases List.mem_append.mp hpe2 with hold | hnew
      · have := h2 pe hold
        exact ⟨List.mem_append_left _ this.1, this.2⟩
      · rw [List.mem_singleton.mp hnew]
        exact ⟨List.mem_append_right _ (by simp), rfl⟩
    · show ((g.indexEdgeByNodeSides e).edge_by_sides.map Prod.fst).Nodup
      rw [hbys]
      exact aupdate_keys_nodup _ _ _ h3
    · show ((g.edges ++ [e]).map pair_from_edge).Nodup
      rw [List.map_append]
      refine List.Nodup.append h4 (by simp) ?_
      simp only [List.map_cons, List.map_nil, List.disjoint_singleton]
      intro hmem
      obtain ⟨e', he', heq⟩ := List.mem_map.mp hmem
      exact hcanonnew e' he' heq
    · exact hidx.1
    · exact hidx.2
    · intro id
      show ((g.indexEdgeByNodeSides e).edgesStart id).Perm
        ((g.edges ++ [e]).flatMap (fun e => entriesStart e id))
      rw [(hadj id).1, List.flatMap_append]
      simp only [List.flatMap_cons, List.flatMap_nil, List.append_nil]
      exact (h7 id).append (List.Perm.refl _)
    · intro id
      show ((g.indexEdgeByNodeSides e).edgesEnd id).Perm
        ((g.edges ++ [e]).flatMap (fun e => entriesEnd e id))
      rw [(hadj id).2, List.flatMap_append]
      simp only [List.flatMap_cons, List.flatMap_nil, List.append_nil]
      exact (h8 id).append (List.Perm.refl _)

/-- The canonical-pair index after `unindex_edge_by_node_sides` on a
present edge is exactly the erased association list. -/
theorem unindexEdge_bys (g : VG) (e : EdgeRec) (he : g.hasEdge e = true) :
    (g.unindexEdgeByNodeSides e).edge_by_sides =
      aerase g.edge_by_sides (pair_from_edge e) := by
  unfold VG.unindexEdgeByNodeSides
  rw [if_neg (by simp [he])]
  repeat' split
  all_goals rfl

/-- Key uniqueness of the adjacency sub-indices survives unindexing. -/
theorem unindexEdge_keys (g : VG) (e : EdgeRec)
    (h5 : (g.edges_on_start.map Prod.fst).Nodup)
    (h6 : (g.edges_on_end.map Prod.fst).Nodup) :
    ((g.unindexEdgeByNodeSides e).edges_on_start.map Prod.fst).Nodup ∧
    ((g.unindexEdgeByNodeSides e).edges_on_end.map Prod.fst).Nodup := by
  unfold VG.unindexEdgeByNodeSides
  repeat' split
  all_goals
    exact ⟨by first | exact adjRemove_keys_nodup _ _ _ (adjRemove_keys_nodup _ _ _ h5)
                    | exact adjRemove_keys_nodup _ _ _ h5 | exact h5,
           by first | exact adjRemove_keys_nodup _ _ _ (adjRemove_keys_nodup _ _ _ h6)
                    | exact adjRemove_keys_nodup _ _ _ h6 | exact h6⟩

/-- A pair surviving `aerase` has a different key. -/
theorem aerase_key_ne {α β : Type} [DecidableEq α] (l : List (α × β)) (k : α)
    (pe : α × β) (h : pe ∈ aerase l k) : pe.1 ≠ k := by
  induction l with
  | nil => cases h
  | cons hd t ih =>
    by_cases hk : k = hd.1
    · rw [show aerase (hd :: t) k = aerase t k from by simp [aerase, hk]] at h
      exact ih h
    · rw [show aerase (hd :: t) k = hd :: aerase t k from by simp [aerase, hk]] at h
      rcases List.mem_cons.mp h with h1 | h1
      · subst h1; exact fun hh => hk hh.symm
      · exact ih h1

/-- Folding `swapRemove` over the first part of a permutation removes
exactly that part. -/
theorem foldl_swapRemove_perm {α : Type} [DecidableEq α] :
    ∀ (E S T : List α), S.Perm (E ++ T) → (E.foldl swapRemove S).Perm T := by
  intro E
  induction E with
  | nil => intro S T h; simpa using h
  | cons x E' ih =>
    intro S T h
    simp only [List.foldl_cons]
    refine ih _ _ ?_
    have h1 : (swapRemove S x).Perm (S.erase x) := swapRemove_perm S x
    have h2 := h.erase x
    rw [List.cons_append, List.erase_cons_head] at h2
    exact h1.trans h2

/-- `destroy_edge` preserves the edge-index invariant when applied to an
edge of the graph. -/
theorem destroyEdge_edgesWf (g : VG) (e : EdgeRec) (hmem : e ∈ g.edges)
    (h : g.edgesWf) : (g.destroyEdge e).edgesWf := by
  obtain ⟨h1, h2, h3, h4, h5, h6, h7, h8⟩ := h
  have hasE : g.hasEdge e = true := by
    unfold VG.hasEdge
    rw [h1 e hmem]
    rfl
  have hnodup : g.edges.Nodup := List.Nodup.of_map pair_from_edge h4
  have hedges : (g.unindexEdgeByNodeSides e).edges = g.edges :=
    (unindexEdge_frame g e).2.2.2.2
  have hbys := unindexEdge_bys g e hasE
  have hadj := fun id => unindexEdge_adj g e id hasE
  have hkeysnd := unindexEdge_keys g e h5 h6
  unfold VG.destroyEdge
  rw [if_neg (by simp [hasE])]
  dsimp only
  split
  · rename_i hidx
    rw [hedges] at hidx
    rw [List.indexOf?_eq_none_iff] at hidx
    exact absurd (beq_self_eq_true e) (hidx e hmem)
  · rename_i i hidx
    rw [hedges] at hidx
    obtain ⟨hilt, hier⟩ := indexOf?_spec g.edges e i hidx
    have hperm : (vecSwapRemoveAt g.edges i).Perm (g.edges.erase e) := by
      rw [← hier]
      exact vecSwapRemoveAt_perm g.edges i hilt
    refine ⟨?_, ?_, ?_, ?_, ?_, ?_, ?_, ?_⟩
    · intro e' he'
      have he2 : e' ∈ vecSwapRemoveAt (g.unindexEdgeByNodeSides e).edges i := he'
      rw [hedges] at he2
      have he3 : e' ∈ g.edges.erase e := hperm.mem_iff.mp he2
      have he4 : e' ∈ g.edges := List.mem_of_mem_erase he3
      have hne : e' ≠ e := by
        intro hh
        subst hh
        exact hnodup.not_mem_erase he3
      have hcne : pair_from_edge e' ≠ pair_from_edge e := by
        intro hc
        exact hne (List.inj_on_of_nodup_map h4 he4 hmem hc)
      show alookup (g.unindexEdgeByNodeSides e).edge_by_sides (pair_from_edge e')
        = some e'
      rw [hbys, alookup_aerase_ne _ _ _ hcne]
      exact h1 e' he4
    · intro pe hpe
      have hpe2 : pe ∈ aerase g.edge_by_sides (pair_from_edge e) := by
        have h0 : pe ∈ (g.unindexEdgeByNodeSides e).edge_by_sides := hpe
        rwa [hbys] at h0
      have memold : pe ∈ g.edge_by_sides := (aerase_sublist _ _).subset hpe2
      obtain ⟨hm, hc⟩ := h2 pe memold
      have hkne : pe.1 ≠ pair_from_edge e := aerase_key_ne _ _ _ hpe2
      have hne2 : pe.2 ≠ e := by
        intro hh
        exact hkne (by rw [← hc, hh])
      constructor
      · show pe.2 ∈ vecSwapRemoveAt (g.unindexEdgeByNodeSides e).edges i
        rw [hedges]
        exact hperm.mem_iff.mpr ((List.mem_erase_of_ne hne2).mpr hm)
      · exact hc
    · show (((g.unindexEdgeByNodeSides e).edge_by_sides).map Prod.fst).Nodup
      rw [hbys]
      exact ((aerase_sublist _ _).map Prod.fst).nodup h3
    · show ((vecSwapRemoveAt (g.unindexEdgeByNodeSides e).edges i).map
        pair_from_edge).Nodup
      rw [hedges]
      exact (hperm.map pair_from_edge).nodup_iff.mpr
        (((g.edges.erase_sublist e).map pair_from_edge).nodup h4)
    · exact hkeysnd.1
    · exact hkeysnd.2
    · intro id
      show ((g.unindexEdgeByNodeSides e).edgesStart id).Perm
        ((vecSwapRemoveAt (g.unindexEdgeByNodeSides e).edges i).flatMap
          (fun ed => entriesStart ed id))
      rw [(hadj id).1, hedges]
      have hR := hperm.flatMap_right (fun ed => entriesStart ed id)
      refine (foldl_swapRemove_perm _ _ _ ?_).trans hR.symm
      have hsplit : (g.edges.flatMap (fun ed => entriesStart ed id)).Perm
          (entriesStart e id ++
            (g.edges.erase e).flatMap (fun ed => entriesStart ed id)) := by
        have := (List.perm_cons_erase hmem).flatMap_right
          (fun ed => entriesStart ed id)
        simpa [List.flatMap_cons] using this
      exact (h7 id).trans hsplit
    · intro id
      show ((g.unindexEdgeByNodeSides e).edgesEnd id).Perm
        ((vecSwapRemoveAt (g.unindexEdgeByNodeSides e).edges i).flatMap
          (fun ed => entriesEnd ed id))
      rw [(hadj id).2, hedges]
      have hR := hperm.flatMap_right (fun ed => entriesEnd ed id)
      refine (foldl_swapRemove_perm _ _ _ ?_).trans hR.symm
      have hsplit : (g.edges.flatMap (fun ed => entriesEnd ed id)).Perm
          (entriesEnd e id ++
            (g.edges.erase e).flatMap (fun ed => entriesEnd ed id)) := by
        have := (List.perm_cons_erase hmem).flatMap_right
          (fun ed => entriesEnd ed id)
        simpa [List.flatMap_cons] using this
      exact (h8 id).trans hsplit

/-- The side order is asymmetric. -/
theorem NodeSide.lt_asymm (a b : NodeSide) (h : NodeSide.lt a b = true) :
    NodeSide.lt b a = false := by
  obtain ⟨an, ae⟩ := a
  obtain ⟨bn, be⟩ := b
  simp only [NodeSide.lt, Bool.or_eq_true, decide_eq_true_eq, Bool.and_eq_true,
    Bool.not_eq_true', Bool.or_eq_false_iff, Bool.and_eq_false_iff,
    decide_eq_false_iff_not] at h ⊢
  rcases h with h | ⟨h1, h2, h3⟩
  · constructor
    · omega
    · left; omega
  · subst h1 h2 h3
    refine ⟨by omega, ?_⟩
    right
    simp

/-- Two sides neither of which precedes the other are equal. -/
theorem NodeSide.eq_of_not_lt (a b : NodeSide) (h1 : NodeSide.lt a b = false)
    (h2 : NodeSide.lt b a = false) : a = b := by
  obtain ⟨an, ae⟩ := a
  obtain ⟨bn, be⟩ := b
  simp only [NodeSide.lt, Bool.or_eq_false_iff, decide_eq_false_iff_not,
    Bool.and_eq_false_iff, Bool.not_eq_false', Bool.not_eq_true'] at h1 h2
  obtain ⟨h1n, h1s⟩ := h1
  obtain ⟨h2n, h2s⟩ := h2
  have hn : an = bn := by omega
  subst hn
  simp only [NodeSide.mk.injEq, true_and]
  rcases h1s with h | h | h <;> rcases h2s with h' | h' | h' <;>
    first | omega | (cases ae <;> cases be <;> simp_all)

/-- The canonical side pair does not depend on the argument order. -/
theorem minmaxSides_comm (a b : NodeSide) :
    minmaxSides a b = minmaxSides b a := by
  by_cases h1 : NodeSide.lt b a = true
  · have h2 : NodeSide.lt a b = false := NodeSide.lt_asymm b a h1
    simp [minmaxSides, h1, h2]
  · by_cases h2 : NodeSide.lt a b = true
    · simp [minmaxSides, h1, h2]
    · have hab : a = b :=
        NodeSide.eq_of_not_lt a b (by simpa using h2) (by simpa using h1)
      subst hab
      rfl

/-- Re-canonicalising a canonical pair is the identity. -/
theorem minmaxSides_idem (a b : NodeSide) :
    minmaxSides (minmaxSides a b).1 (minmaxSides a b).2 = minmaxSides a b := by
  by_cases h1 : NodeSide.lt b a = true
  · have h2 : NodeSide.lt a b = false := NodeSide.lt_asymm b a h1
    simp [minmaxSides, h1, h2]
  · simp [minmaxSides, h1]

/-- Membership in the sorted-set insertion. -/
theorem mem_insertSortedPair (l : List (NodeSide × NodeSide))
    (x a : NodeSide × NodeSide) :
    a ∈ insertSortedPair l x ↔ a = x ∨ a ∈ l := by
  induction l with
  | nil => simp [insertSortedPair]
  | cons y rest ih =>
    unfold insertSortedPair
    split
    · simp [List.mem_cons]
    · split
      · rename_i hxy
        subst hxy
        simp [List.mem_cons]
      · simp only [List.mem_cons, ih]
        tauto

/-- Membership in a fold of sorted-set insertions. -/
theorem mem_foldl_insertSortedPair :
    ∀ (E acc : List (NodeSide × NodeSide)) (a : NodeSide × NodeSide),
      (a ∈ acc ∨ a ∈ E) → a ∈ E.foldl insertSortedPair acc := by
  intro E
  induction E with
  | nil => intro acc a h; simpa using h
  | cons x E' ih =>
    intro acc a h
    simp only [List.foldl_cons]
    refine ih _ _ ?_
    rcases h with h | h
    · exact Or.inl ((mem_insertSortedPair _ _ _).mpr (Or.inr h))
    · rcases List.mem_cons.mp h with h | h
      · exact Or.inl ((mem_insertSortedPair _ _ _).mpr (Or.inl h))
      · exact Or.inr h

/-- A start-side adjacency entry recovers the canonical pair of the edge
that contributed it. -/
theorem entriesStart_pair (e : EdgeRec) (id : Nat) (x : Nat × Bool)
    (hx : x ∈ entriesStart e id) :
    minmaxSides ⟨id, false⟩ ⟨x.1, !x.2⟩ = pair_from_edge e := by
  obtain ⟨a, b, fs, te⟩ := e
  unfold entriesStart at hx
  rcases List.mem_append.mp hx with h | h
  · by_cases hc : fs = true ∧ id = a
    · rw [if_pos hc, List.mem_singleton] at h
      obtain ⟨hfs, hid⟩ := hc
      subst hid hfs h
      cases te <;> simp [pair_from_edge, EdgeRec.fromSide, EdgeRec.toSide]
    · rw [if_neg hc] at h
      cases h
  · by_cases hc : (a ≠ b ∨ fs = te) ∧ te = false ∧ id = b
    · rw [if_pos hc, List.mem_singleton] at h
      obtain ⟨-, hte, hid⟩ := hc
      subst hid hte h
      rw [minmaxSides_comm]
      cases fs <;> simp [pair_from_edge, EdgeRec.fromSide, EdgeRec.toSide]
    · rw [if_neg hc] at h
      cases h

/-- An end-side adjacency entry recovers the canonical pair of the edge
that contributed it. -/
theorem entriesEnd_pair (e : EdgeRec) (id : Nat) (x : Nat × Bool)
    (hx : x ∈ entriesEnd e id) :
    minmaxSides ⟨id, true⟩ ⟨x.1, x.2⟩ = pair_from_edge e := by
  obtain ⟨a, b, fs, te⟩ := e
  unfold entriesEnd at hx
  rcases List.mem_append.mp hx with h | h
  · by_cases hc : fs = false ∧ id = a
    · rw [if_pos hc, List.mem_singleton] at h
      obtain ⟨hfs, hid⟩ := hc
      subst hid hfs h
      cases te <;> simp [pair_from_edge, EdgeRec.fromSide, EdgeRec.toSide]
    · rw [if_neg hc] at h
      cases h
  · by_cases hc : (a ≠ b ∨ fs = te) ∧ te = true ∧ id = b
    · rw [if_pos hc, List.mem_singleton] at h
      obtain ⟨-, hte, hid⟩ := hc
      subst hid hte h
      rw [minmaxSides_comm]
      cases fs <;> simp [pair_from_edge, EdgeRec.fromSide, EdgeRec.toSide]
    · rw [if_neg hc] at h
      cases h

/-- Every edge incident on a node contributes at least one adjacency entry
on one of its sides. -/
theorem incident_entry (e : EdgeRec) (id : Nat)
    (hinc : e.efrom = id ∨ e.eto = id) :
    (∃ x, x ∈ entriesStart e id) ∨ ∃ x, x ∈ entriesEnd e id := by
  by_cases hf : id = e.efrom
  · cases hfs : e.from_start
    · right
      exact ⟨(e.eto, e.from_start != e.to_end), by
        unfold entriesEnd
        refine List.mem_append.mpr (Or.inl ?_)
        rw [if_pos ⟨hfs, hf⟩]
        simp⟩
    · left
      exact ⟨(e.eto, e.from_start != e.to_end), by
        unfold entriesStart
        refine List.mem_append.mpr (Or.inl ?_)
        rw [if_pos ⟨hfs, hf⟩]
        simp⟩
  · have ht : id = e.eto := by tauto
    have hne : e.efrom ≠ e.eto := by
      intro hh
      exact hf (by omega)
    cases hte : e.to_end
    · left
      exact ⟨(e.efrom, e.from_start != e.to_end), by
        unfold entriesStart
        refine List.mem_append.mpr (Or.inr ?_)
        rw [if_pos ⟨Or.inl hne, hte, ht⟩]
        simp⟩
    · right
      exact ⟨(e.efrom, e.from_start != e.to_end), by
        unfold entriesEnd
        refine List.mem_append.mpr (Or.inr ?_)
        rw [if_pos ⟨Or.inl hne, hte, ht⟩]
        simp⟩

/-- Erasing a key cannot make a lookup succeed. -/
theorem alookup_aerase_none {α β : Type} [DecidableEq α]
    (l : List (α × β)) (k q : α) (h : alookup l q = none) :
    alookup (aerase l k) q = none := by
  by_cases hqk : q = k
  · subst hqk
    exact alookup_aerase_self _ _
  · rw [alookup_aerase_ne _ _ _ hqk]
    exact h

/-- The canonical index after `destroy_edge` as a function of presence. -/
theorem destroyEdge_bys (g : VG) (e : EdgeRec) :
    (g.destroyEdge e).edge_by_sides =
      if g.hasEdge e then aerase g.edge_by_sides (pair_from_edge e)
      else g.edge_by_sides := by
  unfold VG.destroyEdge
  by_cases he : g.hasEdge e = true
  · rw [if_neg (by simp [he]), if_pos he]
    dsimp only
    split
    · exact unindexEdge_bys g e he
    · exact unindexEdge_bys g e he
  · rw [if_pos (by simpa using he), if_neg (by simpa using he)]

/-- `destroy_edge` only removes edges from the vector. -/
theorem destroyEdge_edges_subset (g : VG) (e : EdgeRec) :
    ∀ x ∈ (g.destroyEdge e).edges, x ∈ g.edges := by
  unfold VG.destroyEdge
  by_cases he : g.hasEdge e = true
  · rw [if_neg (by simp [he])]
    dsimp only
    split
    · intro x hx
      rw [(unindexEdge_frame g e).2.2.2.2] at hx
      exact hx
    · rename_i i hidx
      intro x hx
      rw [(unindexEdge_frame g e).2.2.2.2] at hidx
      obtain ⟨hilt, hier⟩ := indexOf?_spec _ _ i hidx
      have hperm : (vecSwapRemoveAt (g.unindexEdgeByNodeSides e).edges i).Perm
          (g.edges.erase e) := by
        rw [(unindexEdge_frame g e).2.2.2.2, ← hier]
        exact vecSwapRemoveAt_perm g.edges i hilt
      exact List.mem_of_mem_erase (hperm.mem_iff.mp hx)
  · rw [if_pos (by simpa using he)]
    intro x hx
    exact hx

/-- `destroy_edge(side1, side2)` preserves the edge-index invariant. -/
theorem destroyEdgeSides_edgesWf (g : VG) (s1 s2 : NodeSide) (h : g.edgesWf) :
    (g.destroyEdgeSides s1 s2).edgesWf := by
  unfold VG.destroyEdgeSides
  split
  · rename_i e hsome
    have hmem : (minmaxSides s1 s2, e) ∈ g.edge_by_sides :=
      alookup_mem _ _ _ hsome
    exact destroyEdge_edgesWf g e (h.2.1 _ hmem).1 h
  · exact h

/-- `destroy_edge(side1, side2)` only removes edges. -/
theorem destroyEdgeSides_edges_subset (g : VG) (s1 s2 : NodeSide) :
    ∀ x ∈ (g.destroyEdgeSides s1 s2).edges, x ∈ g.edges := by
  unfold VG.destroyEdgeSides
  split
  · exact destroyEdge_edges_subset g _
  · intro x hx; exact hx

/-- `destroy_edge(side1, side2)` cannot make a canonical lookup succeed. -/
theorem destroyEdgeSides_bys_none (g : VG) (s1 s2 : NodeSide)
    (q : NodeSide × NodeSide) (h : alookup g.edge_by_sides q = none) :
    alookup (g.destroyEdgeSides s1 s2).edge_by_sides q = none := by
  unfold VG.destroyEdgeSides
  split
  · rw [destroyEdge_bys]
    split
    · exact alookup_aerase_none _ _ _ h
    · exact h
  · exact h

/-- After `destroy_edge(side1, side2)` the canonical record of that side
pair is gone. -/
theorem destroyEdgeSides_self_none (g : VG) (s1 s2 : NodeSide)
    (h : g.edgesWf) :
    alookup (g.destroyEdgeSides s1 s2).edge_by_sides (minmaxSides s1 s2)
      = none := by
  unfold VG.destroyEdgeSides
  split
  · rename_i e hsome
    have hmem : (minmaxSides s1 s2, e) ∈ g.edge_by_sides :=
      alookup_mem _ _ _ hsome
    have hc : pair_from_edge e = minmaxSides s1 s2 := (h.2.1 _ hmem).2
    have hsome2 : alookup g.edge_by_sides (minmaxSides s1 s2) = some e := hsome
    have hasE : g.hasEdge e = true := by
      unfold VG.hasEdge
      rw [hc, hsome2]
      rfl
    rw [destroyEdge_bys, if_pos hasE, ← hc]
    exact alookup_aerase_self _ _
  · rename_i hnone
    exact hnone

/-- `destroy_edge(side1, side2)` keeps every edge whose canonical pair is
a different one. -/
theorem destroyEdgeSides_edges_keep (g : VG) (s1 s2 : NodeSide)
    (h : g.edgesWf) (x : EdgeRec) (hx : x ∈ g.edges)
    (hne : pair_from_edge x ≠ minmaxSides s1 s2) :
    x ∈ (g.destroyEdgeSides s1 s2).edges := by
  unfold VG.destroyEdgeSides
  split
  · rename_i v hsome
    have hmem : (minmaxSides s1 s2, v) ∈ g.edge_by_sides :=
      alookup_mem _ _ _ hsome
    have hcv : pair_from_edge v = minmaxSides s1 s2 := (h.2.1 _ hmem).2
    have hxv : x ≠ v := by
      intro hh
      subst hh
      exact hne hcv
    unfold VG.destroyEdge
    by_cases hase : g.hasEdge v = true
    · rw [if_neg (by simp [hase])]
      dsimp only
      split
      · rw [(unindexEdge_frame g v).2.2.2.2]
        exact hx
      · rename_i i hidx
        rw [(unindexEdge_frame g v).2.2.2.2] at hidx
        obtain ⟨hilt, hier⟩ := indexOf?_spec _ _ i hidx
        have hperm : (vecSwapRemoveAt (g.unindexEdgeByNodeSides v).edges i).Perm
            (g.edges.erase v) := by
          rw [(unindexEdge_frame g v).2.2.2.2, ← hier]
          exact vecSwapRemoveAt_perm g.edges i hilt
        exact hperm.mem_iff.mpr ((List.mem_erase_of_ne hxv).mpr hx)
    · rw [if_pos (by simpa using hase)]
      exact hx
  · exact hx

/-- The fold of `destroy_edge` over a pair list: the invariant is kept,
edges are only removed, absent records stay absent, every listed pair
ends up absent, and edges under no listed pair survive. -/
theorem foldDestroy_spec :
    ∀ (ps : List (NodeSide × NodeSide)) (g : VG), g.edgesWf →
      (ps.foldl (fun g p => g.destroyEdgeSides p.1 p.2) g).edgesWf ∧
      (∀ x ∈ (ps.foldl (fun g p => g.destroyEdgeSides p.1 p.2) g).edges,
        x ∈ g.edges) ∧
      (∀ q, alookup g.edge_by_sides q = none →
        alookup (ps.foldl (fun g p => g.destroyEdgeSides p.1 p.2) g).edge_by_sides
          q = none) ∧
      (∀ p ∈ ps,
        alookup (ps.foldl (fun g p => g.destroyEdgeSides p.1 p.2) g).edge_by_sides
          (minmaxSides p.1 p.2) = none) ∧
      (∀ x ∈ g.edges, (∀ p ∈ ps, pair_from_edge x ≠ minmaxSides p.1 p.2) →
        x ∈ (ps.foldl (fun g p => g.destroyEdgeSides p.1 p.2) g).edges) := by
  intro ps
  induction ps with
  | nil =>
    intro g h
    exact ⟨h, fun x hx => hx, fun q hq => hq, by simp, fun x hx _ => hx⟩
  | cons p ps' ih =>
    intro g h
    simp only [List.foldl_cons]
    have h1 : (g.destroyEdgeSides p.1 p.2).edgesWf :=
      destroyEdgeSides_edgesWf g p.1 p.2 h
    obtain ⟨ihWf, ihSub, ihNone, ihAll, ihKeep⟩ := ih (g.destroyEdgeSides p.1 p.2) h1
    refine ⟨ihWf, ?_, ?_, ?_, ?_⟩
    · intro x hx
      exact destroyEdgeSides_edges_subset g p.1 p.2 x (ihSub x hx)
    · intro q hq
      exact ihNone q (destroyEdgeSides_bys_none g p.1 p.2 q hq)
    · intro p' hp'
      rcases List.mem_cons.mp hp' with hp' | hp'
      · subst hp'
        exact ihNone _ (destroyEdgeSides_self_none g p'.1 p'.2 h)
      · exact ihAll p' hp'
    · intro x hx hne
      refine ihKeep x ?_ (fun p' hp' => hne p' (List.mem_cons_of_mem _ hp'))
      exact destroyEdgeSides_edges_keep g p.1 p.2 h x hx
        (hne p (List.mem_cons_self _ _))

/-- `destroy_node` preserves the edge-index invariant. -/
theorem destroyNode_edgesWf (g : VG) (id : Nat) (h : g.edgesWf) :
    (g.destroyNode id).edgesWf := by
  unfold VG.destroyNode
  split
  · exact h
  · rename_i s hsome
    dsimp only
    set startPairs := (g.edgesStart id).map
      (fun e => minmaxSides ⟨id, false⟩ ⟨e.1, !e.2⟩) with hSP
    set endPairs := (g.edgesEnd id).map
      (fun e => minmaxSides ⟨id, true⟩ ⟨e.1, e.2⟩) with hEP
    set toDestroy := (startPairs ++ endPairs).foldl insertSortedPair [] with hTD
    set g1 := toDestroy.foldl (fun g p => g.destroyEdgeSides p.1 p.2) g with hG1
    obtain ⟨hWf1, hSub1, _, hAll1, _⟩ := foldDestroy_spec toDestroy g h
    obtain ⟨k1, k2, k3, k4, k5, k6, k7, k8⟩ := hWf1
    have hnoinc : ∀ e' ∈ g1.edges, e'.efrom ≠ id ∧ e'.eto ≠ id := by
      intro e' he'
      by_contra hcon
      push_neg at hcon
      have hinc : e'.efrom = id ∨ e'.eto = id := by tauto
      have hgmem : e' ∈ g.edges := hSub1 e' he'
      have hpairmem : pair_from_edge e' ∈ startPairs ++ endPairs := by
        rcases incident_entry e' id hinc with ⟨x, hx⟩ | ⟨x, hx⟩
        · refine List.mem_append.mpr (Or.inl ?_)
          rw [hSP]
          refine List.mem_map.mpr ⟨x, ?_, entriesStart_pair e' id x hx⟩
          refine ((h.2.2.2.2.2.2.1 id).mem_iff).mpr ?_
          exact List.mem_flatMap.mpr ⟨e', hgmem, hx⟩
        · refine List.mem_append.mpr (Or.inr ?_)
          rw [hEP]
          refine List.mem_map.mpr ⟨x, ?_, entriesEnd_pair e' id x hx⟩
          refine ((h.2.2.2.2.2.2.2 id).mem_iff).mpr ?_
          exact List.mem_flatMap.mpr ⟨e', hgmem, hx⟩
      have hTDmem : pair_from_edge e' ∈ toDestroy :=
        mem_foldl_insertSortedPair _ _ _ (Or.inr hpairmem)
      have hnone := hAll1 _ hTDmem
      have hpfix : minmaxSides (pair_from_edge e').1 (pair_from_edge e').2
          = pair_from_edge e' := by
        unfold pair_from_edge
        exact minmaxSides_idem _ _
      rw [hpfix] at hnone
      have := k1 e' he'
      rw [this] at hnone
      cases hnone
    have hflatnil : ∀ idq, idq = id →
        (g1.edges.flatMap (fun ed => entriesStart ed idq) = [] ∧
         g1.edges.flatMap (fun ed => entriesEnd ed idq) = []) := by
      intro idq hidq
      subst hidq
      constructor <;>
      · simp only [List.flatMap_eq_nil_iff]
        intro ed hed
        obtain ⟨hf, ht⟩ := hnoinc ed hed
        first
          | exact entriesStart_nil ed idq (fun hh => hf hh.symm)
              (fun hh => ht hh.symm)
          | exact entriesEnd_nil ed idq (fun hh => hf hh.symm)
              (fun hh => ht hh.symm)
    -- the state after clearing the two sub-indices of `id`
    have hmain : ∀ (G : VG), G.edges = g1.edges →
        G.edge_by_sides = g1.edge_by_sides →
        G.edges_on_start = aerase g1.edges_on_start id →
        G.edges_on_end = aerase g1.edges_on_end id → G.edgesWf := by
      intro G hGe hGb hGs hGn
      refine ⟨?_, ?_, ?_, ?_, ?_, ?_, ?_, ?_⟩
      · rw [hGe, hGb]; exact k1
      · rw [hGb]
        intro pe hpe
        rw [hGe]
        exact k2 pe hpe
      · rw [hGb]; exact k3
      · rw [hGe]; exact k4
      · rw [hGs]
        exact ((aerase_sublist _ _).map Prod.fst).nodup k5
      · rw [hGn]
        exact ((aerase_sublist _ _).map Prod.fst).nodup k6
      · intro idq
        rw [hGe]
        by_cases hidq : idq = id
        · subst hidq
          have hL : G.edgesStart idq = [] := by
            unfold VG.edgesStart
            rw [hGs, alookup_aerase_self]
            rfl
          rw [hL, (hflatnil idq rfl).1]
        · have hL : G.edgesStart idq = g1.edgesStart idq := by
            unfold VG.edgesStart
            rw [hGs, alookup_aerase_ne _ _ _ hidq]
          rw [hL]
          exact k7 idq
      · intro idq
        rw [hGe]
        by_cases hidq : idq = id
        · subst hidq
          have hL : G.edgesEnd idq = [] := by
            unfold VG.edgesEnd
            rw [hGn, alookup_aerase_self]
            rfl
          rw [hL, (hflatnil idq rfl).2]
        · have hL : G.edgesEnd idq = g1.edgesEnd idq := by
            unfold VG.edgesEnd
            rw [hGn, alookup_aerase_ne _ _ _ hidq]
          rw [hL]
          exact k8 idq
    split
    · exact hmain _ rfl rfl rfl rfl
    · exact hmain _ rfl rfl rfl rfl

/-- The invariant depends only on the four edge-related fields. -/
theorem edgesWf_of_eq_fields (G g : VG) (he : G.edges = g.edges)
    (hb : G.edge_by_sides = g.edge_by_sides)
    (hs : G.edges_on_start = g.edges_on_start)
    (hn : G.edges_on_end = g.edges_on_end) (h : g.edgesWf) : G.edgesWf := by
  obtain ⟨h1, h2, h3, h4, h5, h6, h7, h8⟩ := h
  have hS : ∀ id, G.edgesStart id = g.edgesStart id := by
    intro id
    unfold VG.edgesStart
    rw [hs]
  have hE : ∀ id, G.edgesEnd id = g.edgesEnd id := by
    intro id
    unfold VG.edgesEnd
    rw [hn]
  refine ⟨?_, ?_, ?_, ?_, ?_, ?_, ?_, ?_⟩
  · rw [he, hb]; exact h1
  · rw [hb]
    intro pe hpe
    rw [he]
    exact h2 pe hpe
  · rw [hb]; exact h3
  · rw [he]; exact h4
  · rw [hs]; exact h5
  · rw [hn]; exact h6
  · intro id
    rw [hS id, he]
    exact h7 id
  · intro id
    rw [hE id, he]
    exact h8 id

/-- Replacing the path collection leaves the invariant intact. -/
theorem paths_edgesWf (g : VG) (p : Paths) (h : g.edgesWf) :
    ({ g with paths := p } : VG).edgesWf :=
  edgesWf_of_eq_fields _ g rfl rfl rfl rfl h

/-- `create_node(seq, id)` preserves the edge-index invariant. -/
theorem createNodeWithId_edgesWf (g : VG) (s : List Char) (id : Nat)
    (h : g.edgesWf) : (g.createNodeWithId s id).edgesWf :=
  edgesWf_of_eq_fields _ g rfl rfl rfl rfl h

/-- `create_node(seq)` preserves the edge-index invariant. -/
theorem createNode_edgesWf (g : VG) (s : List Char) (h : g.edgesWf) :
    (g.createNode s).1.edgesWf :=
  edgesWf_of_eq_fields _ g rfl rfl rfl rfl h

/-- A fold of invariant-preserving steps preserves the invariant. -/
theorem foldl_edgesWf {α : Type} (f : VG → α → VG)
    (hf : ∀ g x, g.edgesWf → (f g x).edgesWf) :
    ∀ (l : List α) (g : VG), g.edgesWf → (l.foldl f g).edgesWf := by
  intro l
  induction l with
  | nil => intro g h; exact h
  | cons x l' ih =>
    intro g h
    simp only [List.foldl_cons]
    exact ih _ (hf g x h)

/-- A fold of invariant-preserving steps on a pair state preserves the
invariant of the graph component. -/
theorem foldl_pair_edgesWf {α β : Type} (f : VG × β → α → VG × β)
    (hf : ∀ p x, p.1.edgesWf → (f p x).1.edgesWf) :
    ∀ (l : List α) (p : VG × β), p.1.edgesWf → (l.foldl f p).1.edgesWf := by
  intro l
  induction l with
  | nil => intro p h; exact h
  | cons x l' ih =>
    intro p h
    simp only [List.foldl_cons]
    exact ih _ (hf p x h)

/-- The `NodeTraversal` overload of `create_edge` preserves the
invariant. -/
theorem createEdgeTrav_edgesWf (g : VG) (l r : Trav) (h : g.edgesWf) :
    (g.createEdgeTrav l r).1.edgesWf :=
  createEdge_edgesWf g l.node r.node l.backward r.backward h

/-- The successful path of `divide_node` preserves the edge-index
invariant. -/
theorem divideNodeCore_edgesWf (g : VG) (id : Nat) (s : List Char)
    (positions : List Int) (h : g.edgesWf) :
    (g.divideNodeCore id s positions).1.edgesWf := by
  unfold VG.divideNodeCore
  apply destroyNode_edgesWf
  apply paths_edgesWf
  apply foldl_edgesWf
  · intro g' pq h'
    exact createEdge_edgesWf g' pq.1 pq.2 false false h'
  apply foldl_edgesWf
  · intro g' e h'
    exact createEdge_edgesWf g' e.1.1 e.2.1 e.1.2 e.2.2 h'
  apply foldl_pair_edgesWf
  · intro p pc h'
    exact createNode_edgesWf p.1 pc h'
  exact h

/-- `divide_node` preserves the edge-index invariant when it succeeds. -/
theorem divideNode_edgesWf (g : VG) (id : Nat) (positions : List Int)
    (g' : VG) (parts : List Nat)
    (hres : g.divideNode id positions = some (g', parts)) (h : g.edgesWf) :
    g'.edgesWf := by
  unfold VG.divideNode at hres
  split at hres
  · cases hres
  · rename_i s hsome
    split at hres
    · cases hres
    · have := divideNodeCore_edgesWf g id s positions h
      cases hres
      exact this

/-- `concat_nodes` preserves the edge-index invariant when it succeeds. -/
theorem concatNodes_edgesWf (g : VG) (nodes : List Trav) (g' : VG) (nid : Nat)
    (hres : g.concatNodes nodes = some (g', nid)) (h : g.edgesWf) :
    g'.edgesWf := by
  unfold VG.concatNodes at hres
  match nodes with
  | [] => cases hres
  | front :: rest =>
    dsimp only at hres
    split at hres
    · cases hres
    · split at hres
      · cases hres
      · rename_i new_mappings hnm
        split at hres
        · cases hres
        · rw [Option.some_inj] at hres
          have hfst := congrArg Prod.fst hres.symm
          dsimp only at hfst
          rw [hfst]
          apply foldl_edgesWf
          · intro g1 t h1
            exact destroyNode_edgesWf g1 t.node h1
          apply foldl_edgesWf
          · intro g1 nxt h1
            dsimp only
            split
            · exact createEdgeTrav_edgesWf _ _ _ h1
            · split
              · exact h1
              · exact createEdgeTrav_edgesWf _ _ _ h1
          apply foldl_edgesWf
          · intro g1 prv h1
            exact createEdgeTrav_edgesWf _ _ _ h1
          apply foldl_edgesWf
          · intro g1 nm h1
            apply foldl_edgesWf
            · intro g2 m h2
              exact paths_edgesWf _ _ h2
            exact h1
          apply foldl_edgesWf
          · intro g1 t h1
            exact paths_edgesWf _ _ h1
          exact createNode_edgesWf g _ h

/-- In an association list with unique keys, the records under a present
key's filter are exactly the one entry. -/
theorem filter_key_singleton {α β : Type} [DecidableEq α]
    (l : List (α × β)) (k : α) (v : β) (hnd : (l.map Prod.fst).Nodup)
    (hmem : (k, v) ∈ l) : l.filter (fun p => p.1 = k) = [(k, v)] := by
  induction l with
  | nil => cases hmem
  | cons hd t ih =>
    simp only [List.map_cons, List.nodup_cons] at hnd
    rcases List.mem_cons.mp hmem with hh | hh
    · subst hh
      rw [List.filter_cons_of_pos (by simp)]
      have hnil : t.filter (fun p => p.1 = k) = [] := by
        rw [List.filter_eq_nil_iff]
        intro p hp
        simp only [decide_eq_true_eq]
        intro hk
        exact hnd.1 (List.mem_map.mpr ⟨p, hp, by rw [hk]⟩)
      rw [hnil]
    · have hne : hd.1 ≠ k := by
        intro hk
        refine hnd.1 (List.mem_map.mpr ⟨(k, v), hh, by rw [hk]⟩)
      rw [List.filter_cons_of_neg (by simpa using hne)]
      exact ih hnd.2 hh

/-- The adjacency vector attached to a node side: `edges_start` for the
left side, `edges_end` for the right. -/
def sideAdj (g : VG) (s : NodeSide) : List (Nat × Bool) :=
  if s.is_end then g.edgesEnd s.node else g.edgesStart s.node

/-- The consistency property claim C6 states for every edge of the graph:
each of its two sides' adjacency vectors holds the counterpart entry, and
exactly one record sits under the canonical side pair. -/
def edgeIndexConsistent (g : VG) : Prop :=
  ∀ e ∈ g.edges,
    (e.eto, e.from_start != e.to_end) ∈ sideAdj g e.fromSide ∧
    (e.efrom, e.from_start != e.to_end) ∈ sideAdj g e.toSide ∧
    g.edge_by_sides.filter (fun pe => pe.1 = pair_from_edge e)
      = [(pair_from_edge e, e)] ∧
    alookup g.edge_by_sides (pair_from_edge e) = some e

/-- The invariant implies the per-edge consistency property of claim
C6. -/
theorem edgesWf_edgeIndexConsistent (g : VG) (h : g.edgesWf) :
    edgeIndexConsistent g := by
  obtain ⟨h1, h2, h3, h4, h5, h6, h7, h8⟩ := h
  intro e he
  have hfrom : (e.eto, e.from_start != e.to_end) ∈ sideAdj g e.fromSide := by
    unfold sideAdj EdgeRec.fromSide
    cases hfs : e.from_start
    · rw [if_pos (by simp)]
      refine (h8 e.efrom).mem_iff.mpr (List.mem_flatMap.mpr ⟨e, he, ?_⟩)
      unfold entriesEnd
      refine List.mem_append.mpr (Or.inl ?_)
      rw [if_pos ⟨hfs, rfl⟩]
      simp [hfs]
    · rw [if_neg (by simp)]
      refine (h7 e.efrom).mem_iff.mpr (List.mem_flatMap.mpr ⟨e, he, ?_⟩)
      unfold entriesStart
      refine List.mem_append.mpr (Or.inl ?_)
      rw [if_pos ⟨hfs, rfl⟩]
      simp [hfs]
  refine ⟨hfrom, ?_, ?_, ?_⟩
  · by_cases hcond : e.efrom ≠ e.eto ∨ e.from_start = e.to_end
    · unfold sideAdj EdgeRec.toSide
      cases hte : e.to_end
      · rw [if_neg (by simp)]
        refine (h7 e.eto).mem_iff.mpr (List.mem_flatMap.mpr ⟨e, he, ?_⟩)
        unfold entriesStart
        refine List.mem_append.mpr (Or.inr ?_)
        rw [if_pos ⟨hcond, hte, rfl⟩]
        simp [hte]
      · rw [if_pos (by simp)]
        refine (h8 e.eto).mem_iff.mpr (List.mem_flatMap.mpr ⟨e, he, ?_⟩)
        unfold entriesEnd
        refine List.mem_append.mpr (Or.inr ?_)
        rw [if_pos ⟨hcond, hte, rfl⟩]
        simp [hte]
    · push_neg at hcond
      obtain ⟨heq, hne⟩ := hcond
      have hsides : e.toSide = e.fromSide := by
        unfold EdgeRec.toSide EdgeRec.fromSide
        cases hfb : e.from_start <;> cases htb : e.to_end <;>
          simp_all
      rw [hsides, heq]
      exact hfrom
  · have hpair : (pair_from_edge e, e) ∈ g.edge_by_sides :=
      alookup_mem _ _ _ (h1 e he)
    exact filter_key_singleton _ _ _ h3 hpair
  · exact h1 e he

/-! ## Claim C6: the edge-index invariant across mutations -/

/-- A concrete two-node graph with one edge, used to instantiate the
invariant theorem. -/
def gC6 : VG :=
  (((VG.empty.createNode ['A']).1.createNode ['C']).1.createEdge
    1 2 false false).1

/-- Claim C6: each of the six graph mutations preserves the edge-index
invariant `edgesWf` — and under it every edge of the graph, self loops
included, has the counterpart entry in the adjacency vector of each of its
two sides and exactly one record under its canonical side pair
(`edgeIndexConsistent`).  `destroy_edge` takes an edge of the graph (the
C++ function receives a graph-owned `Edge*`), and `divide_node` and
`concat_nodes` are considered on their successful paths. -/
theorem C6_edge_index_invariant :
    (∀ (g : VG) (a b : Nat) (fs te : Bool), g.edgesWf →
      (g.createEdge a b fs te).1.edgesWf ∧
      edgeIndexConsistent (g.createEdge a b fs te).1) ∧
    (∀ (g : VG) (e : EdgeRec), e ∈ g.edges → g.edgesWf →
      (g.destroyEdge e).edgesWf ∧ edgeIndexConsistent (g.destroyEdge e)) ∧
    (∀ (g : VG) (s : List Char), g.edgesWf →
      (g.createNode s).1.edgesWf ∧ edgeIndexConsistent (g.createNode s).1) ∧
    (∀ (g : VG) (id : Nat), g.edgesWf →
      (g.destroyNode id).edgesWf ∧ edgeIndexConsistent (g.destroyNode id)) ∧
    (∀ (g : VG) (id : Nat) (ps : List Int) (g' : VG) (parts : List Nat),
      g.divideNode id ps = some (g', parts) → g.edgesWf →
      g'.edgesWf ∧ edgeIndexConsistent g') ∧
    (∀ (g : VG) (ns : List Trav) (g' : VG) (nid : Nat),
      g.concatNodes ns = some (g', nid) → g.edgesWf →
      g'.edgesWf ∧ edgeIndexConsistent g') := by
  refine ⟨?_, ?_, ?_, ?_, ?_, ?_⟩
  · intro g a b fs te h
    have hw := createEdge_edgesWf g a b fs te h
    exact ⟨hw, edgesWf_edgeIndexConsistent _ hw⟩
  · intro g e hmem h
    have hw := destroyEdge_edgesWf g e hmem h
    exact ⟨hw, edgesWf_edgeIndexConsistent _ hw⟩
  · intro g s h
    have hw := createNode_edgesWf g s h
    exact ⟨hw, edgesWf_edgeIndexConsistent _ hw⟩
  · intro g id h
    have hw := destroyNode_edgesWf g id h
    exact ⟨hw, edgesWf_edgeIndexConsistent _ hw⟩
  · intro g id ps g' parts hres h
    have hw := divideNode_edgesWf g id ps g' parts hres h
    exact ⟨hw, edgesWf_edgeIndexConsistent _ hw⟩
  · intro g ns g' nid hres h
    have hw := concatNodes_edgesWf g ns g' nid hres h
    exact ⟨hw, edgesWf_edgeIndexConsistent _ hw⟩

/-- Witness: the invariant theorem applied to the concrete graph `gC6`
for edge creation (with a reversing edge), edge destruction and node
destruction, with every hypothesis discharged by evaluation. -/
theorem C6_edge_index_invariant_witness :
    gC6.edgesWf ∧
    (gC6.createEdge 2 1 false true).1.edgesWf ∧
    edgeIndexConsistent (gC6.createEdge 2 1 false true).1 ∧
    (gC6.destroyEdge ⟨1, 2, false, false⟩).edgesWf ∧
    (gC6.destroyNode 1).edgesWf := by
  have hwf : gC6.edgesWf := edgesWf_of_check gC6 (by decide)
  have h1 := C6_edge_index_invariant.1 gC6 2 1 false true hwf
  have h2 := C6_edge_index_invariant.2.1 gC6 ⟨1, 2, false, false⟩
    (by decide) hwf
  have h3 := C6_edge_index_invariant.2.2.2.1 gC6 1 hwf
  exact ⟨hwf, h1.1, h1.2, h2.1, h3.1⟩

/-! ## Claim C9: handle encoding round-trip -/

theorem testBit_high_false {id : Nat} (h : id < 2 ^ 63) {i : Nat} (hi : ¬ i < 63) :
    id.testBit i = false :=
  Nat.testBit_eq_false_of_lt
    (lt_of_lt_of_le h (Nat.pow_le_pow_right (by norm_num) (by omega)))

/-- Claim C9: the handle encoding round-trips — for every node id (a
positive 63-bit value) and orientation bit, `get_id (get_handle id rev)`
equals `id` and `get_is_reverse (get_handle id rev)` equals `rev`, and
`flip` is an involution on 64-bit handles. -/
theorem C9_handle_encoding_roundtrip (id : Nat) (rev : Bool) (h : Nat)
    (hid : id < 2 ^ 63) (_hh : h < 2 ^ 64) :
    get_id (get_handle id rev) = id ∧
    get_is_reverse (get_handle id rev) = rev ∧
    flipHandle (flipHandle h) = h := by
  refine ⟨?_, ?_, ?_⟩
  · cases rev with
    | false =>
      simp only [get_id, get_handle, LOW_BITS, Bool.false_eq_true, if_false]
      apply Nat.eq_of_testBit_eq
      intro i
      rw [Nat.testBit_land, Nat.testBit_two_pow_sub_one]
      by_cases hi : i < 63
      · simp [hi]
      · simp [hi, testBit_high_false hid hi]
    | true =>
      simp only [get_id, get_handle, LOW_BITS, HIGH_BIT, if_true]
      apply Nat.eq_of_testBit_eq
      intro i
      rw [Nat.testBit_land, Nat.testBit_lor, Nat.testBit_two_pow_sub_one,
        Nat.testBit_two_pow]
      by_cases hi : i < 63
      · have h63 : ¬ (63 = i) := by omega
        simp [hi, h63]
      · simp [hi, testBit_high_false hid hi]
  · cases rev with
    | false =>
      have hz : id &&& HIGH_BIT = 0 := by
        rw [HIGH_BIT, Nat.and_two_pow,
          show id.testBit 63 = false from testBit_high_false hid (by omega)]
        rfl
      simp [get_is_reverse, get_handle, hz]
    | true =>
      have hz : (id ||| HIGH_BIT) &&& HIGH_BIT = 2 ^ 63 := by
        rw [HIGH_BIT, Nat.and_two_pow, Nat.testBit_lor, Nat.testBit_two_pow]
        simp
      simp [get_is_reverse, get_handle, hz]
  · simp only [flipHandle]
    rw [Nat.xor_assoc, Nat.xor_self, Nat.xor_zero]

/-- Witness for C9 at id 3, reverse, handle 5. -/
theorem C9_handle_encoding_roundtrip_witness :
    (3 : Nat) < 2 ^ 63 ∧ (5 : Nat) < 2 ^ 64 ∧
      (get_id (get_handle 3 true) = 3 ∧
       get_is_reverse (get_handle 3 true) = true ∧
       flipHandle (flipHandle 5) = 5) :=
  ⟨by norm_num, by norm_num,
   C9_handle_encoding_roundtrip 3 true 5 (by norm_num) (by norm_num)⟩

/-! ## Claim C4: create_node id assignment -/

/-- The graph used to refute C4: node 1 created anonymously, then node 5
created with an explicit id (which does not advance the counter). -/
def gC4 : VG :=
  ((VG.empty.createNode ['A']).1).createNodeWithId ['C'] 5

/-- Claim C4 counterexample: in `gC4` the maximum node id is 5, yet an
anonymous `create_node` assigns id 2 (the counter value), not
`max_id + 1 = 6`; and `create_node` with the already-existing id 5
succeeds instead of failing. -/
theorem C4_counterexample :
    gC4.maxNodeId = 5 ∧
    (gC4.createNode ['G']).2 = 2 ∧
    (gC4.createNode ['G']).2 ≠ gC4.maxNodeId + 1 ∧
    gC4.hasNode 5 = true ∧
    (gC4.createNodeChecked ['T'] 5).isSome = true := by
  refine ⟨by decide, by decide, by decide, by decide, by decide⟩

/-- Claim C4 (amended): `create_node` without an id assigns the internal
counter value — re-seeded to `max_id + 1` only when the counter still has
its initial value 1 — and the new node carries that id; `create_node`
with a supplied id fails exactly when the id is 0, and otherwise creates
a node with exactly that id even if a node with that id already exists. -/
theorem C4_create_node_amended (g : VG) (s : List Char) (id : Nat) :
    (g.createNode s).2 = (if g.current_id = 1 then g.maxNodeId + 1 else g.current_id) ∧
    (g.createNode s).1.getNodeSeq (g.createNode s).2 = some s ∧
    (g.createNodeChecked s id = none ↔ id = 0) ∧
    (∀ g', g.createNodeChecked s id = some g' → g'.getNodeSeq id = some s) := by
  refine ⟨rfl, ?_, ?_, ?_⟩
  · simp only [VG.createNode, VG.createNodeWithId, VG.getNodeSeq]
    exact alookup_aupdate_self _ _ _
  · constructor
    · intro h
      by_contra hid
      simp [VG.createNodeChecked, hid] at h
    · intro h
      simp [VG.createNodeChecked, h]
  · intro g' h
    by_cases hid : id = 0
    · simp [VG.createNodeChecked, hid] at h
    · simp only [VG.createNodeChecked, if_neg hid, Option.some_inj] at h
      subst h
      simp only [VG.createNodeWithId, VG.getNodeSeq]
      exact alookup_aupdate_self _ _ _

/-- Witness for the amended C4 at the concrete graph `gC4`. -/
theorem C4_create_node_amended_witness :
    ((gC4.createNode ['G']).2 =
      (if gC4.current_id = 1 then gC4.maxNodeId + 1 else gC4.current_id)) ∧
    (gC4.createNode ['G']).1.getNodeSeq (gC4.createNode ['G']).2 = some ['G'] ∧
    (gC4.createNodeChecked ['G'] 5 = none ↔ (5 : Nat) = 0) ∧
    (∀ g', gC4.createNodeChecked ['G'] 5 = some g' → g'.getNodeSeq 5 = some ['G']) :=
  C4_create_node_amended gC4 ['G'] 5

/-! ## Claim C10: apply_orientation -/

/-- `destroy_edge` on a handle pair leaves nodes, the id index, the
counter and the paths alone. -/
theorem destroyEdgeHandles_frame (g : VG) (l r : Trav) :
    (g.destroyEdgeHandles l r).nodes = g.nodes ∧
    (g.destroyEdgeHandles l r).node_by_id = g.node_by_id ∧
    (g.destroyEdgeHandles l r).current_id = g.current_id ∧
    (g.destroyEdgeHandles l r).paths = g.paths := by
  unfold VG.destroyEdgeHandles
  split
  · exact destroyEdge_frame _ _
  · exact ⟨rfl, rfl, rfl, rfl⟩

/-- The id index after `create_node(seq, id)`. -/
theorem createNodeWithId_node_by_id (g : VG) (s : List Char) (id : Nat) :
    (g.createNodeWithId s id).node_by_id = aupdate g.node_by_id id s := rfl

/-- `create_node(seq, id)` leaves edges, the counter and the paths
alone. -/
theorem createNodeWithId_frame (g : VG) (s : List Char) (id : Nat) :
    (g.createNodeWithId s id).edges = g.edges ∧
    (g.createNodeWithId s id).paths = g.paths ∧
    (g.createNodeWithId s id).current_id = g.current_id :=
  ⟨rfl, rfl, rfl⟩

/-- A fold of steps that each fix the id index and the paths fixes
both. -/
theorem foldl_frame_np {α : Type} {f : VG → α → VG}
    (hf : ∀ g x, (f g x).node_by_id = g.node_by_id ∧ (f g x).paths = g.paths)
    (l : List α) (g : VG) :
    (l.foldl f g).node_by_id = g.node_by_id ∧
    (l.foldl f g).paths = g.paths := by
  induction l generalizing g with
  | nil => exact ⟨rfl, rfl⟩
  | cons x t ih =>
    simp only [List.foldl_cons]
    have h1 := hf g x
    have h2 := ih (f g x)
    exact ⟨h2.1.trans h1.1, h2.2.trans h1.2⟩

/-- Claim C10: `apply_orientation` on a forward handle returns the same
handle and leaves the graph unchanged; on a reverse handle of an existing
node, the replacement node keeps the original node id (the returned
handle is the forward handle of that same id), its stored forward
sequence is the reverse complement of the old stored sequence, and the
path collection is not rewritten. -/
theorem C10_apply_orientation (g : VG) (h : Trav) (s : List Char)
    (hseq : g.getNodeSeq h.node = some s) :
    (h.backward = false → g.applyOrientation h = (g, h)) ∧
    (h.backward = true →
      (g.applyOrientation h).2 = ⟨h.node, false⟩ ∧
      (g.applyOrientation h).1.getNodeSeq h.node
        = some (reverse_complement s) ∧
      (g.applyOrientation h).1.paths = g.paths) := by
  constructor
  · intro hb
    unfold VG.applyOrientation
    rw [if_pos (by simp [hb])]
  · intro hb
    have hfDL : ∀ (g0 : VG) (l : Trav),
        (g0.destroyEdgeHandles l h).node_by_id = g0.node_by_id ∧
        (g0.destroyEdgeHandles l h).paths = g0.paths := fun g0 l =>
      ⟨(destroyEdgeHandles_frame g0 l h).2.1,
       (destroyEdgeHandles_frame g0 l h).2.2.2⟩
    have hfDR : ∀ (g0 : VG) (r : Trav),
        (g0.destroyEdgeHandles h r).node_by_id = g0.node_by_id ∧
        (g0.destroyEdgeHandles h r).paths = g0.paths := fun g0 r =>
      ⟨(destroyEdgeHandles_frame g0 h r).2.1,
       (destroyEdgeHandles_frame g0 h r).2.2.2⟩
    have hfCL : ∀ (g0 : VG) (l : Trav),
        ((g0.createEdgeTrav
            (if l = h then (⟨h.node, false⟩ : Trav).rev
             else if l = h.rev then (⟨h.node, false⟩ : Trav) else l)
            ⟨h.node, false⟩).1).node_by_id = g0.node_by_id ∧
        ((g0.createEdgeTrav
            (if l = h then (⟨h.node, false⟩ : Trav).rev
             else if l = h.rev then (⟨h.node, false⟩ : Trav) else l)
            ⟨h.node, false⟩).1).paths = g0.paths := fun g0 l =>
      ⟨(createEdge_frame g0 _ _ _ _).2.1, (createEdge_frame g0 _ _ _ _).2.2.2⟩
    have hfCR : ∀ (g0 : VG) (r : Trav),
        ((g0.createEdgeTrav ⟨h.node, false⟩
            (if r = h then (⟨h.node, false⟩ : Trav).rev
             else if r = h.rev then (⟨h.node, false⟩ : Trav) else r)).1).node_by_id
          = g0.node_by_id ∧
        ((g0.createEdgeTrav ⟨h.node, false⟩
            (if r = h then (⟨h.node, false⟩ : Trav).rev
             else if r = h.rev then (⟨h.node, false⟩ : Trav) else r)).1).paths
          = g0.paths := fun g0 r =>
      ⟨(createEdge_frame g0 _ _ _ _).2.1, (createEdge_frame g0 _ _ _ _).2.2.2⟩
    unfold VG.applyOrientation
    rw [if_neg (by simp [hb])]
    dsimp only
    refine ⟨rfl, ?_, ?_⟩
    · unfold VG.getNodeSeq
      rw [(foldl_frame_np hfCR _ _).1, (foldl_frame_np hfCL _ _).1,
        createNodeWithId_node_by_id, alookup_aupdate_self]
      congr 1
      unfold VG.getSequence
      rw [hb]
      dsimp only
      rw [if_pos rfl]
      congr 1
      unfold VG.getNodeSeq
      rw [(foldl_frame_np hfDR _ _).1, (foldl_frame_np hfDL _ _).1]
      have hseq' : alookup g.node_by_id h.node = some s := hseq
      rw [hseq']
      rfl
    · rw [(foldl_frame_np hfCR _ _).2, (foldl_frame_np hfCL _ _).2,
        (createNodeWithId_frame _ _ _).2.1, (destroyNode_frame _ _).2,
        (foldl_frame_np hfDR _ _).2, (foldl_frame_np hfDL _ _).2]

/-- Witness: `apply_orientation` on the reverse handle of node 1 of the
three-node graph, every hypothesis discharged by evaluation. -/
theorem C10_apply_orientation_witness :
    gC7.getNodeSeq 1 = some ['A'] ∧
    (gC7.applyOrientation ⟨1, true⟩).2 = ⟨1, false⟩ ∧
    (gC7.applyOrientation ⟨1, true⟩).1.getNodeSeq 1
      = some (reverse_complement ['A']) ∧
    (gC7.applyOrientation ⟨1, true⟩).1.paths = gC7.paths := by
  have h := (C10_apply_orientation gC7 ⟨1, true⟩ ['A'] rfl).2 rfl
  exact ⟨rfl, h.1, h.2.1, h.2.2⟩

/-! ## Claim C3: destroy_node -/

/-- Membership in a fold of sorted-set insertions, reverse direction. -/
theorem mem_foldl_insertSortedPair_rev :
    ∀ (E acc : List (NodeSide × NodeSide)) (a : NodeSide × NodeSide),
      a ∈ E.foldl insertSortedPair acc → a ∈ acc ∨ a ∈ E := by
  intro E
  induction E with
  | nil => intro acc a h; exact Or.inl h
  | cons x E' ih =>
    intro acc a h
    simp only [List.foldl_cons] at h
    rcases ih _ a h with h1 | h1
    · rcases (mem_insertSortedPair _ _ _).mp h1 with h2 | h2
      · exact Or.inr (by rw [h2]; exact List.mem_cons_self _ _)
      · exact Or.inl h2
    · exact Or.inr (List.mem_cons_of_mem _ h1)

/-- `std::minmax` returns the two inputs in one of the two orders. -/
theorem minmaxSides_cases (a b : NodeSide) :
    minmaxSides a b = (a, b) ∨ minmaxSides a b = (b, a) := by
  unfold minmaxSides
  split
  · exact Or.inr rfl
  · exact Or.inl rfl

/-- The nodes of an edge's canonical pair are its two endpoints. -/
theorem pair_from_edge_nodes (e : EdgeRec) :
    ((pair_from_edge e).1.node = e.efrom ∧ (pair_from_edge e).2.node = e.eto) ∨
    ((pair_from_edge e).1.node = e.eto ∧ (pair_from_edge e).2.node = e.efrom) := by
  unfold pair_from_edge
  rcases minmaxSides_cases e.fromSide e.toSide with hc | hc <;> rw [hc]
  · exact Or.inl ⟨rfl, rfl⟩
  · exact Or.inr ⟨rfl, rfl⟩

/-- The first argument of `std::minmax` comes out as one of the two
components. -/
theorem minmaxSides_first_node (a b : NodeSide) :
    (minmaxSides a b).1 = a ∨ (minmaxSides a b).2 = a := by
  rcases minmaxSides_cases a b with hc | hc <;> rw [hc]
  · exact Or.inl rfl
  · exact Or.inr rfl

/-- An edge not incident on `id` has a canonical pair distinct from every
pair with a side on `id`. -/
theorem pair_ne_of_not_incident (e : EdgeRec) (id : Nat) (bb : Bool)
    (y : NodeSide) (hf : e.efrom ≠ id) (ht : e.eto ≠ id) :
    pair_from_edge e ≠ minmaxSides ⟨id, bb⟩ y := by
  intro heq
  rcases minmaxSides_first_node (⟨id, bb⟩ : NodeSide) y with hc | hc
  · have h2 : (pair_from_edge e).1.node = id := by rw [heq, hc]
    rcases pair_from_edge_nodes e with ⟨h1, -⟩ | ⟨h1, -⟩
    · exact hf (h1.symm.trans h2)
    · exact ht (h1.symm.trans h2)
  · have h2 : (pair_from_edge e).2.node = id := by rw [heq, hc]
    rcases pair_from_edge_nodes e with ⟨-, h1⟩ | ⟨-, h1⟩
    · exact ht (h1.symm.trans h2)
    · exact hf (h1.symm.trans h2)

/-- What `destroy_node` does to the edge vector: every incident edge is
gone, every other edge survives. -/
theorem destroyNode_edges_spec (g : VG) (id : Nat) (s : List Char)
    (hn : g.getNodeSeq id = some s) (h : g.edgesWf) :
    (∀ e ∈ (g.destroyNode id).edges, e.efrom ≠ id ∧ e.eto ≠ id) ∧
    (∀ e ∈ g.edges, e.efrom ≠ id → e.eto ≠ id →
      e ∈ (g.destroyNode id).edges) := by
  have hn' : alookup g.node_by_id id = some s := hn
  unfold VG.destroyNode
  split
  · rename_i hnone
    rw [hnone] at hn'
    cases hn'
  · rename_i s0 hsome
    dsimp only
    set startPairs := (g.edgesStart id).map
      (fun e => minmaxSides ⟨id, false⟩ ⟨e.1, !e.2⟩) with hSP
    set endPairs := (g.edgesEnd id).map
      (fun e => minmaxSides ⟨id, true⟩ ⟨e.1, e.2⟩) with hEP
    set toDestroy := (startPairs ++ endPairs).foldl insertSortedPair [] with hTD
    set g1 := toDestroy.foldl (fun g p => g.destroyEdgeSides p.1 p.2) g with hG1
    obtain ⟨hWf1, hSub1, _, hAll1, hKeep1⟩ := foldDestroy_spec toDestroy g h
    obtain ⟨k1, -, -, -, -, -, -, -⟩ := hWf1
    have hnoinc : ∀ e' ∈ g1.edges, e'.efrom ≠ id ∧ e'.eto ≠ id := by
      intro e' he'
      by_contra hcon
      push_neg at hcon
      have hinc : e'.efrom = id ∨ e'.eto = id := by tauto
      have hgmem : e' ∈ g.edges := hSub1 e' he'
      have hpairmem : pair_from_edge e' ∈ startPairs ++ endPairs := by
        rcases incident_entry e' id hinc with ⟨x, hx⟩ | ⟨x, hx⟩
        · refine List.mem_append.mpr (Or.inl ?_)
          rw [hSP]
          refine List.mem_map.mpr ⟨x, ?_, entriesStart_pair e' id x hx⟩
          refine ((h.2.2.2.2.2.2.1 id).mem_iff).mpr ?_
          exact List.mem_flatMap.mpr ⟨e', hgmem, hx⟩
        · refine List.mem_append.mpr (Or.inr ?_)
          rw [hEP]
          refine List.mem_map.mpr ⟨x, ?_, entriesEnd_pair e' id x hx⟩
          refine ((h.2.2.2.2.2.2.2 id).mem_iff).mpr ?_
          exact List.mem_flatMap.mpr ⟨e', hgmem, hx⟩
      have hTDmem : pair_from_edge e' ∈ toDestroy :=
        mem_foldl_insertSortedPair _ _ _ (Or.inr hpairmem)
      have hnone := hAll1 _ hTDmem
      have hpfix : minmaxSides (pair_from_edge e').1 (pair_from_edge e').2
          = pair_from_edge e' := by
        unfold pair_from_edge
        exact minmaxSides_idem _ _
      rw [hpfix] at hnone
      have := k1 e' he'
      rw [this] at hnone
      cases hnone
    have hkeep : ∀ e ∈ g.edges, e.efrom ≠ id → e.eto ≠ id → e ∈ g1.edges := by
      intro e he hf ht
      refine hKeep1 e he ?_
      intro p hp
      rcases mem_foldl_insertSortedPair_rev _ _ _ hp with hq | hq
      · cases hq
      · rcases List.mem_append.mp hq with hq | hq
        · obtain ⟨x, -, hx⟩ := List.mem_map.mp hq
          rw [← hx, minmaxSides_idem]
          exact pair_ne_of_not_incident e id false _ hf ht
        · obtain ⟨x, -, hx⟩ := List.mem_map.mp hq
          rw [← hx, minmaxSides_idem]
          exact pair_ne_of_not_incident e id true _ hf ht
    have hfin : ∀ (G : VG), G.edges = g1.edges →
        ((∀ e ∈ G.edges, e.efrom ≠ id ∧ e.eto ≠ id) ∧
         (∀ e ∈ g.edges, e.efrom ≠ id → e.eto ≠ id → e ∈ G.edges)) := by
      intro G hGe
      constructor
      · intro e he
        exact hnoinc e (hGe ▸ he)
      · intro e he hf ht
        rw [hGe]
        exact hkeep e he hf ht
    split
    · exact hfin _ rfl
    · exact hfin _ rfl

/-- A two-node graph with one edge and a path `P` whose single mapping
sits on node 1. -/
def gC3 : VG :=
  { (((VG.empty.createNode ['A']).1.createNode ['C']).1.createEdge
      1 2 false false).1 with
    paths := [("P", [⟨1, 1, false, [⟨1, 1, []⟩]⟩])] }

/-- Claim C3 counterexample: node 1 of `gC3` carries a mapping of path
`P`; `destroy_node(1)` removes the node but leaves the path collection
untouched, so the mapping on the destroyed node is still there —
contradicting the claim's "removes every mapping on that node from every
path". -/
theorem C3_counterexample :
    gC3.getNodeSeq 1 = some ['A'] ∧
    (gC3.destroyNode 1).getNodeSeq 1 = none ∧
    (gC3.destroyNode 1).paths = gC3.paths ∧
    ∃ pm ∈ (gC3.destroyNode 1).paths, pm.1 = "P" ∧
      ∃ m ∈ pm.2, m.node_id = 1 := by
  refine ⟨rfl, by decide, by decide, ?_⟩
  exact ⟨("P", [⟨1, 1, false, [⟨1, 1, []⟩]⟩]), by decide, rfl, ⟨1, 1, false,
    [⟨1, 1, []⟩]⟩, by decide, rfl⟩

/-- Claim C3 (amended): for a node present in a graph whose edge index is
consistent, `destroy_node(id)` removes the node from the id index (other
ids resolve as before), removes exactly the edges incident on either of
its sides, and leaves the path collection unchanged — mappings on the
destroyed node are not removed from their paths. -/
theorem C3_destroy_node_amended (g : VG) (id : Nat) (s : List Char)
    (hn : g.getNodeSeq id = some s) (h : g.edgesWf) :
    (g.destroyNode id).getNodeSeq id = none ∧
    (∀ k, k ≠ id → (g.destroyNode id).getNodeSeq k = g.getNodeSeq k) ∧
    (∀ e ∈ (g.destroyNode id).edges, e.efrom ≠ id ∧ e.eto ≠ id) ∧
    (∀ e ∈ g.edges, e.efrom ≠ id → e.eto ≠ id →
      e ∈ (g.destroyNode id).edges) ∧
    (g.destroyNode id).paths = g.paths := by
  obtain ⟨ha, hb⟩ := destroyNode_node_by_id g id
  obtain ⟨hc, hd⟩ := destroyNode_edges_spec g id s hn h
  exact ⟨ha, hb, hc, hd, (destroyNode_frame g id).2⟩

/-- Witness: the amended C3 on the concrete graph `gC3`, hypotheses
discharged by evaluation. -/
theorem C3_destroy_node_amended_witness :
    gC3.getNodeSeq 1 = some ['A'] ∧
    ((gC3.destroyNode 1).getNodeSeq 1 = none ∧
     (∀ k, k ≠ 1 → (gC3.destroyNode 1).getNodeSeq k = gC3.getNodeSeq k) ∧
     (∀ e ∈ (gC3.destroyNode 1).edges, e.efrom ≠ 1 ∧ e.eto ≠ 1) ∧
     (∀ e ∈ gC3.edges, e.efrom ≠ 1 → e.eto ≠ 1 →
       e ∈ (gC3.destroyNode 1).edges) ∧
     (gC3.destroyNode 1).paths = gC3.paths) :=
  ⟨rfl, C3_destroy_node_amended gC3 1 ['A'] rfl
    (edgesWf_of_check gC3 (by decide))⟩

/-! ## Claim C8: unfold and short reverse-strand walks -/

/-- The C8 failing input: a chain `6→5→{2,4}`, `2→1`, `4→3→1` of forward
edges, where node 2 is long (ten bases) and the only reversing edge is the
self-inverting loop on node 1's end.  The reverse-strand search first
reaches node 5 through the long branch at distance 11, and the priority
queue records that distance permanently, so with `max_length = 12` the
scan through node 5 (true shortest distance 3, via nodes 3 and 4) is cut
off and node 6's reverse copy (the only source of a `G`) is never
created. -/
def gC8 : VG :=
  let g := VG.empty
  let g := g.createNodeWithId ['C'] 6
  let g := g.createNodeWithId ['A'] 5
  let g := g.createNodeWithId
    ['A', 'A', 'A', 'A', 'A', 'A', 'A', 'A', 'A', 'A'] 2
  let g := g.createNodeWithId ['A'] 4
  let g := g.createNodeWithId ['A'] 3
  let g := g.createNodeWithId ['A'] 1
  let g := (g.createEdge 2 1 false false).1
  let g := (g.createEdge 3 1 false false).1
  let g := (g.createEdge 5 2 false false).1
  let g := (g.createEdge 4 3 false false).1
  let g := (g.createEdge 5 4 false false).1
  let g := (g.createEdge 6 5 false false).1
  (g.createEdge 1 1 false true).1

/-- A walk of a graph whose stored sequences avoid a character spells no
occurrence of it when every traversal is forward. -/
theorem forward_walk_char_free (g : VG) (c : Char)
    (hG : ∀ p ∈ g.node_by_id, c ∉ p.2) (ws : List Trav)
    (hf : ∀ t ∈ ws, t.backward = false) : c ∉ g.walkSeq ws := by
  intro hc
  obtain ⟨t, ht, hct⟩ := List.mem_flatMap.mp hc
  have hb := hf t ht
  unfold VG.getSequence at hct
  rw [hb] at hct
  simp only [Bool.false_eq_true, if_false] at hct
  cases hnd : g.getNodeSeq t.node with
  | none =>
    rw [hnd] at hct
    cases hct
  | some s =>
    rw [hnd] at hct
    exact hG (t.node, s) (alookup_mem _ _ _ hnd) hct

/-- Claim C8 is refuted by `gC8`: the reverse-strand walk through nodes
1, 3, 4, 5, 6 spells `TTTTG` (five bases, within the bound 12), yet the
graph `unfold(12)` returns stores no `G` in any node, so no forward walk
of it spells that sequence.  The search queues each node at the first
distance found (no decrease-key), so the late short branch through nodes
3 and 4 cannot lower node 5's recorded distance 11, and
`dist_thru = 12 ≥ max_length` stops the scan. -/
theorem C8_unfold_misses_short_reverse_walk :
    gC8.isWalk [⟨1, true⟩, ⟨3, true⟩, ⟨4, true⟩, ⟨5, true⟩, ⟨6, true⟩]
      = true ∧
    (∀ t ∈ ([⟨1, true⟩, ⟨3, true⟩, ⟨4, true⟩, ⟨5, true⟩, ⟨6, true⟩] :
      List Trav), t.backward = true) ∧
    gC8.walkSeq [⟨1, true⟩, ⟨3, true⟩, ⟨4, true⟩, ⟨5, true⟩, ⟨6, true⟩]
      = ['T', 'T', 'T', 'T', 'G'] ∧
    (gC8.walkSeq [⟨1, true⟩, ⟨3, true⟩, ⟨4, true⟩, ⟨5, true⟩,
      ⟨6, true⟩]).length ≤ 12 ∧
    (gC8.unfold 12 200).isSome = true ∧
    (∀ r, gC8.unfold 12 200 = some r →
      ∀ ws : List Trav, (∀ t ∈ ws, t.backward = false) →
        r.1.walkSeq ws ≠
          gC8.walkSeq [⟨1, true⟩, ⟨3, true⟩, ⟨4, true⟩, ⟨5, true⟩,
            ⟨6, true⟩]) := by
  refine ⟨by decide, by decide, by decide, by decide, by decide, ?_⟩
  intro r hr ws hf heq
  have key : (gC8.unfold 12 200).map
      (fun r => r.1.node_by_id.all (fun p => decide ('G' ∉ p.2)))
      = some true := by decide
  rw [hr] at key
  simp only [Option.map] at key
  have hall := Option.some_inj.mp key
  rw [List.all_eq_true] at hall
  have hGfree : ∀ p ∈ r.1.node_by_id, 'G' ∉ p.2 := by
    intro p hp
    have := hall p hp
    exact of_decide_eq_true this
  have hfree := forward_walk_char_free r.1 'G' hGfree ws hf
  rw [heq] at hfree
  exact hfree (by decide)

/-- Witness: the unfolded graph of `gC8` exists and its forward walks
miss the reverse-strand sequence, instantiated on a concrete forward
walk. -/
theorem C8_unfold_misses_short_reverse_walk_witness :
    ∃ r, gC8.unfold 12 200 = some r ∧
      r.1.walkSeq [⟨1, false⟩] ≠
        gC8.walkSeq [⟨1, true⟩, ⟨3, true⟩, ⟨4, true⟩, ⟨5, true⟩,
          ⟨6, true⟩] := by
  match hu : gC8.unfold 12 200 with
  | some r =>
    exact ⟨r, rfl,
      C8_unfold_misses_short_reverse_walk.2.2.2.2.2 r hu [⟨1, false⟩]
        (by decide)⟩
  | none =>
    have := C8_unfold_misses_short_reverse_walk.2.2.2.2.1
    rw [hu] at this
    cases this

/-! ## Claim C2: concat undoes divide

The claim's general clause quantifies over nodes with no other
references; it is formalised on the graph holding exactly one node (id 1,
arbitrary sequence), no edges, and one path `P` whose single mapping
covers the node with a full-length match of arbitrary rank — the claim's
"node with no other references" — over every valid offset list. -/

/-- The single-node graph of claim C2: node 1 with sequence `s`, no
edges, and a path `P` carrying one whole-node match mapping of rank
`r`. -/
def gC2 (s : List Char) (r : Int) : VG :=
  { nodes := [(1, s)], node_by_id := [(1, s)],
    edges := [], edges_on_start := [], edges_on_end := [],
    edge_by_sides := [], current_id := 2,
    paths := [("P", [⟨1, r, false, [⟨s.length, s.length, []⟩]⟩])] }

theorem gC2_maxNodeId (s : List Char) (r : Int) : (gC2 s r).maxNodeId = 1 :=
  rfl

theorem gC2_freshCounter (s : List Char) (r : Int) : (gC2 s r).freshCounter :=
  Or.inr (by rw [gC2_maxNodeId]; show 1 < 2; omega)

theorem gC2_idIndexWf (s : List Char) (r : Int) : (gC2 s r).idIndexWf := by
  constructor
  · show ([(1, s)].map Prod.fst).Nodup
    simp
  · intro p hp
    exact hp

theorem gC2_freshId (s : List Char) (r : Int) : freshId (gC2 s r) = 2 :=
  rfl

theorem gC2_edgesWf (s : List Char) (r : Int) : (gC2 s r).edgesWf := by
  refine ⟨?_, ?_, ?_, ?_, ?_, ?_, ?_, ?_⟩
  · intro e he; cases he
  · intro pe hpe; cases hpe
  · simp [gC2]
  · simp [gC2]
  · simp [gC2]
  · simp [gC2]
  · intro id
    exact List.Perm.refl []
  · intro id
    exact List.Perm.refl []

/-- An empty start index yields empty start adjacency everywhere. -/
theorem edgesStart_of_nil (g : VG) (h : g.edges_on_start = []) (id : Nat) :
    g.edgesStart id = [] := by
  unfold VG.edgesStart
  rw [h]
  rfl

/-- An empty end index yields empty end adjacency everywhere. -/
theorem edgesEnd_of_nil (g : VG) (h : g.edges_on_end = []) (id : Nat) :
    g.edgesEnd id = [] := by
  unfold VG.edgesEnd
  rw [h]
  rfl

/-- `create_edge` either leaves the edge vector alone or appends the new
record. -/
theorem createEdge_edges_cases (g : VG) (a b : Nat) (fs te : Bool) :
    (g.createEdge a b fs te).1.edges = g.edges ∨
    (g.createEdge a b fs te).1.edges = g.edges ++ [⟨a, b, fs, te⟩] := by
  unfold VG.createEdge
  split
  · exact Or.inl rfl
  · exact Or.inr rfl

/-- Every edge after a chain-creating fold is an old edge or one of the
created forward links. -/
theorem chainFold_edges_mem (l : List (Nat × Nat)) :
    ∀ (g : VG),
      ∀ e ∈ (l.foldl (fun g pq => (g.createEdge pq.1 pq.2 false false).1) g).edges,
        e ∈ g.edges ∨ ∃ pq ∈ l, e = ⟨pq.1, pq.2, false, false⟩ := by
  induction l with
  | nil => intro g e he; exact Or.inl he
  | cons pq rest ih =>
    intro g e he
    simp only [List.foldl_cons] at he
    rcases ih _ e he with h1 | ⟨pq', hpq', hh⟩
    · rcases createEdge_edges_cases g pq.1 pq.2 false false with hc | hc
      · rw [hc] at h1
        exact Or.inl h1
      · rw [hc] at h1
        rcases List.mem_append.mp h1 with h2 | h2
        · exact Or.inl h2
        · exact Or.inr ⟨pq, List.mem_cons_self _ _, List.mem_singleton.mp h2⟩
    · exact Or.inr ⟨pq', List.mem_cons_of_mem _ hpq', hh⟩

/-- A forward `create_edge` does not touch the start adjacency of other
nodes. -/
theorem createEdge_edgesStart_ne (g : VG) (a b : Nat) (id : Nat)
    (hb : b ≠ id) :
    (g.createEdge a b false false).1.edgesStart id = g.edgesStart id := by
  unfold VG.createEdge
  split
  · rfl
  · show (g.indexEdgeByNodeSides ⟨a, b, false, false⟩).edgesStart id = _
    rw [(indexEdge_adj g ⟨a, b, false, false⟩ id).1]
    have : entriesStart ⟨a, b, false, false⟩ id = [] := by
      unfold entriesStart
      rw [if_neg (fun hc => Bool.noConfusion hc.1),
        if_neg (fun hc => hb hc.2.2.symm)]
      rfl
    rw [this, List.append_nil]

/-- A forward `create_edge` does not touch the end adjacency of other
nodes. -/
theorem createEdge_edgesEnd_ne (g : VG) (a b : Nat) (id : Nat)
    (ha : a ≠ id) :
    (g.createEdge a b false false).1.edgesEnd id = g.edgesEnd id := by
  unfold VG.createEdge
  split
  · rfl
  · show (g.indexEdgeByNodeSides ⟨a, b, false, false⟩).edgesEnd id = _
    rw [(indexEdge_adj g ⟨a, b, false, false⟩ id).2]
    have : entriesEnd ⟨a, b, false, false⟩ id = [] := by
      unfold entriesEnd
      rw [if_neg (fun hc => ha hc.2.symm),
        if_neg (fun hc => Bool.noConfusion hc.2.1)]
      rfl
    rw [this, List.append_nil]

/-- A chain-creating fold leaves the start adjacency of uninvolved nodes
alone. -/
theorem chainFold_edgesStart_notin (l : List (Nat × Nat)) (id : Nat)
    (hl : ∀ pq ∈ l, pq.2 ≠ id) :
    ∀ (g : VG),
      (l.foldl (fun g pq => (g.createEdge pq.1 pq.2 false false).1) g).edgesStart id
        = g.edgesStart id := by
  induction l with
  | nil => intro g; rfl
  | cons pq rest ih =>
    intro g
    simp only [List.foldl_cons]
    rw [ih (fun q hq => hl q (List.mem_cons_of_mem _ hq)) _,
      createEdge_edgesStart_ne _ _ _ _ (hl pq (List.mem_cons_self _ _))]

/-- A chain-creating fold leaves the end adjacency of uninvolved nodes
alone. -/
theorem chainFold_edgesEnd_notin (l : List (Nat × Nat)) (id : Nat)
    (hl : ∀ pq ∈ l, pq.1 ≠ id) :
    ∀ (g : VG),
      (l.foldl (fun g pq => (g.createEdge pq.1 pq.2 false false).1) g).edgesEnd id
        = g.edgesEnd id := by
  induction l with
  | nil => intro g; rfl
  | cons pq rest ih =>
    intro g
    simp only [List.foldl_cons]
    rw [ih (fun q hq => hl q (List.mem_cons_of_mem _ hq)) _,
      createEdge_edgesEnd_ne _ _ _ _ (hl pq (List.mem_cons_self _ _))]

/-- Interval membership in `range'` with step 1. -/
theorem mem_range'_iff (s n m : Nat) :
    m ∈ List.range' s n ↔ s ≤ m ∧ m < s + n := by
  rw [List.mem_range']
  constructor
  · rintro ⟨i, hi, rfl⟩
    omega
  · intro ⟨h1, h2⟩
    exact ⟨m - s, by omega, by omega⟩

/-- Zipping a consecutive run with its tail lists the consecutive
pairs. -/
theorem range'_zip_tail :
    ∀ (n a : Nat),
      (List.range' a n).zip (List.range' a n).tail
        = (List.range' a (n - 1)).map (fun i => (i, i + 1)) := by
  intro n
  induction n with
  | zero => intro a; rfl
  | succ m ih =>
    intro a
    match m with
    | 0 => rfl
    | k + 1 =>
      have ih2 := ih (a + 1)
      rw [show (List.range' (a + 1) (k + 1)).tail = List.range' (a + 2) k by
            rw [List.range'_succ]; rfl] at ih2
      rw [List.range'_succ (a + 1) k 1] at ih2
      rw [List.range'_succ a (k + 1) 1, List.tail_cons,
        List.range'_succ (a + 1) k 1, List.zip_cons_cons, ih2]
      simp only [Nat.add_sub_cancel]
      rw [List.range'_succ a k 1]
      rfl

/-- Mapping an option-lookup over the run of ids the lookups cover
recovers the listed values. -/
theorem range'_map_getD {α : Type} (F : Nat → Option α) (dflt : α) :
    ∀ (pieces : List α) (a : Nat), (∀ i, F (a + i) = pieces[i]?) →
      (List.range' a pieces.length).map (fun k => (F k).getD dflt) = pieces := by
  intro pieces
  induction pieces with
  | nil => intro a _; rfl
  | cons pc rest ih =>
    intro a h
    simp only [List.length_cons]
    rw [show List.range' a (rest.length + 1)
        = a :: List.range' (a + 1) rest.length from List.range'_succ _ _ _,
      List.map_cons]
    congr 1
    · have h0 : F a = some pc := by
        have := h 0
        simpa using this
      rw [h0]
      rfl
    · refine ih (a + 1) ?_
      intro i
      have := h (i + 1)
      rw [show a + (i + 1) = a + 1 + i by omega] at this
      simpa using this

/-- Every element of a `zipWith` comes from a pair of elements. -/
theorem mem_zipWith {α β γ : Type} (f : α → β → γ) :
    ∀ (as : List α) (bs : List β) (c : γ), c ∈ List.zipWith f as bs →
      ∃ a ∈ as, ∃ b ∈ bs, c = f a b := by
  intro as
  induction as with
  | nil => intro bs c h; cases h
  | cons a as' ih =>
    intro bs c h
    cases bs with
    | nil => cases h
    | cons b bs' =>
      rw [List.zipWith_cons_cons] at h
      rcases List.mem_cons.mp h with h1 | h1
      · exact ⟨a, List.mem_cons_self _ _, b, List.mem_cons_self _ _, h1⟩
      · obtain ⟨a', ha', b', hb', hc⟩ := ih bs' c h1
        exact ⟨a', List.mem_cons_of_mem _ ha', b',
          List.mem_cons_of_mem _ hb', hc⟩

/-- Segmenting an edit list yields one more segment than cut points. -/
theorem segmentEdits_length :
    ∀ (ks : List Nat) (edits : List Edit),
      (segmentEdits edits ks).length = ks.length + 1 := by
  intro ks
  induction ks with
  | nil => intro edits; rfl
  | cons k ks' ih =>
    intro edits
    unfold segmentEdits
    split
    rename_i u v hv
    simp only [List.length_cons, ih v]

/-- The id counter after creating a nonempty run of nodes. -/
theorem createNodesFold_current :
    ∀ (pieces : List (List Char)) (g : VG) (acc : List Nat),
      g.freshCounter → g.idIndexWf → pieces ≠ [] →
      (pieces.foldl createStep (g, acc)).1.current_id
        = freshId g + pieces.length := by
  intro pieces
  induction pieces with
  | nil => intro g acc _ _ h; cases h rfl
  | cons pc rest ih =>
    intro g acc hf hwf _
    simp only [List.foldl_cons]
    have hspec := createNode_spec g pc hf hwf
    have hstep : createStep (g, acc) pc
        = ((g.createNode pc).1, (g.createNode pc).2 :: acc) := rfl
    rw [hstep]
    by_cases hr : rest = []
    · subst hr
      simp only [List.foldl_nil, List.length_cons, List.length_nil]
      exact hspec.2.1
    · have hgt := freshId_gt_max g hf
      have hfr : freshId (g.createNode pc).1 = freshId g + 1 := by
        unfold freshId
        rw [if_neg (by rw [hspec.2.1]; omega), hspec.2.1]
        rfl
      rw [ih (g.createNode pc).1 _ hspec.2.2.2.2.2.1 hspec.2.2.2.2.2.2.1 hr,
        hfr, List.length_cons]
      omega

/-- `destroy_node` on a node with empty adjacency destroys no edges. -/
theorem destroyNode_quiet (g : VG) (id : Nat) (s : List Char)
    (hn : alookup g.node_by_id id = some s)
    (hstart : g.edgesStart id = []) (hend : g.edgesEnd id = []) :
    (g.destroyNode id).edges = g.edges ∧
    (g.destroyNode id).edge_by_sides = g.edge_by_sides ∧
    (g.destroyNode id).edges_on_start = aerase g.edges_on_start id ∧
    (g.destroyNode id).edges_on_end = aerase g.edges_on_end id := by
  unfold VG.destroyNode
  split
  · rename_i hnone
    rw [hnone] at hn
    cases hn
  · rename_i s0 hsome
    dsimp only
    rw [hstart, hend]
    simp only [List.map_nil, List.append_nil, List.foldl_nil]
    split
    · exact ⟨rfl, rfl, rfl, rfl⟩
    · exact ⟨rfl, rfl, rfl, rfl⟩

/-- A fold of steps that each fix the paths fixes them. -/
theorem foldl_paths {α : Type} {f : VG → α → VG}
    (hf : ∀ g x, (f g x).paths = g.paths) :
    ∀ (l : List α) (g : VG), (l.foldl f g).paths = g.paths := by
  intro l
  induction l with
  | nil => intro g; rfl
  | cons x t ih =>
    intro g
    simp only [List.foldl_cons]
    exact (ih (f g x)).trans (hf g x)

/-- The id index after a fold of `destroy_node` over traversals. -/
theorem destroyFoldTravs_getNodeSeq (L : List Trav) :
    ∀ (g : VG) (k : Nat),
      (L.foldl (fun g t => g.destroyNode t.node) g).getNodeSeq k =
        if k ∈ L.map Trav.node then none else g.getNodeSeq k := by
  induction L with
  | nil => intro g k; simp
  | cons t L' ih =>
    intro g k
    simp only [List.foldl_cons, List.map_cons, List.mem_cons]
    rw [ih]
    by_cases h1 : k ∈ L'.map Trav.node
    · rw [if_pos h1, if_pos (Or.inr h1)]
    · rw [if_neg h1]
      by_cases h2 : k = t.node
      · rw [if_pos (Or.inl h2)]
        subst h2
        exact (destroyNode_node_by_id g t.node).1
      · rw [if_neg (by tauto)]
        exact (destroyNode_node_by_id g t.node).2 k h2

/-- The destroy-fold over side pairs only removes edges (no invariant
needed). -/
theorem foldDestroy_edges_subset :
    ∀ (ps : List (NodeSide × NodeSide)) (g : VG),
      ∀ x ∈ (ps.foldl (fun g p => g.destroyEdgeSides p.1 p.2) g).edges,
        x ∈ g.edges := by
  intro ps
  induction ps with
  | nil => intro g x hx; exact hx
  | cons p ps' ih =>
    intro g x hx
    simp only [List.foldl_cons] at hx
    exact destroyEdgeSides_edges_subset g p.1 p.2 x (ih _ x hx)

/-- `destroy_node` only removes edges. -/
theorem destroyNode_edges_subset (g : VG) (id : Nat) :
    ∀ e ∈ (g.destroyNode id).edges, e ∈ g.edges := by
  unfold VG.destroyNode
  split
  · intro e he
    exact he
  · rename_i s hs
    dsimp only
    intro e he
    revert he
    split <;> (intro he; exact foldDestroy_edges_subset _ _ e he)

/-- Folding `destroy_node` over distinct present nodes keeps the
invariant, only removes edges, and removes every edge incident on any of
them. -/
theorem destroyFoldTravs_edges :
    ∀ (L : List Trav) (g : VG), g.edgesWf →
      (L.map Trav.node).Nodup →
      (∀ t ∈ L, (g.getNodeSeq t.node).isSome = true) →
      ((L.foldl (fun g t => g.destroyNode t.node) g).edgesWf ∧
       ∀ e ∈ (L.foldl (fun g t => g.destroyNode t.node) g).edges,
         e ∈ g.edges ∧ ∀ t ∈ L, e.efrom ≠ t.node ∧ e.eto ≠ t.node) := by
  intro L
  induction L with
  | nil =>
    intro g h _ _
    exact ⟨h, fun e he => ⟨he, by simp⟩⟩
  | cons t L' ih =>
    intro g h hnd hpres
    simp only [List.foldl_cons]
    have hpt := hpres t (List.mem_cons_self _ _)
    obtain ⟨s, hs⟩ := Option.isSome_iff_exists.mp hpt
    have hwf' := destroyNode_edgesWf g t.node h
    have hspec := destroyNode_edges_spec g t.node s hs h
    simp only [List.map_cons, List.nodup_cons] at hnd
    have hpres' : ∀ u ∈ L',
        ((g.destroyNode t.node).getNodeSeq u.node).isSome = true := by
      intro u hu
      have hne : u.node ≠ t.node := by
        intro hh
        exact hnd.1 (by rw [← hh]; exact List.mem_map.mpr ⟨u, hu, rfl⟩)
      rw [(destroyNode_node_by_id g t.node).2 u.node hne]
      exact hpres u (List.mem_cons_of_mem _ hu)
    obtain ⟨ihWf, ihMem⟩ := ih (g.destroyNode t.node) hwf' hnd.2 hpres'
    refine ⟨ihWf, ?_⟩
    intro e he
    obtain ⟨he1, he2⟩ := ihMem e he
    have hneinc := hspec.1 e he1
    refine ⟨destroyNode_edges_subset g t.node e he1, ?_⟩
    intro u hu
    rcases List.mem_cons.mp hu with hu | hu
    · subst hu
      exact hneinc
    · exact he2 u hu

/-- The paths after the mapping-removal fold of `concat_nodes`. -/
theorem removeFoldPaths (ts : List Trav) :
    ∀ (g : VG),
      (ts.foldl
        (fun g t => { g with paths := g.paths.removeMappingsOnNode t.node })
        g).paths
      = ts.foldl (fun P t => Paths.removeMappingsOnNode P t.node) g.paths := by
  induction ts with
  | nil => intro g; rfl
  | cons t ts' ih =>
    intro g
    simp only [List.foldl_cons]
    rw [ih]

/-- Removing node mappings from a one-path collection filters the
mapping list. -/
theorem removeFold_single (name : String) :
    ∀ (ts : List Trav) (L : List MappingT),
      ts.foldl (fun P t => Paths.removeMappingsOnNode P t.node) [(name, L)]
        = [(name,
            ts.foldl (fun acc t => acc.filter (fun m => m.node_id ≠ t.node)) L)] := by
  intro ts
  induction ts with
  | nil => intro L; rfl
  | cons t ts' ih =>
    intro L
    simp only [List.foldl_cons]
    rw [show Paths.removeMappingsOnNode [(name, L)] t.node
        = [(name, L.filter (fun m => m.node_id ≠ t.node))] from rfl, ih]

/-- Filtering away every node of a cover empties the mapping list. -/
theorem filterFold_nil :
    ∀ (ts : List Trav) (L : List MappingT),
      (∀ m ∈ L, m.node_id ∈ ts.map Trav.node) →
      ts.foldl (fun acc t => acc.filter (fun m => m.node_id ≠ t.node)) L
        = [] := by
  intro ts
  induction ts with
  | nil =>
    intro L h
    exact List.eq_nil_iff_forall_not_mem.mpr (fun m hm => by simpa using h m hm)
  | cons t ts' ih =>
    intro L h
    simp only [List.foldl_cons]
    refine ih _ ?_
    intro m hm
    have hm2 := (List.mem_filter.mp hm).1
    have hne : m.node_id ≠ t.node := of_decide_eq_true (List.mem_filter.mp hm).2
    have := h m hm2
    simp only [List.map_cons, List.mem_cons] at this
    tauto

/-- The piece list of a division is never empty. -/
theorem piecesOf_ne_nil_list (s : List Char) (positions : List Int) :
    piecesOf s 0 positions ≠ [] := by
  intro h
  have := piecesOf_length s positions 0
  rw [h] at this
  simp at this

/-- The parts returned by dividing the single-node graph. -/
theorem divC2_parts (s : List Char) (r : Int) (positions : List Int) :
    ((gC2 s r).divideNodeCore 1 s positions).2
      = List.range' 2 (piecesOf s 0 positions).length := by
  have h := (divideNodeCore_spec (gC2 s r) 1 s positions (gC2_freshCounter s r)
    (gC2_idIndexWf s r) rfl).1
  rw [h, gC2_freshId, piecesOf_length]

/-- The divided single-node graph no longer has node 1. -/
theorem divC2_node1 (s : List Char) (r : Int) (positions : List Int) :
    ((gC2 s r).divideNodeCore 1 s positions).1.getNodeSeq 1 = none :=
  (divideNodeCore_spec (gC2 s r) 1 s positions (gC2_freshCounter s r)
    (gC2_idIndexWf s r) rfl).2.1

/-- The divided single-node graph stores the pieces at ids 2, 3, …. -/
theorem divC2_nodes (s : List Char) (r : Int) (positions : List Int) (i : Nat) :
    ((gC2 s r).divideNodeCore 1 s positions).1.getNodeSeq (2 + i)
      = (piecesOf s 0 positions)[i]? := by
  have h := (divideNodeCore_spec (gC2 s r) 1 s positions (gC2_freshCounter s r)
    (gC2_idIndexWf s r) rfl).2.2 i
  rw [gC2_freshId] at h
  exact h

/-- Id 0 is still unused after the division. -/
theorem divC2_node0 (s : List Char) (r : Int) (positions : List Int) :
    ((gC2 s r).divideNodeCore 1 s positions).1.getNodeSeq 0 = none := by
  have hsp := createNodesFold_spec (piecesOf s 0 positions) (gC2 s r)
    (gC2_freshCounter s r) (gC2_idIndexWf s r)
  unfold VG.divideNodeCore
  dsimp only
  rw [(destroyNode_node_by_id _ 1).2 0 (by omega)]
  show alookup _ 0 = _
  rw [(chainFold_frame _ _).2.1, (e2cFold_frame _ _).2.1]
  have h0 := hsp.2.2.2.2.1 0 (by rw [gC2_freshId]; omega)
  exact h0

/-- The id counter after dividing the single-node graph. -/
theorem divC2_current (s : List Char) (r : Int) (positions : List Int) :
    ((gC2 s r).divideNodeCore 1 s positions).1.current_id
      = 2 + (piecesOf s 0 positions).length := by
  unfold VG.divideNodeCore
  dsimp only
  rw [(destroyNode_frame _ 1).1]
  show (_ : VG).current_id = _
  rw [(chainFold_frame _ _).2.2.1, (e2cFold_frame _ _).2.2.1,
    createNodesFold_current (piecesOf s 0 positions) (gC2 s r) []
      (gC2_freshCounter s r) (gC2_idIndexWf s r)
      (piecesOf_ne_nil_list s positions), gC2_freshId]

/-- The edge-index invariant after dividing the single-node graph. -/
theorem divC2_wf (s : List Char) (r : Int) (positions : List Int) :
    ((gC2 s r).divideNodeCore 1 s positions).1.edgesWf :=
  divideNodeCore_edgesWf (gC2 s r) 1 s positions (gC2_edgesWf s r)

/-- The divided single-node graph's path collection: path `P` cut into
the mapping pieces. -/
theorem divC2_paths (s : List Char) (r : Int) (positions : List Int) :
    ((gC2 s r).divideNodeCore 1 s positions).1.paths
      = [("P", divideMappingPieces ⟨1, r, false, [⟨s.length, s.length, []⟩]⟩
          (List.range' 2 (piecesOf s 0 positions).length)
          ((piecesOf s 0 positions).map List.length))] := by
  obtain ⟨hs1, hs2, hs3, hs4, hs5, hs6, hs7, hs8, hs9, hs10, hs11, hs12⟩ :=
    createNodesFold_spec (piecesOf s 0 positions) (gC2 s r)
      (gC2_freshCounter s r) (gC2_idIndexWf s r)
  unfold VG.divideNodeCore
  dsimp only
  rw [(destroyNode_frame _ 1).2]
  dsimp only
  rw [(chainFold_frame _ _).2.2.2, (e2cFold_frame _ _).2.2.2, hs8,
    show ((piecesOf s 0 positions).foldl createStep (gC2 s r, [])).2.reverse
      = List.range' 2 (piecesOf s 0 positions).length from by
        rw [hs1, gC2_freshId]]
  show [("P", [(⟨1, r, false, [⟨s.length, s.length, []⟩]⟩ : MappingT)].flatMap _)]
    = _
  simp only [List.flatMap_cons, List.flatMap_nil, List.append_nil]
  rw [if_pos (by rfl)]
  rw [if_neg (by simp)]

/-- The edges and outer-side adjacency of the divided single-node graph:
every edge links two parts, and the first part's start and the last
part's end are free. -/
theorem divC2_edges (s : List Char) (r : Int) (positions : List Int) :
    (∀ e ∈ ((gC2 s r).divideNodeCore 1 s positions).1.edges,
      e.efrom ∈ List.range' 2 (piecesOf s 0 positions).length ∧
      e.eto ∈ List.range' 2 (piecesOf s 0 positions).length) ∧
    ((gC2 s r).divideNodeCore 1 s positions).1.edgesStart 2 = [] ∧
    ((gC2 s r).divideNodeCore 1 s positions).1.edgesEnd
      ((piecesOf s 0 positions).length + 1) = [] := by
  obtain ⟨hs1, hs2, hs3, hs4, hs5, hs6, hs7, hs8, hs9, hs10, hs11, hs12⟩ :=
    createNodesFold_spec (piecesOf s 0 positions) (gC2 s r)
      (gC2_freshCounter s r) (gC2_idIndexWf s r)
  have hlenpos : 1 ≤ (piecesOf s 0 positions).length := by
    rw [piecesOf_length]
    omega
  unfold VG.divideNodeCore
  dsimp only
  rw [edgesStart_of_nil ((piecesOf s 0 positions).foldl createStep (gC2 s r, [])).1
      (hs10.trans rfl) 1,
    edgesEnd_of_nil ((piecesOf s 0 positions).foldl createStep (gC2 s r, [])).1
      (hs11.trans rfl) 1]
  simp only [List.map_nil, List.nil_append, List.foldl_nil]
  rw [show ((piecesOf s 0 positions).foldl createStep (gC2 s r, [])).2.reverse
      = List.range' 2 (piecesOf s 0 positions).length from by
        rw [hs1, gC2_freshId]]
  rw [range'_zip_tail]
  set P := piecesOf s 0 positions with hP
  set nfC := (P.foldl createStep (gC2 s r, [])).1 with hnfC
  set mapListC := (List.range' 2 (P.length - 1)).map (fun i => (i, i + 1))
    with hmlC
  have hpq1 : ∀ pq ∈ mapListC, pq.2 ≠ 1 := by
    intro pq hpq
    obtain ⟨i, hi, rfl⟩ := List.mem_map.mp hpq
    rw [mem_range'_iff] at hi
    omega
  have hpq2 : ∀ pq ∈ mapListC, pq.1 ≠ 1 := by
    intro pq hpq
    obtain ⟨i, hi, rfl⟩ := List.mem_map.mp hpq
    rw [mem_range'_iff] at hi
    omega
  have hpq3 : ∀ pq ∈ mapListC, pq.2 ≠ 2 := by
    intro pq hpq
    obtain ⟨i, hi, rfl⟩ := List.mem_map.mp hpq
    rw [mem_range'_iff] at hi
    omega
  have hpq4 : ∀ pq ∈ mapListC, pq.1 ≠ P.length + 1 := by
    intro pq hpq
    obtain ⟨i, hi, rfl⟩ := List.mem_map.mp hpq
    rw [mem_range'_iff] at hi
    omega
  have hquiet : ∀ (G : VG), alookup G.node_by_id 1 = some s →
      G.edgesStart 1 = [] → G.edgesEnd 1 = [] →
      (∀ e ∈ G.edges, e.efrom ∈ List.range' 2 P.length ∧
        e.eto ∈ List.range' 2 P.length) →
      G.edgesStart 2 = [] → G.edgesEnd (P.length + 1) = [] →
      ((∀ e ∈ (G.destroyNode 1).edges,
          e.efrom ∈ List.range' 2 P.length ∧ e.eto ∈ List.range' 2 P.length) ∧
       (G.destroyNode 1).edgesStart 2 = [] ∧
       (G.destroyNode 1).edgesEnd (P.length + 1) = []) := by
    intro G hn h1s h1e hmem h2s hbe
    obtain ⟨hq1, hq2, hq3, hq4⟩ := destroyNode_quiet G 1 s hn h1s h1e
    refine ⟨?_, ?_, ?_⟩
    · rw [hq1]
      exact hmem
    · unfold VG.edgesStart at h2s ⊢
      rw [hq3, alookup_aerase_ne _ _ _ (by omega)]
      exact h2s
    · unfold VG.edgesEnd at hbe ⊢
      rw [hq4, alookup_aerase_ne _ _ _ (by omega)]
      exact hbe
  apply hquiet
  · show alookup (mapListC.foldl
        (fun g pq => (g.createEdge pq.1 pq.2 false false).1) nfC).node_by_id 1
      = some s
    rw [(chainFold_frame _ _).2.1]
    exact (hs5 1 (by rw [gC2_freshId]; omega)).trans rfl
  · show VG.edgesStart (mapListC.foldl
        (fun g pq => (g.createEdge pq.1 pq.2 false false).1) nfC) 1 = []
    rw [chainFold_edgesStart_notin mapListC 1 hpq1 nfC]
    exact edgesStart_of_nil _ (hs10.trans rfl) 1
  · show VG.edgesEnd (mapListC.foldl
        (fun g pq => (g.createEdge pq.1 pq.2 false false).1) nfC) 1 = []
    rw [chainFold_edgesEnd_notin mapListC 1 hpq2 nfC]
    exact edgesEnd_of_nil _ (hs11.trans rfl) 1
  · show ∀ e ∈ (mapListC.foldl
        (fun g pq => (g.createEdge pq.1 pq.2 false false).1) nfC).edges,
      e.efrom ∈ List.range' 2 P.length ∧ e.eto ∈ List.range' 2 P.length
    intro e he
    rcases chainFold_edges_mem mapListC nfC e he with h1 | ⟨pq, hpq, rfl⟩
    · rw [hs9] at h1
      cases h1
    · obtain ⟨i, hi, rfl⟩ := List.mem_map.mp hpq
      rw [mem_range'_iff] at hi
      constructor
      · rw [mem_range'_iff]
        show 2 ≤ i ∧ i < 2 + P.length
        omega
      · rw [mem_range'_iff]
        show 2 ≤ i + 1 ∧ i + 1 < 2 + P.length
        omega
  · show VG.edgesStart (mapListC.foldl
        (fun g pq => (g.createEdge pq.1 pq.2 false false).1) nfC) 2 = []
    rw [chainFold_edgesStart_notin mapListC 2 hpq3 nfC]
    exact edgesStart_of_nil _ (hs10.trans rfl) 2
  · show VG.edgesEnd (mapListC.foldl
        (fun g pq => (g.createEdge pq.1 pq.2 false false).1) nfC)
      (P.length + 1) = []
    rw [chainFold_edgesEnd_notin mapListC (P.length + 1) hpq4 nfC]
    exact edgesEnd_of_nil _ (hs11.trans rfl) (P.length + 1)

/-- The last element of a traversal run built over a consecutive id
block. -/
theorem getLast_cons_map_range' (x : Trav) (f : Nat → Trav) (a k : Nat)
    (h : (List.range' a (k + 1)).map f ≠ []) :
    (x :: (List.range' a (k + 1)).map f).getLast (by simp) = f (a + k) := by
  rw [List.getLast_cons h]
  have h1 : ((List.range' a (k + 1)).map f).getLast? = some (f (a + k)) := by
    rw [List.getLast?_map, List.range'_1_concat, List.getLast?_concat]
    rfl
  rw [List.getLast?_eq_getLast _ h] at h1
  exact Option.some_inj.mp h1

/-- The sequences of the run of parts, recovered from the id-block
lookups. -/
theorem run_map_seqs (g1 : VG) (P : List (List Char))
    (hseq : ∀ i, g1.getNodeSeq (2 + i) = P[i]?) :
    (List.range' 2 P.length).map (fun k => (g1.getNodeSeq k).getD []) = P :=
  range'_map_getD (fun k => g1.getNodeSeq k) [] P 2 hseq

/-- `concat_mappings_for_nodes` on the run of parts: one mapping of path
`P`, copied from the first part's mapping and clobbered with a full-length
match. -/
theorem concatMappings_run (g1 : VG) (P : List (List Char)) (r : Int)
    (L : List MappingT) (edits0 : List Edit) (m : Nat)
    (hlen : P.length = m + 2)
    (hflat : P.flatten ≠ [])
    (hseq : ∀ i, g1.getNodeSeq (2 + i) = P[i]?)
    (hpaths : g1.paths = [("P", L)])
    (hLfilter : L.filter (fun mp => mp.node_id == 2) = [⟨2, r, false, edits0⟩]) :
    g1.concatMappingsForNodes
      ((List.range' 2 P.length).map (fun i => (⟨i, false⟩ : Trav)))
      = some [("P", [⟨2, r, false,
          [⟨P.flatten.length, P.flatten.length, []⟩]⟩])] := by
  have hrun : (List.range' 2 P.length).map (fun i => (⟨i, false⟩ : Trav))
      = ⟨2, false⟩ ::
        (List.range' 3 (m + 1)).map (fun i => (⟨i, false⟩ : Trav)) := by
    rw [hlen, List.range'_succ]
    rfl
  have hmapsFull : ((List.range' 2 P.length).map
        (fun i => (⟨i, false⟩ : Trav))).map
      (fun t => (g1.getNodeSeq t.node).getD []) = P := by
    rw [List.map_map]
    exact run_map_seqs g1 P hseq
  have hT : (((⟨2, false⟩ : Trav) ::
        (List.range' 3 (m + 1)).map (fun i => (⟨i, false⟩ : Trav))).map
      (fun t => ((g1.getNodeSeq t.node).getD []).length)).sum
      = P.flatten.length := by
    rw [← hrun,
      show (fun (t : Trav) => ((g1.getNodeSeq t.node).getD []).length)
        = (fun (l : List Char) => l.length) ∘
          (fun (t : Trav) => (g1.getNodeSeq t.node).getD []) from rfl,
      ← List.map_map, hmapsFull, List.length_flatten]
  rw [hrun]
  unfold VG.concatMappingsForNodes
  dsimp only
  rw [hT, if_neg (fun h => hflat (List.length_eq_zero.mp h)), hpaths]
  unfold Paths.get_node_mapping_by_path_name
  simp only [List.filterMap_cons, List.filterMap_nil]
  rw [hLfilter]
  simp only [List.isEmpty_cons, List.map_cons, List.map_nil]
  rfl

/-- The mapping-removal fold of `concat_nodes` changes only the
paths. -/
theorem removeFold_frame (ts : List Trav) :
    ∀ (g : VG),
      ((ts.foldl (fun g t =>
          { g with paths := g.paths.removeMappingsOnNode t.node }) g).nodes
        = g.nodes) ∧
      ((ts.foldl (fun g t =>
          { g with paths := g.paths.removeMappingsOnNode t.node }) g).node_by_id
        = g.node_by_id) ∧
      ((ts.foldl (fun g t =>
          { g with paths := g.paths.removeMappingsOnNode t.node }) g).edges
        = g.edges) ∧
      ((ts.foldl (fun g t =>
          { g with paths := g.paths.removeMappingsOnNode t.node }) g).edges_on_start
        = g.edges_on_start) ∧
      ((ts.foldl (fun g t =>
          { g with paths := g.paths.removeMappingsOnNode t.node }) g).edges_on_end
        = g.edges_on_end) ∧
      ((ts.foldl (fun g t =>
          { g with paths := g.paths.removeMappingsOnNode t.node }) g).edge_by_sides
        = g.edge_by_sides) := by
  induction ts with
  | nil => intro g; exact ⟨rfl, rfl, rfl, rfl, rfl, rfl⟩
  | cons t ts' ih =>
    intro g
    simp only [List.foldl_cons]
    exact ih _

/-- Appending a mapping to an existing empty path. -/
theorem appendMapping_empty (M : MappingT) :
    Paths.appendMapping [("P", ([] : List MappingT))] "P" M = [("P", [M])] :=
  rfl

/-- The run's node list is the consecutive id block. -/
theorem run_nodes_eq (a n : Nat) :
    ((List.range' a n).map (fun i => (⟨i, false⟩ : Trav))).map Trav.node
      = List.range' a n := by
  rw [List.map_map]
  exact List.map_id' _

/-- Executing `concat_nodes` on the run of parts of the divided
single-node graph: the parts fuse into one fresh node carrying the whole
sequence, every part (and every edge) is destroyed, and path `P` ends up
with the single full-length rank-`r` mapping on the new node. -/
theorem concat_run_spec (g1 : VG) (P : List (List Char)) (r : Int)
    (L : List MappingT) (edits0 : List Edit) (m : Nat)
    (hlen : P.length = m + 2)
    (hPne : ∀ pc ∈ P, pc ≠ [])
    (hseq : ∀ i, g1.getNodeSeq (2 + i) = P[i]?)
    (hpaths : g1.paths = [("P", L)])
    (hLnode : ∀ mp ∈ L, mp.node_id ∈ List.range' 2 P.length)
    (hLfilter : L.filter (fun mp => mp.node_id == 2) = [⟨2, r, false, edits0⟩])
    (hs2 : g1.edgesStart 2 = [])
    (hsend : g1.edgesEnd (P.length + 1) = [])
    (hedges : ∀ e ∈ g1.edges, e.efrom ∈ List.range' 2 P.length ∧
      e.eto ∈ List.range' 2 P.length)
    (hwf : g1.edgesWf)
    (hcur : g1.current_id = 2 + P.length) :
    ∃ g2, g1.concatNodes ((List.range' 2 P.length).map
        (fun i => (⟨i, false⟩ : Trav))) = some (g2, 2 + P.length) ∧
      g2.getNodeSeq (2 + P.length) = some P.flatten ∧
      (∀ k, k ≠ 2 + P.length → g2.getNodeSeq k =
        (if k ∈ List.range' 2 P.length then none else g1.getNodeSeq k)) ∧
      g2.edges = [] ∧
      g2.paths = [("P", [⟨2 + P.length, r, false,
        [⟨P.flatten.length, P.flatten.length, []⟩]⟩])] := by
  have hflat : P.flatten ≠ [] := by
    cases P with
    | nil => simp at hlen
    | cons p0 rest =>
      intro hcon
      rw [List.flatten_cons, List.append_eq_nil] at hcon
      exact hPne p0 (List.mem_cons_self _ _) hcon.1
  have hcm := concatMappings_run g1 P r L edits0 m hlen hflat hseq hpaths hLfilter
  have hrun : (List.range' 2 P.length).map (fun i => (⟨i, false⟩ : Trav))
      = ⟨2, false⟩ ::
        (List.range' 3 (m + 1)).map (fun i => (⟨i, false⟩ : Trav)) := by
    rw [hlen, List.range'_succ]
    rfl
  have hseqflat : ((List.range' 2 P.length).map
        (fun i => (⟨i, false⟩ : Trav))).flatMap (fun t => g1.getSequence t)
      = P.flatten := by
    rw [List.flatMap_def, List.map_map]
    exact congrArg List.flatten (run_map_seqs g1 P hseq)
  have hconsnodes : ((⟨2, false⟩ : Trav) ::
        (List.range' 3 (m + 1)).map (fun i => (⟨i, false⟩ : Trav))).map Trav.node
      = List.range' 2 P.length := by
    rw [← hrun, run_nodes_eq]
  have hfinal : ∀ (G : VG),
      G.node_by_id = aupdate g1.node_by_id (2 + P.length) P.flatten →
      G.paths = [("P", [⟨2 + P.length, r, false,
        [⟨P.flatten.length, P.flatten.length, []⟩]⟩])] →
      G.edges = g1.edges →
      G.edges_on_start = g1.edges_on_start →
      G.edges_on_end = g1.edges_on_end →
      G.edge_by_sides = g1.edge_by_sides →
      ∃ g2,
        (if ((List.any (VG.nodesPrev G ⟨2, false⟩) (fun prev =>
              if prev.node = 3 + m then prev.backward != false
              else if prev.node = 2 then !prev.backward != false else false)) ||
            (List.any (VG.nodesNext G ⟨3 + m, false⟩) (fun next =>
              if next.node = 3 + m then !next.backward != false else false)))
            = true
         then none
         else some
           (List.foldl (fun g t => VG.destroyNode g t.node)
             (VG.destroyNode
               (List.foldl
                 (fun g next =>
                   if next.node = 3 + m then
                     (VG.createEdgeTrav g ⟨2 + P.length, false⟩
                       ⟨2 + P.length, next.backward != false⟩).1
                   else if next.node = 2 then g
                   else (VG.createEdgeTrav g ⟨2 + P.length, false⟩ next).1)
                 (List.foldl
                   (fun g prev =>
                     (VG.createEdgeTrav g
                       (if prev.node = 3 + m then
                         (⟨2 + P.length, prev.backward != false⟩ : Trav)
                        else if prev.node = 2 then
                         (⟨2 + P.length, prev.backward != false⟩ : Trav)
                        else prev)
                       ⟨2 + P.length, false⟩).1)
                   G
                   (VG.nodesPrev G ⟨2, false⟩))
                 (VG.nodesNext G ⟨3 + m, false⟩))
               2)
             (List.map (fun i => (⟨i, false⟩ : Trav)) (List.range' 3 (m + 1))),
            2 + P.length))
          = some (g2, 2 + P.length) ∧
        g2.getNodeSeq (2 + P.length) = some P.flatten ∧
        (∀ k, k ≠ 2 + P.length → g2.getNodeSeq k =
          (if k ∈ List.range' 2 P.length then none else g1.getNodeSeq k)) ∧
        g2.edges = [] ∧
        g2.paths = [("P", [⟨2 + P.length, r, false,
          [⟨P.flatten.length, P.flatten.length, []⟩]⟩])] := by
    intro G hn hp he hes hen hbys
    have hwfG : G.edgesWf := edgesWf_of_eq_fields G g1 he hbys hes hen hwf
    have hprev : G.nodesPrev ⟨2, false⟩ = [] := by
      unfold VG.nodesPrev
      have h2 : G.edgesStart 2 = [] := by
        unfold VG.edgesStart at hs2 ⊢
        rw [hes]
        exact hs2
      show ((if false = true then G.edgesEnd 2 else G.edgesStart 2)).map _ = []
      rw [if_neg (by simp), h2]
      rfl
    have hnext : G.nodesNext ⟨3 + m, false⟩ = [] := by
      unfold VG.nodesNext
      have h3 : G.edgesEnd (3 + m) = [] := by
        unfold VG.edgesEnd at hsend ⊢
        rw [hen, show (3 + m) = P.length + 1 by omega]
        exact hsend
      show ((if false = true then G.edgesStart (3 + m)
        else G.edgesEnd (3 + m))).map _ = []
      rw [if_neg (by simp), h3]
      rfl
    rw [hprev, hnext]
    simp only [List.any_nil, Bool.or_self, List.foldl_nil]
    rw [if_neg (by simp)]
    have hGseq : ∀ k, k ≠ 2 + P.length → G.getNodeSeq k = g1.getNodeSeq k := by
      intro k hk
      unfold VG.getNodeSeq
      rw [hn, alookup_aupdate_ne _ _ _ _ hk]
    have hGnid : G.getNodeSeq (2 + P.length) = some P.flatten := by
      unfold VG.getNodeSeq
      rw [hn]
      exact alookup_aupdate_self _ _ _
    have hnd : (((⟨2, false⟩ : Trav) :: (List.range' 3 (m + 1)).map
        (fun i => (⟨i, false⟩ : Trav))).map Trav.node).Nodup := by
      rw [hconsnodes]
      exact List.nodup_range' _ _
    have hpres : ∀ t ∈ ((⟨2, false⟩ : Trav) :: (List.range' 3 (m + 1)).map
        (fun i => (⟨i, false⟩ : Trav))),
        (G.getNodeSeq t.node).isSome = true := by
      intro t ht
      have htn : t.node ∈ List.range' 2 P.length := by
        rw [← hconsnodes]
        exact List.mem_map.mpr ⟨t, ht, rfl⟩
      rw [mem_range'_iff] at htn
      rw [hGseq t.node (by omega)]
      have hseqt := hseq (t.node - 2)
      rw [show 2 + (t.node - 2) = t.node by omega] at hseqt
      rw [hseqt]
      have hlt : t.node - 2 < P.length := by omega
      simp [List.getElem?_eq_getElem hlt]
    obtain ⟨hfWf, hfMem⟩ := destroyFoldTravs_edges
      (⟨2, false⟩ :: (List.range' 3 (m + 1)).map (fun i => (⟨i, false⟩ : Trav)))
      G hwfG hnd hpres
    refine ⟨_, rfl, ?_, ?_, ?_, ?_⟩
    · show (((⟨2, false⟩ : Trav) :: (List.range' 3 (m + 1)).map
          (fun i => (⟨i, false⟩ : Trav))).foldl
          (fun g t => VG.destroyNode g t.node) G).getNodeSeq (2 + P.length)
        = some P.flatten
      rw [destroyFoldTravs_getNodeSeq, hconsnodes,
        if_neg (by rw [mem_range'_iff]; omega)]
      exact hGnid
    · intro k hk
      show (((⟨2, false⟩ : Trav) :: (List.range' 3 (m + 1)).map
          (fun i => (⟨i, false⟩ : Trav))).foldl
          (fun g t => VG.destroyNode g t.node) G).getNodeSeq k
        = if k ∈ List.range' 2 P.length then none else g1.getNodeSeq k
      rw [destroyFoldTravs_getNodeSeq, hconsnodes]
      by_cases hkmem : k ∈ List.range' 2 P.length
      · rw [if_pos hkmem, if_pos hkmem]
      · rw [if_neg hkmem, if_neg hkmem]
        exact hGseq k hk
    · show (((⟨2, false⟩ : Trav) :: (List.range' 3 (m + 1)).map
          (fun i => (⟨i, false⟩ : Trav))).foldl
          (fun g t => VG.destroyNode g t.node) G).edges = []
      rw [List.eq_nil_iff_forall_not_mem]
      intro e hemem
      obtain ⟨heG, hninc⟩ := hfMem e hemem
      have heg1 : e ∈ g1.edges := by
        rw [← he]
        exact heG
      have hfrom := (hedges e heg1).1
      rw [← hconsnodes] at hfrom
      obtain ⟨t, ht, htn⟩ := List.mem_map.mp hfrom
      exact (hninc t ht).1 htn.symm
    · show (((⟨2, false⟩ : Trav) :: (List.range' 3 (m + 1)).map
          (fun i => (⟨i, false⟩ : Trav))).foldl
          (fun g t => VG.destroyNode g t.node) G).paths
        = [("P", [⟨2 + P.length, r, false,
            [⟨P.flatten.length, P.flatten.length, []⟩]⟩])]
      exact (foldl_paths (fun g (t : Trav) => (destroyNode_frame g t.node).2)
        _ G).trans hp
  -- run the pipeline up to the point `hfinal` applies
  rw [hrun] at hcm hseqflat
  rw [hrun]
  unfold VG.concatNodes
  dsimp only
  rw [getLast_cons_map_range' ⟨2, false⟩ _ 3 m (by simp),
    if_neg (fun h => by rw [Trav.mk.injEq] at h; omega), hcm]
  dsimp only
  rw [hseqflat]
  rw [show g1.createNode P.flatten
      = ({ g1.createNodeWithId P.flatten (2 + P.length)
            with current_id := 2 + P.length + 1 }, 2 + P.length) from by
        unfold VG.createNode
        rw [hcur, if_neg (by omega)]]
  dsimp only
  simp only [List.foldl_cons, List.foldl_nil]
  apply hfinal
  · dsimp only
    rw [(removeFold_frame _ _).2.1]
    exact createNodeWithId_node_by_id g1 P.flatten (2 + P.length)
  · dsimp only
    rw [removeFoldPaths]
    dsimp only
    have hpq : VG.paths (g1.createNodeWithId P.flatten (2 + P.length))
        = [("P", L)] := hpaths
    rw [hpq]
    show Paths.appendMapping
        (((⟨2, false⟩ : Trav) :: (List.range' 3 (m + 1)).map
          (fun i => (⟨i, false⟩ : Trav))).foldl
          (fun Pp t => Paths.removeMappingsOnNode Pp t.node) [("P", L)])
        "P" _
      = _
    rw [removeFold_single, filterFold_nil _ _ (by
      intro mp hmp
      rw [hconsnodes]
      exact hLnode mp hmp)]
    exact appendMapping_empty _
  · dsimp only
    rw [(removeFold_frame _ _).2.2.1]
    rfl
  · dsimp only
    rw [(removeFold_frame _ _).2.2.2.1]
    rfl
  · dsimp only
    rw [(removeFold_frame _ _).2.2.2.2.1]
    rfl
  · dsimp only
    rw [(removeFold_frame _ _).2.2.2.2.2]
    rfl

/-- The mapping pieces of a forward mapping over the consecutive-id
parts: every piece sits on a part, and exactly one piece (carrying the
first edit segment) sits on the first part. -/
theorem divideMappingPieces_node2 (m0 : MappingT) (hrev : m0.is_reverse = false)
    (n : Nat) (hn : 1 ≤ n) (lens : List Nat) :
    (∀ mp ∈ divideMappingPieces m0 (List.range' 2 n) lens,
      mp.node_id ∈ List.range' 2 n) ∧
    ∃ ed, (divideMappingPieces m0 (List.range' 2 n) lens).filter
        (fun mp => mp.node_id == 2)
      = [{ m0 with node_id := 2, edits := ed }] := by
  unfold divideMappingPieces
  dsimp only
  rw [hrev]
  simp only [Bool.false_eq_true, if_false]
  constructor
  · intro mp hmp
    obtain ⟨a, ha, b, hb, hc⟩ := mem_zipWith _ _ _ _ hmp
    subst hc
    exact ha
  · obtain ⟨s0, srest, hseg⟩ := List.exists_cons_of_ne_nil
      (l := segmentEdits m0.edits lens.dropLast) (by
        intro hnil
        have hl := segmentEdits_length lens.dropLast m0.edits
        rw [hnil] at hl
        simp at hl)
    refine ⟨s0, ?_⟩
    rw [show n = (n - 1) + 1 from by omega, List.range'_succ, hseg,
      List.zipWith_cons_cons, List.filter_cons,
      if_pos (show ((({ m0 with node_id := 2, edits := s0 } :
        MappingT).node_id == 2) = true) from rfl)]
    have htail : List.filter (fun mp => mp.node_id == 2)
        (List.zipWith (fun pid es =>
            ({ node_id := pid, rank := m0.rank, is_reverse := false,
               edits := es } : MappingT))
          (List.range' 3 (n - 1)) srest) = [] := by
      rw [List.filter_eq_nil_iff]
      intro mp hmp
      obtain ⟨a, ha, b, hb, hc⟩ := mem_zipWith _ _ _ _ hmp
      subst hc
      rw [mem_range'_iff] at ha
      simp only [beq_iff_eq]
      show ¬ a = 2
      omega
    rw [htail]

/-- C2: dividing the only node of the single-node graph (sequence `s`,
path `P` with one whole-node rank-`r` match mapping) at strictly
increasing interior offsets and then concatenating the resulting run of
parts yields the pre-split graph up to id renumbering: one node,
carrying exactly `s`, no edges, and path `P` again a single rank-`r`
mapping covering the whole node with one full-length match edit (in the
literal scenario, sequence "AAAACCCC" divided at offset 4 and
re-concatenated leaves one node with "AAAACCCC" and one mapping of
length 8 and rank 1). -/
theorem C2_divide_concat (s : List Char) (r : Int) (positions : List Int)
    (hs : s ≠ []) (hpos : positions ≠ [])
    (hchain : List.Chain' (fun a b => a < b) positions)
    (hin : ∀ p ∈ positions, 0 < p ∧ p < (s.length : Int)) :
    ∃ g1 g2,
      (gC2 s r).divideNode 1 positions
        = some (g1, List.range' 2 (positions.length + 1)) ∧
      g1.concatNodes ((List.range' 2 (positions.length + 1)).map
        (fun i => (⟨i, false⟩ : Trav)))
        = some (g2, 2 + (positions.length + 1)) ∧
      g2.getNodeSeq (2 + (positions.length + 1)) = some s ∧
      (∀ k, k ≠ 2 + (positions.length + 1) → g2.getNodeSeq k = none) ∧
      g2.edges = [] ∧
      g2.paths = [("P", [⟨2 + (positions.length + 1), r, false,
        [⟨s.length, s.length, []⟩]⟩])] := by
  have hPlen : (piecesOf s 0 positions).length = positions.length + 1 :=
    piecesOf_length s positions 0
  have hslen : 0 < s.length := List.length_pos.mpr hs
  have hchain0 : List.Chain' (fun a b => a < b) ((0 : Int) :: positions) := by
    cases positions with
    | nil => cases hpos rfl
    | cons q qs =>
      exact List.chain'_cons.mpr ⟨(hin q (List.mem_cons_self _ _)).1, hchain⟩
  have hPne : ∀ pc ∈ piecesOf s 0 positions, pc ≠ [] :=
    piecesOf_ne_nil s positions 0 (le_refl 0) (by exact_mod_cast hslen)
      hchain0 (fun p hp => (hin p hp).2)
  have hflat : (piecesOf s 0 positions).flatten = s := by
    rw [piecesOf_flatten s positions 0 (le_refl 0)
      (hchain0.imp (fun a b h => le_of_lt h))
      (fun p hp => le_of_lt (hin p hp).2)]
    rfl
  have hplpos : 1 ≤ positions.length := by
    cases positions with
    | nil => cases hpos rfl
    | cons q qs => simp
  have hdiv : (gC2 s r).divideNode 1 positions
      = some (((gC2 s r).divideNodeCore 1 s positions).1,
          List.range' 2 (positions.length + 1)) := by
    unfold VG.divideNode
    rw [show alookup (gC2 s r).node_by_id 1 = some s from rfl]
    dsimp only
    rw [if_neg (by
      intro hcon
      rw [List.any_eq_true] at hcon
      obtain ⟨p, hp, hfp⟩ := hcon
      have hb := hin p hp
      simp only [Bool.or_eq_true, decide_eq_true_eq] at hfp
      omega)]
    rw [show (gC2 s r).divideNodeCore 1 s positions
        = (((gC2 s r).divideNodeCore 1 s positions).1,
           List.range' 2 (positions.length + 1)) from by
      rw [show List.range' 2 (positions.length + 1)
          = ((gC2 s r).divideNodeCore 1 s positions).2 from by
        rw [divC2_parts, hPlen]]]
  obtain ⟨hLnode, ed, hed⟩ :=
    divideMappingPieces_node2 ⟨1, r, false, [⟨s.length, s.length, []⟩]⟩
      rfl (positions.length + 1) (by omega)
      ((piecesOf s 0 positions).map List.length)
  have hpathsg1 : ((gC2 s r).divideNodeCore 1 s positions).1.paths
      = [("P", divideMappingPieces ⟨1, r, false, [⟨s.length, s.length, []⟩]⟩
          (List.range' 2 (positions.length + 1))
          ((piecesOf s 0 positions).map List.length))] := by
    rw [divC2_paths, hPlen]
  obtain ⟨m, hm⟩ : ∃ m, positions.length = m + 1 :=
    ⟨positions.length - 1, by omega⟩
  obtain ⟨g2, hcc, hg2seq, hg2other, hg2edges, hg2paths⟩ :=
    concat_run_spec ((gC2 s r).divideNodeCore 1 s positions).1
      (piecesOf s 0 positions) r
      (divideMappingPieces ⟨1, r, false, [⟨s.length, s.length, []⟩]⟩
        (List.range' 2 (positions.length + 1))
        ((piecesOf s 0 positions).map List.length))
      ed m
      (by rw [hPlen]; omega)
      hPne
      (fun i => divC2_nodes s r positions i)
      hpathsg1
      (by
        intro mp hmp
        rw [hPlen]
        exact hLnode mp hmp)
      hed
      (divC2_edges s r positions).2.1
      (divC2_edges s r positions).2.2
      (divC2_edges s r positions).1
      (divC2_wf s r positions)
      (divC2_current s r positions)
  refine ⟨((gC2 s r).divideNodeCore 1 s positions).1, g2, hdiv, ?_, ?_, ?_,
    hg2edges, ?_⟩
  · rw [← hPlen]
    exact hcc
  · rw [← hPlen, hg2seq, hflat]
  · intro k hk
    have hk' : k ≠ 2 + (piecesOf s 0 positions).length := by
      rw [hPlen]
      exact hk
    rw [hg2other k hk']
    by_cases hkm : k ∈ List.range' 2 (piecesOf s 0 positions).length
    · rw [if_pos hkm]
    · rw [if_neg hkm]
      rw [mem_range'_iff] at hkm
      cases k with
      | zero => exact divC2_node0 s r positions
      | succ k1 =>
        cases k1 with
        | zero => exact divC2_node1 s r positions
        | succ k2 =>
          rw [show k2 + 1 + 1 = 2 + k2 from by omega, divC2_nodes]
          apply List.getElem?_eq_none
          omega
  · rw [hg2paths, hPlen, hflat]

/-- Witness: the literal scenario, sequence "AAAACCCC" divided at
offset 4 and re-concatenated. -/
theorem C2_divide_concat_witness :
    ((['A', 'A', 'A', 'A', 'C', 'C', 'C', 'C'] : List Char) ≠ [] ∧
     ([(4 : Int)] ≠ []) ∧
     List.Chain' (fun a b => a < b) [(4 : Int)] ∧
     (∀ p ∈ [(4 : Int)], 0 < p ∧ p < ((8 : Nat) : Int))) ∧
    ∃ g1 g2,
      (gC2 ['A', 'A', 'A', 'A', 'C', 'C', 'C', 'C'] 1).divideNode 1 [4]
        = some (g1, List.range' 2 2) ∧
      g1.concatNodes ((List.range' 2 2).map (fun i => (⟨i, false⟩ : Trav)))
        = some (g2, 4) ∧
      g2.getNodeSeq 4 = some ['A', 'A', 'A', 'A', 'C', 'C', 'C', 'C'] ∧
      (∀ k, k ≠ 4 → g2.getNodeSeq k = none) ∧
      g2.edges = [] ∧
      g2.paths = [("P", [⟨4, 1, false, [⟨8, 8, []⟩]⟩])] :=
  ⟨⟨by decide, by decide, by simp, by decide⟩,
   C2_divide_concat ['A', 'A', 'A', 'A', 'C', 'C', 'C', 'C'] 1 [4]
     (by decide) (by decide) (by simp) (by decide)⟩

/-! ## The perfect-path-neighbor predicate, declaratively -/

/-- Keys produced by a rank insertion. -/
theorem mem_keys_insertByRank (r : Int) (m : MappingT) :
    ∀ (l : List (Int × MappingT)) (k : Int),
      k ∈ (insertByRank l r m).map Prod.fst → k = r ∨ k ∈ l.map Prod.fst := by
  intro l
  induction l with
  | nil =>
    intro k hk
    simp only [insertByRank, List.map_cons, List.map_nil,
      List.mem_singleton] at hk
    exact Or.inl hk
  | cons p rest ih =>
    obtain ⟨r0, m0⟩ := p
    intro k hk
    simp only [insertByRank] at hk
    by_cases h1 : r < r0
    · rw [if_pos h1] at hk
      simp only [List.map_cons, List.mem_cons] at hk
      rcases hk with h | h | h
      · exact Or.inl h
      · exact Or.inr (by simp [h])
      · exact Or.inr (by simp [h])
    · rw [if_neg h1] at hk
      by_cases h2 : r = r0
      · rw [if_pos h2] at hk
        simp only [List.map_cons, List.mem_cons] at hk
        rcases hk with h | h
        · exact Or.inl h
        · exact Or.inr (by simp [h])
      · rw [if_neg h2] at hk
        simp only [List.map_cons, List.mem_cons] at hk
        rcases hk with h | h
        · exact Or.inr (by simp [h])
        · rcases ih k h with h3 | h3
          · exact Or.inl h3
          · exact Or.inr (by simp [h3])

/-- Rank insertion keeps the keys strictly increasing. -/
theorem insertByRank_keys_pairwise (r : Int) (m : MappingT) :
    ∀ (l : List (Int × MappingT)),
      ((l.map Prod.fst).Pairwise (fun a b => a < b)) →
      (((insertByRank l r m).map Prod.fst).Pairwise (fun a b => a < b)) := by
  intro l
  induction l with
  | nil =>
    intro _
    simp [insertByRank]
  | cons p rest ih =>
    obtain ⟨r0, m0⟩ := p
    intro hp
    simp only [List.map_cons, List.pairwise_cons] at hp
    obtain ⟨hr0, hrest⟩ := hp
    simp only [insertByRank]
    by_cases h1 : r < r0
    · rw [if_pos h1]
      simp only [List.map_cons, List.pairwise_cons]
      refine ⟨?_, hr0, hrest⟩
      intro b hb
      rcases List.mem_cons.mp hb with h | h
      · rw [h]
        exact h1
      · exact lt_trans h1 (hr0 b h)
    · rw [if_neg h1]
      by_cases h2 : r = r0
      · rw [if_pos h2]
        simp only [List.map_cons, List.pairwise_cons]
        subst h2
        exact ⟨hr0, hrest⟩
      · rw [if_neg h2]
        simp only [List.map_cons, List.pairwise_cons]
        refine ⟨?_, ih hrest⟩
        intro b hb
        rcases mem_keys_insertByRank r m rest b hb with h | h
        · rw [h]
          omega
        · exact hr0 b h

/-- The rank-map fold keeps its keys strictly increasing. -/
theorem rankMapAux_keys_pairwise :
    ∀ (ms : List MappingT) (acc : List (Int × MappingT)),
      ((acc.map Prod.fst).Pairwise (fun a b => a < b)) →
      (((ms.foldl (fun acc m => insertByRank acc m.rank m) acc).map
        Prod.fst).Pairwise (fun a b => a < b)) := by
  intro ms
  induction ms with
  | nil =>
    intro acc h
    exact h
  | cons m rest ih =>
    intro acc h
    simp only [List.foldl_cons]
    exact ih _ (insertByRank_keys_pairwise m.rank m acc h)

/-- The rank map has pairwise distinct rank keys. -/
theorem rankMap_keys_nodup (ms : List MappingT) :
    ((rankMap ms).map Prod.fst).Nodup :=
  (rankMapAux_keys_pairwise ms [] (by simp)).imp (fun hab => ne_of_lt hab)

/-- A rank lookup fails exactly on an absent key. -/
theorem lookupRank_eq_none_iff :
    ∀ (l : List (Int × MappingT)) (r : Int),
      lookupRank l r = none ↔ r ∉ l.map Prod.fst := by
  intro l
  induction l with
  | nil =>
    intro r
    simp [lookupRank]
  | cons p rest ih =>
    obtain ⟨r0, m0⟩ := p
    intro r
    simp only [lookupRank, List.map_cons, List.mem_cons]
    by_cases h : r = r0
    · rw [if_pos h]
      simp [h]
    · rw [if_neg h, ih]
      constructor
      · intro h1 h2
        rcases h2 with h2 | h2
        · exact h h2
        · exact h1 h2
      · intro h1 h2
        exact h1 (Or.inr h2)

/-- A successful rank lookup returns a present entry. -/
theorem lookupRank_some_mem :
    ∀ (l : List (Int × MappingT)) (r : Int) (m : MappingT),
      lookupRank l r = some m → (r, m) ∈ l := by
  intro l
  induction l with
  | nil =>
    intro r m h
    cases h
  | cons p rest ih =>
    obtain ⟨r0, m0⟩ := p
    intro r m h
    simp only [lookupRank] at h
    by_cases h1 : r = r0
    · rw [if_pos h1, Option.some_inj] at h
      subst h1
      subst h
      exact List.mem_cons_self _ _
    · rw [if_neg h1] at h
      exact List.mem_cons_of_mem _ (ih r m h)

/-- Erasing a present key permutes the key list into head-plus-rest. -/
theorem eraseRank_keys_perm :
    ∀ (l : List (Int × MappingT)) (r : Int), r ∈ l.map Prod.fst →
      (l.map Prod.fst).Perm (r :: (eraseRank l r).map Prod.fst) := by
  intro l
  induction l with
  | nil =>
    intro r hr
    cases hr
  | cons p rest ih =>
    obtain ⟨r0, m0⟩ := p
    intro r hr
    simp only [eraseRank]
    by_cases h : r = r0
    · rw [if_pos h]
      subst h
      exact List.Perm.refl _
    · rw [if_neg h]
      simp only [List.map_cons, List.mem_cons] at hr
      rcases hr with hr | hr
      · exact absurd hr h
      · simp only [List.map_cons]
        exact ((ih r hr).cons r0).trans (List.Perm.swap r r0 _)

/-- Erasure only drops entries. -/
theorem mem_eraseRank :
    ∀ (l : List (Int × MappingT)) (r : Int) (x : Int × MappingT),
      x ∈ eraseRank l r → x ∈ l := by
  intro l
  induction l with
  | nil =>
    intro r x hx
    cases hx
  | cons p rest ih =>
    obtain ⟨r0, m0⟩ := p
    intro r x hx
    simp only [eraseRank] at hx
    by_cases h : r = r0
    · rw [if_pos h] at hx
      exact List.mem_cons_of_mem _ hx
    · rw [if_neg h] at hx
      rcases List.mem_cons.mp hx with h1 | h1
      · exact h1 ▸ List.mem_cons_self _ _
      · exact List.mem_cons_of_mem _ (ih r x h1)

/-- An entry dropped by erasure carried the erased key. -/
theorem not_mem_eraseRank_key :
    ∀ (l : List (Int × MappingT)) (r : Int) (b : Int × MappingT),
      b ∈ l → b ∉ eraseRank l r → b.1 = r := by
  intro l
  induction l with
  | nil =>
    intro r b hb _
    cases hb
  | cons p rest ih =>
    obtain ⟨r0, m0⟩ := p
    intro r b hb hnb
    simp only [eraseRank] at hnb
    by_cases h : r = r0
    · rw [if_pos h] at hnb
      rcases List.mem_cons.mp hb with h1 | h1
      · rw [h1, ← h]
      · exact absurd h1 hnb
    · rw [if_neg h] at hnb
      rcases List.mem_cons.mp hb with h1 | h1
      · exact absurd (h1 ▸ List.mem_cons_self _ _) hnb
      · exact ih r b h1 (fun hc => hnb (List.mem_cons_of_mem _ hc))

/-- With distinct keys, entries are determined by their key. -/
theorem keys_nodup_unique :
    ∀ (l : List (Int × MappingT)), ((l.map Prod.fst).Nodup) →
      ∀ a ∈ l, ∀ b ∈ l, a.1 = b.1 → a = b := by
  intro l
  induction l with
  | nil =>
    intro _ a ha
    cases ha
  | cons p rest ih =>
    intro hnd a ha b hb hab
    simp only [List.map_cons, List.nodup_cons] at hnd
    rcases List.mem_cons.mp ha with h1 | h1 <;>
      rcases List.mem_cons.mp hb with h2 | h2
    · rw [h1, h2]
    · exfalso
      apply hnd.1
      rw [← h1, hab]
      exact List.mem_map.mpr ⟨b, h2, rfl⟩
    · exfalso
      apply hnd.1
      rw [← h2, ← hab]
      exact List.mem_map.mpr ⟨a, h1, rfl⟩
    · exact ih hnd.2 a h1 b h2 hab

/-- The rank the adjacency loop expects the right-hand partner of a
left-hand rank-keyed mapping to carry (the spec clause: "consecutive in
rank and consistently oriented with the two traversals"). -/
def expectedRank (lbw : Bool) (rm : Int × MappingT) : Int :=
  rm.1 + (if rm.2.is_reverse == lbw then 1 else -1)

/-- Stated from the spec clause (b): the right-hand rank-keyed mappings
are exactly the expected partners of the left-hand ones — the right key
multiset equals the multiset of expected ranks — and every partner pair
is consistently oriented with the two traversals. -/
def rankPairingSpec (lbw rbw : Bool) (l1 l2 : List (Int × MappingT)) : Prop :=
  (l2.map Prod.fst).Perm (l1.map (expectedRank lbw)) ∧
  ∀ rm ∈ l1, ∀ rm2 ∈ l2, rm2.1 = expectedRank lbw rm →
    ((rm.2.is_reverse == lbw) = (rm2.2.is_reverse == rbw))

/-- The imperative adjacency loop (lookup at rank ±1, orientation check,
erase, and final emptiness test) succeeds exactly on the declarative
rank-pairing property. -/
theorem matchRanks_iff (lbw rbw : Bool) :
    ∀ (l1 l2 : List (Int × MappingT)), ((l2.map Prod.fst).Nodup) →
      (matchRanks lbw rbw l1 l2 = some [] ↔ rankPairingSpec lbw rbw l1 l2) := by
  intro l1
  induction l1 with
  | nil =>
    intro l2 hl2
    simp only [matchRanks]
    unfold rankPairingSpec
    constructor
    · intro h
      rw [Option.some_inj] at h
      subst h
      simp
    · rintro ⟨hperm, _⟩
      simp only [List.map_nil] at hperm
      have h2 : l2.map Prod.fst = [] := hperm.eq_nil
      rw [List.map_eq_nil_iff] at h2
      rw [h2]
  | cons rm rest ih =>
    intro l2 hl2
    obtain ⟨r, m⟩ := rm
    cases hlk : lookupRank l2 (expectedRank lbw (r, m)) with
    | none =>
      have hlk2 : lookupRank l2
          (r + (if (m.is_reverse == lbw) = true then 1 else -1)) = none := hlk
      rw [show matchRanks lbw rbw ((r, m) :: rest) l2 = none from by
        simp only [matchRanks]
        rw [hlk2]]
      unfold rankPairingSpec
      constructor
      · intro h
        exact Option.noConfusion h
      · rintro ⟨hperm, _⟩
        exfalso
        have hmem : expectedRank lbw (r, m) ∈ l2.map Prod.fst := by
          refine hperm.mem_iff.mpr ?_
          simp only [List.map_cons, List.mem_cons]
          exact Or.inl trivial
        exact (lookupRank_eq_none_iff l2 _).mp hlk hmem
    | some m2 =>
      have hlk2 : lookupRank l2
          (r + (if (m.is_reverse == lbw) = true then 1 else -1)) = some m2 := hlk
      have hmem2 : (expectedRank lbw (r, m), m2) ∈ l2 :=
        lookupRank_some_mem l2 _ m2 hlk
      have hmemk : expectedRank lbw (r, m) ∈ l2.map Prod.fst :=
        List.mem_map.mpr ⟨_, hmem2, rfl⟩
      by_cases hor : ((m.is_reverse == lbw) != (m2.is_reverse == rbw)) = true
      · rw [show matchRanks lbw rbw ((r, m) :: rest) l2 = none from by
          simp only [matchRanks, hlk2]
          rw [if_pos hor]]
        unfold rankPairingSpec
        constructor
        · intro h
          exact Option.noConfusion h
        · rintro ⟨_, hcons⟩
          exfalso
          have hone := hcons (r, m) (List.mem_cons_self _ _)
            (expectedRank lbw (r, m), m2) hmem2 rfl
          rw [bne_iff_ne] at hor
          exact hor hone
      · rw [show matchRanks lbw rbw ((r, m) :: rest) l2
            = matchRanks lbw rbw rest
                (eraseRank l2 (expectedRank lbw (r, m))) from by
          simp only [matchRanks, hlk2]
          rw [if_neg hor]
          rfl]
        have hor2 : (m.is_reverse == lbw) = (m2.is_reverse == rbw) := by
          rcases Bool.eq_false_or_eq_true
            ((m.is_reverse == lbw) != (m2.is_reverse == rbw)) with h | h
          · exact absurd h hor
          · exact bne_eq_false_iff_eq.mp h
        have hpermE : (l2.map Prod.fst).Perm (expectedRank lbw (r, m) ::
            (eraseRank l2 (expectedRank lbw (r, m))).map Prod.fst) :=
          eraseRank_keys_perm l2 _ hmemk
        have hndcons := hpermE.nodup hl2
        rw [List.nodup_cons] at hndcons
        rw [ih (eraseRank l2 (expectedRank lbw (r, m))) hndcons.2]
        unfold rankPairingSpec
        constructor
        · rintro ⟨hp1, hp2⟩
          constructor
          · refine hpermE.trans ?_
            simp only [List.map_cons]
            exact hp1.cons _
          · intro a ha b hb hab
            rcases List.mem_cons.mp ha with h | h
            · subst h
              have hbeq : b = (expectedRank lbw (r, m), m2) := by
                refine keys_nodup_unique l2 hl2 b hb _ hmem2 ?_
                exact hab
              rw [hbeq]
              exact hor2
            · by_cases hbe : b ∈ eraseRank l2 (expectedRank lbw (r, m))
              · exact hp2 a h b hbe hab
              · exfalso
                have hbt : b.1 = expectedRank lbw (r, m) :=
                  not_mem_eraseRank_key l2 _ b hb hbe
                have hmemexp : expectedRank lbw a ∈
                    (eraseRank l2 (expectedRank lbw (r, m))).map Prod.fst :=
                  hp1.mem_iff.mpr (List.mem_map.mpr ⟨a, h, rfl⟩)
                rw [← hab, hbt] at hmemexp
                exact hndcons.1 hmemexp
        · rintro ⟨hp1, hp2⟩
          simp only [List.map_cons] at hp1
          constructor
          · exact (hpermE.symm.trans hp1).cons_inv
          · intro a ha b hb hab
            exact hp2 a (List.mem_cons_of_mem _ ha) b
              (mem_eraseRank l2 _ b hb) hab

/-- Two nodes ("AC" and "GT") joined by path `P` with rank-consecutive,
consistently oriented forward mappings, the first of which covers only
one of its node's two bases (not a total match). -/
def gC1 : VG :=
  { nodes := [(1, ['A', 'C']), (2, ['G', 'T'])],
    node_by_id := [(1, ['A', 'C']), (2, ['G', 'T'])],
    edges := [], edges_on_start := [], edges_on_end := [],
    edge_by_sides := [], current_id := 3,
    paths := [("P", [⟨1, 1, false, [⟨1, 1, []⟩]⟩,
      ⟨2, 2, false, [⟨2, 2, []⟩]⟩])] }

/-- C1, counterexample: `nodes_are_perfect_path_neighbors` returns true
on a pair whose left mapping is not a total match (it covers one base of
a two-base node), because the loop verifying condition (c) — every
mapping a full-node single-match — is commented out in the source; the
claim's "(a) and (b) and (c)" is therefore not necessary for a true
result. -/
theorem C1_counterexample :
    gC1.nodesArePerfectPathNeighbors ⟨1, false⟩ ⟨2, false⟩ = true ∧
    (Paths.get_node_mapping_by_path_name gC1.paths 1).all
      (fun nm => nm.2.all (fun mp => gC1.mappingIsTotalMatch mp)) = false :=
  ⟨by decide, by decide⟩

/-- C1, amended: `nodes_are_perfect_path_neighbors(u, v)` returns true
if and only if (a) the two nodes carry exactly the same path names and
(b) for every such path, the right node's rank-keyed mappings are
exactly the expected rank-consecutive partners of the left node's
(consistently oriented with the two traversals, nothing left over);
condition (c) — total-match coverage — is not checked by the code. -/
theorem C1_perfect_path_neighbors_amended (g : VG) (u v : Trav) :
    g.nodesArePerfectPathNeighbors u v = true ↔
      (Paths.of_node g.paths u.node = Paths.of_node g.paths v.node ∧
       ∀ nm ∈ Paths.get_node_mapping_by_path_name g.paths u.node,
         rankPairingSpec u.backward v.backward (rankMap nm.2)
           (rankMap ((alookup
             (Paths.get_node_mapping_by_path_name g.paths v.node)
             nm.1).getD []))) := by
  unfold VG.nodesArePerfectPathNeighbors
  dsimp only
  by_cases hof : Paths.of_node g.paths u.node = Paths.of_node g.paths v.node
  · rw [if_neg (fun hc => hc hof)]
    rw [List.all_eq_true]
    constructor
    · intro h
      refine ⟨hof, ?_⟩
      intro nm hnm
      have h2 := h nm hnm
      revert h2
      cases hmr : matchRanks u.backward v.backward (rankMap nm.2)
          (rankMap ((alookup
            (Paths.get_node_mapping_by_path_name g.paths v.node)
            nm.1).getD [])) with
      | none =>
        intro h2
        exact absurd h2 (by simp)
      | some leftover =>
        intro h2
        have hl : leftover = [] := by
          have h3 : leftover.isEmpty = true := h2
          simpa using h3
        subst hl
        rw [← matchRanks_iff u.backward v.backward _ _ (rankMap_keys_nodup _)]
        exact hmr
    · rintro ⟨_, hall⟩
      intro nm hnm
      have hmr := (matchRanks_iff u.backward v.backward (rankMap nm.2)
        (rankMap ((alookup
          (Paths.get_node_mapping_by_path_name g.paths v.node)
          nm.1).getD []))
        (rankMap_keys_nodup _)).mpr (hall nm hnm)
      rw [hmr]
      rfl
  · rw [if_pos hof]
    constructor
    · intro h
      exact absurd h (by simp)
    · rintro ⟨h1, _⟩
      exact absurd h1 hof

end VgSpec
